import Mathlib

/-!
# cptest lexer: scanning, classification, mask generation and sequence alignment

A shallow embedding of `lexer.go` of kuredoro/cptest.

* A Go `string` is a sequence of bytes: `GoString := List Nat`, each element a byte value.
  `len(s)` is `s.length`, `s[i]` is a fallible lookup.
* A run-time panic (index out of range) is `none`; every function that can reach an index
  expression returns an `Option`.
* Go loops are embedded with explicit fuel; running out of fuel is `none` as well, so that a
  result `some r` always means that the Go code terminates normally with `r`.
* `int` and `uint` are the 64-bit Go types; values are `Int` and `Nat`, with explicit
  wrap-around where the code negates an `int` or converts a `uint` to `int`.
* `Scan` is embedded together with the part of `bufio.Scanner` it runs on: the buffer that
  starts at 4096 bytes, doubles when full and stops at `MaxScanTokenSize`, and the split
  function `ScanLexemes` with `utf8.DecodeRune` and `unicode.IsSpace`.
-/

set_option autoImplicit false

/-- A Go string: its bytes. -/
abbrev GoString := List Nat

/-- The bytes of an ASCII literal (used to write concrete tokens). -/
def ascii (s : String) : GoString := s.toList.map Char.toNat

/-- The token `"\n"`. -/
def LF : GoString := [10]

/-- Go `'0' <= c && c <= '9'`. -/
def isDigit (c : Nat) : Bool := decide (48 ≤ c) && decide (c ≤ 57)

/-- Fallible slice/array write `xs[i] = v`: out of range is a panic. -/
def setAt {α : Type} (xs : List α) (i : Nat) (v : α) : Option (List α) :=
  if i < xs.length then some (xs.set i v) else none

/-- Go `for i := a; i < a + n; i++ { s = body i s }` (a counted loop: `n` iterations). -/
def forLoop {σ : Type} (body : Nat → σ → Option σ) : Nat → Nat → σ → Option σ
  | 0, _, s => some s
  | n + 1, i, s => (body i s).bind (forLoop body n (i + 1))

/-- Go `for cond(s) { s = body s }` with fuel: `none` when the fuel does not suffice. -/
def whileLoop {σ : Type} (cond : σ → Bool) (body : σ → Option σ) : Nat → σ → Option σ
  | 0, s => if cond s then none else some s
  | fuel + 1, s => if cond s then (body s).bind (whileLoop cond body fuel) else some s

/-! ## The Go standard library functions the lexer calls -/

namespace strings

/-- Go `strings.Split(s, sep)` for a one-byte separator: the pieces between the occurrences. -/
def Split (s : GoString) (sep : Nat) : List GoString :=
  match s with
  | [] => [[]]
  | c :: cs =>
    if c = sep then [] :: Split cs sep
    else
      match Split cs sep with
      | [] => [[c]]
      | h :: t => (c :: h) :: t

/-- Go `strings.IndexRune(s, r)` for an ASCII rune: index of the first occurrence, or `-1`. -/
def IndexRune (s : GoString) (r : Nat) : Int :=
  match s with
  | [] => -1
  | c :: cs =>
    if c = r then 0
    else
      let k := IndexRune cs r
      if k < 0 then -1 else k + 1

/-- Go `strings.Repeat(s, n)`. -/
def Repeat (s : GoString) (n : Nat) : GoString :=
  match n with
  | 0 => []
  | k + 1 => s ++ Repeat s k

end strings

namespace strconv

def maxUint64 : Nat := 2 ^ 64 - 1

def maxInt64 : Int := 2 ^ 63 - 1

def minInt64 : Int := -(2 ^ 63)

/-- The digit loop of the fast path of `Atoi`: `n = n*10 + int(ch - '0')`, a syntax error
(`none`) at the first byte that is not a digit. -/
def atoiFast : GoString → Nat → Option Nat
  | [], n => some n
  | ch :: cs, n => if isDigit ch then atoiFast cs (n * 10 + (ch - 48)) else none

/-- Outcome of `ParseUint`. -/
inductive UintResult where
  | ok (n : Nat)
  | syntaxErr
  | rangeErr
  deriving DecidableEq, Repr

/-- The digit loop of `ParseUint(s, 10, 64)`: the bytes are read left to right, a byte that is
not a digit is a syntax error, an overflow of `uint64` is a range error (reported at once). -/
def parseUintLoop : GoString → Nat → UintResult
  | [], n => .ok n
  | c :: cs, n =>
    if !isDigit c then .syntaxErr
    else if n ≥ maxUint64 / 10 + 1 then .rangeErr
    else if n * 10 + (c - 48) > maxUint64 then .rangeErr
    else parseUintLoop cs (n * 10 + (c - 48))

/-- Go `ParseUint(s, 10, 64)`. -/
def ParseUint (s : GoString) : UintResult :=
  if s = [] then .syntaxErr else parseUintLoop s 0

/-- Go `ParseInt(s, 10, 0)` with a 64-bit `int`: the value and whether `err == nil`. -/
def ParseInt (s : GoString) : Int × Bool :=
  match s with
  | [] => (0, false)
  | c :: cs =>
    let neg := decide (c = 45)
    let body := if c = 43 ∨ c = 45 then cs else c :: cs
    match ParseUint body with
    | .syntaxErr => (0, false)
    | .rangeErr => if neg then (minInt64, false) else (maxInt64, false)
    | .ok un =>
      if !neg ∧ un ≥ 2 ^ 63 then (maxInt64, false)
      else if neg ∧ un > 2 ^ 63 then (minInt64, false)
      else if neg then (-(un : Int), true) else ((un : Int), true)

/-- Go `strconv.Atoi(s)` with a 64-bit `int`: the value and whether `err == nil`.
Strings of 1 to 18 bytes take the fast path, the others go through `ParseInt`. -/
def Atoi (s : GoString) : Int × Bool :=
  match s with
  | [] => ParseInt s
  | c :: cs =>
    if s.length < 19 then
      if c = 45 ∨ c = 43 then
        if cs.length < 1 then (0, false)
        else
          match atoiFast cs 0 with
          | none => (0, false)
          | some n => if c = 45 then (-(n : Int), true) else ((n : Int), true)
      else
        match atoiFast (c :: cs) 0 with
        | none => (0, false)
        | some n => ((n : Int), true)
    else ParseInt s

end strconv

/-- Two's complement wrap-around of a 64-bit `int`. -/
def wrapInt64 (x : Int) : Int := (x + 2 ^ 63) % 2 ^ 64 - 2 ^ 63

/-! ## lexer.go -/

def VALID_INT_MAX_LEN : Nat := 10

inductive LexemeType where
  | STRXM
  | FLOATXM
  | INTXM
  deriving DecidableEq, Repr

/-- The numeric value of a `LexemeType` constant (`iota`). -/
def LexemeType.toNat : LexemeType → Nat
  | .STRXM => 0
  | .FLOATXM => 1
  | .INTXM => 2

def IsIntLexeme (xm : GoString) : Bool :=
  (strconv.Atoi xm).2 && decide (xm.length ≤ VALID_INT_MAX_LEN)

/-- `IsFloatLexeme`; `xm[0]` panics on the empty string. The `range` loop decodes runes; a rune
is a digit or `'.'` exactly when it is a single such byte, so the loop is a test of the bytes. -/
def IsFloatLexeme (xm : GoString) : Option Bool :=
  match xm[0]? with
  | none => none
  | some c =>
    let xm := if c = 43 ∨ c = 45 then xm.drop 1 else xm
    let parts := strings.Split xm 46
    if parts.length > 2 then some false
    else if xm.any (fun r => !(isDigit r) && decide (r ≠ 46)) then some false
    else some (decide (xm ≠ [46]))

/-- `DeduceLexemeType`: the checkers of `TypeCheckers` in order (`IsFloatLexeme`, then
`IsIntLexeme`); the first one that fails decides. -/
def DeduceLexemeType (xm : GoString) : Option LexemeType :=
  (IsFloatLexeme xm).bind fun isFloat =>
    if !isFloat then some .STRXM
    else if !(IsIntLexeme xm) then some .FLOATXM
    else some .INTXM

/-- Go `int(u)` for a `uint` value `u` (64 bits): the same bits read as a signed integer. -/
def intOfUint (u : Nat) : Int := wrapInt64 (u : Int)

/-- The `Lexer`; `Precision` is a Go `uint`. -/
structure Lexer where
  Precision : Nat

/-- Modelled from the spec: the type `RichText` (its declaration is not among the sources): a
token string together with its mask. -/
structure RichText where
  Str : GoString
  Mask : List Bool
  deriving DecidableEq, Repr

/-- Modelled from the spec: `RichText.Colorful` (not among the sources): a token is flagged
(colorful) if any mask entry is true. -/
def RichText.Colorful (rt : RichText) : Bool := rt.Mask.any id

def Lexer.GenMaskForString (_l : Lexer) (target source : GoString) : Option (List Bool) :=
  let commonLen := if source.length < target.length then source.length else target.length
  let mask := List.replicate target.length false
  (forLoop (fun i mask =>
      (target[i]?).bind fun t => (source[i]?).bind fun s => setAt mask i (decide (t ≠ s)))
    commonLen 0 mask).bind fun mask =>
  forLoop (fun i mask => setAt mask i true) (target.length - commonLen) commonLen mask

/-- The absolute value as `GenMaskForInt` computes it: `if v < 0 { v = -v }` on a 64-bit int. -/
def absInt64 (v : Int) : Int := if v < 0 then wrapInt64 (-v) else v

def Lexer.GenMaskForInt (_l : Lexer) (target source : GoString) : Option (List Bool) :=
  let mask := List.replicate target.length false
  if target = [] ∨ source = [] then some mask
  else
    (target[0]?).bind fun t0 => (source[0]?).bind fun s0 =>
    (if (t0 = 45 ∧ s0 ≠ 45) ∨ (t0 = 43 ∧ s0 = 45) then setAt mask 0 true else some mask).bind
    fun mask =>
    let targetVal := absInt64 (strconv.Atoi target).1
    let sourceVal := absInt64 (strconv.Atoi source).1
    if targetVal ≠ sourceVal then
      forLoop (fun i mask => setAt mask i true) mask.length 0 mask
    else some mask

/-- Go `s[i:]` for an `int` index: out of range is a panic. -/
def sliceFrom (s : GoString) (i : Int) : Option GoString :=
  if 0 ≤ i ∧ i ≤ s.length then some (s.drop i.toNat) else none

/-- The state of the fraction loop of `GenMaskForFloat`. -/
structure FracState where
  fracMask : List Bool
  equal : Bool

def Lexer.GenMaskForFloat (l : Lexer) (target source : GoString) : Option (List Bool) :=
  ((strings.Split target 46)[0]?).bind fun targetWhole =>
  ((strings.Split source 46)[0]?).bind fun sourceWhole =>
  let sourceWhole := if sourceWhole = [] then [48] else sourceWhole
  (l.GenMaskForInt targetWhole sourceWhole).bind fun mask =>
  if targetWhole = target then some mask
  else
    let mask := mask ++ [false]
    let targetFracStart := strings.IndexRune target 46 + 1
    let sourceFracStart := strings.IndexRune source 46 + 1
    let sourceFracStart := if sourceFracStart = 0 then (source.length : Int) else sourceFracStart
    (sliceFrom target targetFracStart).bind fun targetFrac =>
    (sliceFrom source sourceFracStart).bind fun sourceFrac =>
    let sourceFrac :=
      if targetFrac.length > sourceFrac.length then
        sourceFrac ++ strings.Repeat [48] (targetFrac.length - sourceFrac.length)
      else sourceFrac
    (forLoop (fun i (st : FracState) =>
        (targetFrac[i]?).bind fun t => (sourceFrac[i]?).bind fun s =>
        let equal := if t ≠ s then false else st.equal
        if !equal ∧ (i : Int) < intOfUint l.Precision then
          (setAt st.fracMask i true).map fun fm => { fracMask := fm, equal := equal }
        else some { fracMask := st.fracMask, equal := equal })
      targetFrac.length 0 { fracMask := List.replicate targetFrac.length false, equal := true }).map
    fun st => mask ++ st.fracMask

/-- `GenerateMask`: the generator of `MaskGenerators` for the lesser of the two types. -/
def Lexer.GenerateMask (l : Lexer) (target source : GoString) : Option (List Bool) :=
  (DeduceLexemeType target).bind fun targetType =>
  (DeduceLexemeType source).bind fun sourceType =>
  let commonType := if sourceType.toNat < targetType.toNat then sourceType else targetType
  match commonType with
  | .STRXM => l.GenMaskForString target source
  | .FLOATXM => l.GenMaskForFloat target source
  | .INTXM => l.GenMaskForInt target source

/-- The variables of `Compare`. -/
structure CmpState where
  rts : List RichText
  ok : Bool
  ti : Nat
  si : Nat
  deriving DecidableEq, Repr

/-- The inner loop `for ti < len(target) && target[ti] == "\n"` of `Compare`. -/
def skipTargetLF (target : List GoString) (fuel : Nat) (st : CmpState) : Option CmpState :=
  whileLoop (fun st => decide (st.ti < target.length) && decide (target[st.ti]? = some LF))
    (fun st => (setAt st.rts st.ti { Str := LF, Mask := [true] }).map fun rts =>
      { st with rts := rts, ok := false, ti := st.ti + 1 })
    fuel st

/-- The inner loop `for si < len(source) && source[si] == "\n"` of `Compare`. -/
def skipSourceLF (source : List GoString) (fuel : Nat) (st : CmpState) : Option CmpState :=
  whileLoop (fun st => decide (st.si < source.length) && decide (source[st.si]? = some LF))
    (fun st => some { st with si := st.si + 1 })
    fuel st

/-- The head of the body of the pairing loop of `Compare` ("Skip spurious LFs", lines 131-143):
the cursors are resynchronized before a pair is compared. -/
def resync (target source : List GoString) (st : CmpState) : Option CmpState :=
  (source[st.si]?).bind fun s =>
    if s ≠ LF then skipTargetLF target target.length st
    else (target[st.ti]?).bind fun t =>
      if t ≠ LF then skipSourceLF source source.length st else some st

/-- The pairing loop of `Compare` (lines 130-156), with fuel. -/
def compareLoop (l : Lexer) (target source : List GoString) : Nat → CmpState → Option CmpState
  | 0, st => if st.ti < target.length ∧ st.si < source.length then none else some st
  | fuel + 1, st =>
    if st.ti < target.length ∧ st.si < source.length then
      (resync target source st).bind fun st =>
      if st.ti = target.length ∨ st.si = source.length then some st
      else
        (target[st.ti]?).bind fun xm =>
        (source[st.si]?).bind fun src =>
        (l.GenerateMask xm src).bind fun mask =>
        (setAt st.rts st.ti { Str := xm, Mask := mask }).bind fun rts =>
        let ok := if RichText.Colorful { Str := xm, Mask := mask } then false else st.ok
        compareLoop l target source fuel { rts := rts, ok := ok, ti := st.ti + 1, si := st.si + 1 }
    else some st

/-- The closing loop of `Compare` (lines 158-163). -/
def flagRest (l : Lexer) (target : List GoString) (fuel : Nat) (st : CmpState) : Option CmpState :=
  whileLoop (fun st => decide (st.ti < target.length))
    (fun st => (target[st.ti]?).bind fun xm =>
      (l.GenMaskForString xm []).bind fun mask =>
      (setAt st.rts st.ti { Str := xm, Mask := mask }).map fun rts =>
        { st with rts := rts, ok := false, ti := st.ti + 1 })
    fuel st

def Lexer.Compare (l : Lexer) (target source : List GoString) : Option (List RichText × Bool) :=
  let rts := List.replicate target.length ({ Str := [], Mask := [] } : RichText)
  (compareLoop l target source (target.length + source.length)
      { rts := rts, ok := true, ti := 0, si := 0 }).bind fun st =>
  (flagRest l target target.length st).map fun st => (st.rts, st.ok)

/-! ## The Go standard library functions the scanner calls -/

namespace utf8

def RuneError : Nat := 0xFFFD

/-- The part of `utf8.DecodeRune` that follows the lookup of the first byte `p0` in the table
`first`: `sz` is the size of the encoding and `lo`, `hi` the range accepted for the second
byte (`acceptRanges`). -/
def decodeMulti (p0 sz lo hi : Nat) (p : GoString) : Nat × Nat :=
  if p.length < sz then (RuneError, 1)
  else if p.getD 1 0 < lo ∨ hi < p.getD 1 0 then (RuneError, 1)
  else if sz ≤ 2 then ((p0 % 32) * 64 + p.getD 1 0 % 64, 2)
  else if p.getD 2 0 < 0x80 ∨ 0xBF < p.getD 2 0 then (RuneError, 1)
  else if sz ≤ 3 then ((p0 % 16) * 4096 + (p.getD 1 0 % 64) * 64 + p.getD 2 0 % 64, 3)
  else if p.getD 3 0 < 0x80 ∨ 0xBF < p.getD 3 0 then (RuneError, 1)
  else ((p0 % 8) * 262144 + (p.getD 1 0 % 64) * 4096 + (p.getD 2 0 % 64) * 64
    + p.getD 3 0 % 64, 4)

/-- Go `utf8.DecodeRune(p)`: the first rune of `p` and its width in bytes. An empty `p` gives
`(RuneError, 0)`, an invalid or incomplete encoding gives `(RuneError, 1)`. The tables `first`
and `acceptRanges` are written out as comparisons. -/
def DecodeRune (p : GoString) : Nat × Nat :=
  match p with
  | [] => (RuneError, 0)
  | p0 :: _ =>
    if p0 < 0x80 then (p0, 1)
    else if p0 < 0xC2 ∨ 0xF4 < p0 then (RuneError, 1)
    else
      decodeMulti p0 (if p0 < 0xE0 then 2 else if p0 < 0xF0 then 3 else 4)
        (if p0 = 0xE0 then 0xA0 else if p0 = 0xF0 then 0x90 else 0x80)
        (if p0 = 0xED then 0x9F else if p0 = 0xF4 then 0x8F else 0xBF) p

end utf8

namespace unicode

/-- Go `unicode.IsSpace(r)`: the Latin-1 cases of the function and, above Latin-1, the table
`White_Space`. -/
def IsSpace (r : Nat) : Bool :=
  if r ≤ 0xFF then
    decide (r = 9 ∨ r = 10 ∨ r = 11 ∨ r = 12 ∨ r = 13 ∨ r = 32 ∨ r = 0x85 ∨ r = 0xA0)
  else
    decide (r = 0x1680 ∨ (0x2000 ≤ r ∧ r ≤ 0x200A) ∨ r = 0x2028 ∨ r = 0x2029 ∨ r = 0x202F
      ∨ r = 0x205F ∨ r = 0x3000)

end unicode

namespace bufio

def startBufSize : Nat := 4096

def MaxScanTokenSize : Nat := 64 * 1024

/-- The state of a `bufio.Scanner` that reads from a `strings.Reader`. -/
structure Scanner where
  /-- The part of the reader's string that has not been read yet. -/
  r : GoString
  /-- The bytes held: `s.buf[s.start:s.end]`. -/
  buf : GoString
  /-- The field `s.start`. -/
  start : Nat
  /-- The size of the buffer: `len(s.buf)`. -/
  cap : Nat
  /-- Whether `s.err != nil`; while scanning goes on the error is `io.EOF`. -/
  atEOF : Bool
  deriving DecidableEq, Repr

/-- Go `bufio.NewScanner(strings.NewReader(text))`. -/
def NewScanner (text : GoString) : Scanner :=
  { r := text, buf := [], start := 0, cap := 0, atEOF := false }

/-- The first part of the loop body of `(*Scanner).Scan`: when
`s.end > s.start || s.err != nil` the split function is called on the bytes held; `Sum.inl` is
a return of `Scan` (with the token, or `none` for `false`), `Sum.inr` the state the loop goes on
with. An advance beyond the bytes held is `ErrAdvanceTooFar`. -/
def Scanner.trySplit (split : GoString → Bool → Option (Nat × Option GoString)) (s : Scanner) :
    Option (Sum (Option GoString × Scanner) Scanner) :=
  if s.buf.length > 0 ∨ s.atEOF then
    (split s.buf s.atEOF).bind fun res =>
      if res.1 > s.buf.length then some (Sum.inl (none, s))
      else
        match res.2 with
        | some token =>
          some (Sum.inl (some token, { s with buf := s.buf.drop res.1, start := s.start + res.1 }))
        | none => some (Sum.inr { s with buf := s.buf.drop res.1, start := s.start + res.1 })
  else some (Sum.inr s)

/-- "Shift data to beginning of buffer if there's lots of empty space or space is needed." -/
def Scanner.shift (s : Scanner) : Scanner :=
  if s.start > 0 ∧ (s.start + s.buf.length = s.cap ∨ s.start > s.cap / 2) then
    { s with start := 0 }
  else s

/-- "Is the buffer full? If so, resize": a buffer of twice the size, at most
`MaxScanTokenSize`. -/
def Scanner.grow (s : Scanner) : Scanner :=
  if s.start + s.buf.length = s.cap then
    { s with cap := min (if s.cap * 2 = 0 then startBufSize else s.cap * 2) MaxScanTokenSize,
             start := 0 }
  else s

/-- "Finally we can read some input": a `strings.Reader` returns `min(free, unread)` bytes, or
`io.EOF` when nothing is unread. -/
def Scanner.read (s : Scanner) : Scanner :=
  if s.r = [] then { s with atEOF := true }
  else
    { s with buf := s.buf ++ s.r.take (min (s.cap - (s.start + s.buf.length)) s.r.length),
             r := s.r.drop (min (s.cap - (s.start + s.buf.length)) s.r.length) }

/-- Go `(*Scanner).Scan` with the split function `split` (its result is the advance and the
token, `none` for a nil token): the token if the call returns true, `none` if it returns false,
and the new state. The loop `for { ... }` carries fuel. A full buffer of `MaxScanTokenSize`
bytes is `ErrTooLong`: the call returns false. -/
def Scanner.Scan (split : GoString → Bool → Option (Nat × Option GoString)) :
    Nat → Scanner → Option (Option GoString × Scanner)
  | 0, _ => none
  | fuel + 1, s =>
    (s.trySplit split).bind fun step =>
    match step with
    | Sum.inl result => some result
    | Sum.inr s =>
      if s.atEOF then some (none, { s with start := 0, buf := [] })
      else if s.shift.start + s.shift.buf.length = s.shift.cap
          ∧ s.shift.cap ≥ MaxScanTokenSize then some (none, s.shift)
      else Scanner.Scan split fuel s.shift.grow.read

end bufio

/-! ## lexer.go: the scanner -/

/-- Go `data[a:b]`. -/
def goSlice (data : GoString) (a b : Nat) : GoString := (data.take b).drop a

/-- The first loop of `ScanLexemes` ("Skip leading spaces"): the final value of `start`. -/
def skipLeading (data : GoString) : Nat → Nat → Option Nat
  | 0, start =>
    if start < data.length ∧
        ¬ ((utf8.DecodeRune (data.drop start)).1 = 10
          ∨ unicode.IsSpace (utf8.DecodeRune (data.drop start)).1 = false) then none
    else some start
  | fuel + 1, start =>
    if start < data.length ∧
        ¬ ((utf8.DecodeRune (data.drop start)).1 = 10
          ∨ unicode.IsSpace (utf8.DecodeRune (data.drop start)).1 = false) then
      skipLeading data fuel (start + (utf8.DecodeRune (data.drop start)).2)
    else some start

/-- The second loop of `ScanLexemes` ("Scan until space, marking end of word"): `some res`
when the loop returns `res` (advance and token), `none` when it runs to the end of `data`. -/
def wordLoop (data : GoString) (start : Nat) :
    Nat → Nat → Option (Option (Nat × Option GoString))
  | 0, i => if i < data.length then none else some none
  | fuel + 1, i =>
    if i < data.length then
      let r := (utf8.DecodeRune (data.drop i)).1
      let width := (utf8.DecodeRune (data.drop i)).2
      if r = 10 then
        if i = start then some (some (i + width, some (goSlice data start (i + width))))
        else some (some (i, some (goSlice data start i)))
      else if unicode.IsSpace r then some (some (i + width, some (goSlice data start i)))
      else wordLoop data start fuel (i + width)
    else some none

/-- `ScanLexemes(data, atEOF)`: the advance and the token (`none` for a nil token); the error
is always nil. -/
def ScanLexemes (data : GoString) (atEOF : Bool) : Option (Nat × Option GoString) :=
  (skipLeading data data.length 0).bind fun start =>
  (wordLoop data start data.length start).bind fun res =>
  match res with
  | some res => some res
  | none =>
    if atEOF ∧ data.length > start then some (data.length, some (goSlice data start data.length))
    else some (start, none)

/-- The loop `for s.Scan() { xms = append(xms, s.Text()) }` of `Scan`, with fuel; `inner` is
the fuel of each call of `s.Scan()`. -/
def scanAll (inner : Nat) : Nat → bufio.Scanner → List GoString → Option (List GoString)
  | 0, _, _ => none
  | fuel + 1, s, xms =>
    (bufio.Scanner.Scan ScanLexemes inner s).bind fun res =>
      match res.1 with
      | some token => scanAll inner fuel res.2 (xms ++ [token])
      | none => some xms

def Lexer.Scan (_l : Lexer) (text : GoString) : Option (List GoString) :=
  scanAll (2 * text.length + 2) (2 * text.length + 2) (bufio.NewScanner text) []

/-! ## Closed forms and list-level definitions used in the statements and proofs -/

/-- Closed form of the string mask. -/
def strMaskFn (target source : GoString) : List Bool :=
  List.zipWith (fun a b => decide (a ≠ b)) target source
    ++ List.replicate (target.length - source.length) true

/-- The sign test of `GenMaskForInt`. -/
def signClash (target source : GoString) : Bool :=
  (decide (target.head? = some 45) && decide (source.head? ≠ some 45))
    || (decide (target.head? = some 43) && decide (source.head? = some 45))

/-- Closed form of the integer mask. -/
def intMaskFn (target source : GoString) : List Bool :=
  if target = [] ∨ source = [] then List.replicate target.length false
  else if absInt64 (strconv.Atoi target).1 ≠ absInt64 (strconv.Atoi source).1 then
    List.replicate target.length true
  else signClash target source :: List.replicate (target.length - 1) false

/-- The bytes before the first `'.'`. -/
def wholeOf (s : GoString) : GoString := s.takeWhile (fun c => decide (c ≠ 46))

/-- The bytes after the first `'.'` (none when there is no `'.'`). -/
def fracOf (s : GoString) : GoString := (s.dropWhile (fun c => decide (c ≠ 46))).drop 1

/-- Closed form of the fraction loop of `GenMaskForFloat`; a missing source digit reads `'0'`. -/
def fracMaskFn (p : Int) : Nat → Bool → GoString → GoString → List Bool
  | _, _, [], _ => []
  | i, eq, t :: tf, sf =>
    let eq1 := eq && decide (t = sf.headD 48)
    (!eq1 && decide ((i : Int) < p)) :: fracMaskFn p (i + 1) eq1 tf sf.tail

/-- Closed form of the float mask. -/
def floatMaskFn (p : Int) (target source : GoString) : List Bool :=
  intMaskFn (wholeOf target) (if wholeOf source = [] then [48] else wholeOf source)
    ++ (if wholeOf target = target then []
        else false :: fracMaskFn p 0 true (fracOf target) (fracOf source))

/-- The string that `IsFloatLexeme` examines once the optional sign is removed. -/
def unsignedPart (xm : GoString) : GoString :=
  if xm.head? = some 43 ∨ xm.head? = some 45 then xm.drop 1 else xm

/-- Closed form of `IsFloatLexeme` on a non-empty token. -/
def floatOk (xm : GoString) : Bool :=
  decide ((strings.Split (unsignedPart xm) 46).length ≤ 2)
    && (unsignedPart xm).all (fun r => isDigit r || decide (r = 46))
    && decide (unsignedPart xm ≠ [46])

/-- Closed form of `DeduceLexemeType` on a non-empty token. -/
def typeFn (xm : GoString) : LexemeType :=
  if !floatOk xm then .STRXM else if !IsIntLexeme xm then .FLOATXM else .INTXM

/-- Closed form of `GenerateMask` on non-empty tokens. -/
def maskFn (l : Lexer) (target source : GoString) : List Bool :=
  match (if (typeFn source).toNat < (typeFn target).toNat then typeFn source else typeFn target) with
  | .STRXM => strMaskFn target source
  | .FLOATXM => floatMaskFn (intOfUint l.Precision) target source
  | .INTXM => intMaskFn target source

/-- The entry that the closing loop of `Compare` writes for an unmatched target token. -/
def flagAll (t : GoString) : RichText := { Str := t, Mask := strMaskFn t [] }

/-- List form of `Compare`: the entries for the remaining target tokens and whether all of
them are unflagged, given the remaining source tokens. -/
def alignL (l : Lexer) : List GoString → List GoString → List RichText × Bool
  | [], _ => ([], true)
  | t :: ts, src =>
    if t = LF then
      match src with
      | [] => ((t :: ts).map flagAll, false)
      | s :: ss =>
        if s = LF then
          ({ Str := t, Mask := maskFn l t s } :: (alignL l ts ss).1,
            !((maskFn l t s).any id) && (alignL l ts ss).2)
        else
          ({ Str := LF, Mask := [true] } :: (alignL l ts (s :: ss)).1, false)
    else
      match src.dropWhile (fun s => decide (s = LF)) with
      | [] => ((t :: ts).map flagAll, false)
      | s :: ss =>
        ({ Str := t, Mask := maskFn l t s } :: (alignL l ts ss).1,
          !((maskFn l t s).any id) && (alignL l ts ss).2)

/-- The result that `Compare` will return when it continues from the state `st`. -/
def predict (l : Lexer) (target source : List GoString) (st : CmpState) : List RichText × Bool :=
  (st.rts.take st.ti ++ (alignL l (target.drop st.ti) (source.drop st.si)).1,
    st.ok && (alignL l (target.drop st.ti) (source.drop st.si)).2)

/-- The entry of a token whose mask has no flagged position. -/
def cleanEntry (t : GoString) : RichText := { Str := t, Mask := List.replicate t.length false }

/-- `InsertsLF target source`: `source` is obtained from `target` by inserting any number of
`"\n"` tokens at any positions (start, middle or end). -/
inductive InsertsLF : List GoString → List GoString → Prop
  | nil : InsertsLF [] []
  | keep (x : GoString) {t s : List GoString} : InsertsLF t s → InsertsLF (x :: t) (x :: s)
  | insert {t s : List GoString} : InsertsLF t s → InsertsLF t (LF :: s)

/-- The runes of a string in order, as `for _, r := range s` yields them: `DecodeRune` applied
again and again (`fuel` bounds the number of runes). -/
def decodeRunes : Nat → GoString → List Nat
  | 0, _ => []
  | fuel + 1, p =>
    if p = [] then []
    else (utf8.DecodeRune p).1 :: decodeRunes fuel (p.drop (utf8.DecodeRune p).2)

/-- The runes of a string. -/
def runesOf (p : GoString) : List Nat := decodeRunes p.length p

/-- The string contains no Unicode whitespace character. -/
def hasNoSpace (p : GoString) : Prop := ∀ r ∈ runesOf p, unicode.IsSpace r = false

/-- The token invariant: a token is non-empty and is either exactly `"\n"` or contains no
Unicode whitespace character. -/
def tokenOK (t : GoString) : Prop := t ≠ [] ∧ (t = LF ∨ hasNoSpace t)

/-- The termination measure of the scanner: two for each unread byte, one for each byte held,
one as long as the end of the input has not been seen. -/
def scanMeasure (s : bufio.Scanner) : Nat :=
  2 * s.r.length + s.buf.length + (if s.atEOF then 0 else 1)

/-- A decimal numeral: an optional single leading `'+'` or `'-'` followed by decimal digits
with at most one `'.'`, containing at least one digit. -/
def isDecimalNumeral (t : GoString) : Bool :=
  (unsignedPart t).all (fun c => isDigit c || decide (c = 46))
    && decide ((unsignedPart t).count 46 ≤ 1) && (unsignedPart t).any isDigit

/-- The natural number that a run of decimal digits denotes. -/
def decimalValue (s : GoString) : Nat := s.foldl (fun n c => n * 10 + (c - 48)) 0

/-! ## Lemmas -/

theorem setAt_append_cons {α : Type} (pre : List α) (x v : α) (post : List α) :
    setAt (pre ++ x :: post) pre.length v = some (pre ++ v :: post) := by
  simp [setAt]

theorem forLoop_fill {α : Type} (v : α) (post : List α) :
    ∀ (ys pre : List α),
      forLoop (fun i m => setAt m i v) ys.length pre.length (pre ++ ys ++ post)
        = some (pre ++ List.replicate ys.length v ++ post) := by
  intro ys
  induction ys with
  | nil => intro pre; simp [forLoop]
  | cons y ys ih =>
    intro pre
    have h := ih (pre ++ [v])
    simp only [List.length_cons, forLoop, List.append_assoc, List.cons_append]
    rw [setAt_append_cons]
    simp only [Option.some_bind]
    simpa [List.replicate_succ] using h

theorem strLoop (tr sr : GoString) :
    ∀ (pre : List Bool) (tp sp : GoString), tp.length = pre.length → sp.length = pre.length →
      forLoop (fun i mask =>
          ((tp ++ tr)[i]?).bind fun t => ((sp ++ sr)[i]?).bind fun s =>
            setAt mask i (decide (t ≠ s)))
        (min tr.length sr.length) pre.length (pre ++ List.replicate tr.length false)
      = some (pre ++ List.zipWith (fun a b => decide (a ≠ b)) tr sr
          ++ List.replicate (tr.length - min tr.length sr.length) false) := by
  induction tr generalizing sr with
  | nil => intro pre tp sp _ _; simp [forLoop]
  | cons t tr ih =>
    intro pre tp sp h1 h2
    cases sr with
    | nil => simp [forLoop]
    | cons s sr =>
      have h := ih sr (pre ++ [decide (t ≠ s)]) (tp ++ [t]) (sp ++ [s]) (by simp [h1]) (by simp [h2])
      simp only [List.length_cons, Nat.succ_min_succ, forLoop, List.replicate_succ]
      rw [List.getElem?_append_right (by omega), List.getElem?_append_right (by omega)]
      simp only [h1, h2, Nat.sub_self, List.getElem?_cons_zero, Option.some_bind]
      rw [setAt_append_cons]
      simp only [Option.some_bind]
      simp only [List.append_assoc, List.singleton_append, List.length_append, List.length_singleton] at h
      simpa using h

theorem GenMaskForString_eq (l : Lexer) (target source : GoString) :
    l.GenMaskForString target source = some (strMaskFn target source) := by
  unfold Lexer.GenMaskForString strMaskFn
  have hmin : (if source.length < target.length then source.length else target.length)
      = min target.length source.length := by
    simp only [Nat.min_def]; split_ifs <;> omega
  simp only [hmin]
  have h1 := strLoop target source [] [] [] rfl rfl
  simp only [List.nil_append, List.length_nil] at h1
  rw [h1]
  simp only [Option.some_bind]
  have hz : (List.zipWith (fun a b => decide (a ≠ b)) target source).length
      = min target.length source.length := by simp
  have h2 := forLoop_fill true ([] : List Bool)
    (List.replicate (target.length - min target.length source.length) false)
    (List.zipWith (fun a b => decide (a ≠ b)) target source)
  simp only [List.length_replicate, hz, List.append_nil] at h2
  rw [h2]
  have h3 : target.length - min target.length source.length = target.length - source.length := by
    omega
  rw [h3]

theorem setAt_zero_cons {α : Type} (x v : α) (xs : List α) :
    setAt (x :: xs) 0 v = some (v :: xs) := by
  simp [setAt]

theorem forLoop_fill_all (m : List Bool) :
    forLoop (fun i mask => setAt mask i true) m.length 0 m
      = some (List.replicate m.length true) := by
  have := forLoop_fill true ([] : List Bool) m []
  simpa using this

theorem signClash_cons (t0 s0 : Nat) (tr sr : GoString) :
    signClash (t0 :: tr) (s0 :: sr) = decide ((t0 = 45 ∧ s0 ≠ 45) ∨ (t0 = 43 ∧ s0 = 45)) := by
  by_cases h1 : t0 = 45 <;> by_cases h2 : s0 = 45 <;> by_cases h3 : t0 = 43 <;>
    simp [signClash, h1, h2, h3]

theorem GenMaskForInt_eq (l : Lexer) (target source : GoString) :
    l.GenMaskForInt target source = some (intMaskFn target source) := by
  unfold Lexer.GenMaskForInt intMaskFn
  cases target with
  | nil => simp
  | cons t0 tr =>
    cases source with
    | nil => simp
    | cons s0 sr =>
      simp only [reduceCtorEq, or_self, if_false, List.length_cons, List.getElem?_cons_zero,
        Option.some_bind, List.replicate_succ, Nat.add_sub_cancel, signClash_cons,
        setAt_zero_cons]
      by_cases hc : (t0 = 45 ∧ s0 ≠ 45) ∨ (t0 = 43 ∧ s0 = 45)
      · simp only [hc, if_true, Option.some_bind, decide_True]
        split_ifs
        · have := forLoop_fill_all (true :: List.replicate tr.length false)
          simp only [List.length_cons, List.length_replicate] at this
          simp only [List.length_cons, List.length_replicate]
          rw [this]; simp [List.replicate_succ]
        · rfl
      · simp only [hc, if_false, Option.some_bind, decide_False]
        split_ifs
        · have := forLoop_fill_all (false :: List.replicate tr.length false)
          simp only [List.length_cons, List.length_replicate] at this
          simp only [List.length_cons, List.length_replicate]
          rw [this]; simp [List.replicate_succ]
        · rfl

theorem Split_head (s : GoString) : (strings.Split s 46)[0]? = some (wholeOf s) := by
  induction s with
  | nil => simp [strings.Split, wholeOf]
  | cons c cs ih =>
    unfold strings.Split
    by_cases h : c = 46
    · simp [h, wholeOf]
    · simp only [h, if_false]
      cases hs : strings.Split cs 46 with
      | nil => rw [hs] at ih; simp at ih
      | cons a t =>
        rw [hs] at ih
        simp only [List.getElem?_cons_zero, Option.some.injEq] at ih
        simp [wholeOf, h, ih]

theorem wholeOf_eq_self (s : GoString) : wholeOf s = s ↔ 46 ∉ s := by
  induction s with
  | nil => simp [wholeOf]
  | cons c cs ih =>
    by_cases h : c = 46
    · simp [wholeOf, h]
    · have h2 : ¬ (46 = c) := fun e => h e.symm
      simp only [wholeOf, List.takeWhile_cons, ne_eq, h, not_false_eq_true, decide_True, if_true,
        List.cons.injEq, true_and, List.mem_cons, h2, false_or]
      exact ih

theorem IndexRune_eq (s : GoString) :
    strings.IndexRune s 46 = if 46 ∈ s then ((wholeOf s).length : Int) else -1 := by
  induction s with
  | nil => simp [strings.IndexRune]
  | cons c cs ih =>
    unfold strings.IndexRune
    by_cases h : c = 46
    · simp [h, wholeOf]
    · have h2 : ¬ (46 = c) := fun e => h e.symm
      simp only [h, if_false, ih, List.mem_cons, h2, false_or]
      by_cases hm : 46 ∈ cs
      · simp only [hm, if_true]
        have : ¬ ((wholeOf cs).length : Int) < 0 := by omega
        simp [this, wholeOf, h]
      · simp [hm]

theorem drop_wholeOf_succ (s : GoString) : s.drop ((wholeOf s).length + 1) = fracOf s := by
  induction s with
  | nil => simp [wholeOf, fracOf]
  | cons c cs ih =>
    by_cases h : c = 46
    · simp [wholeOf, fracOf, h]
    · simp only [wholeOf, fracOf] at ih ⊢
      simp only [List.takeWhile_cons, List.dropWhile_cons, ne_eq, h, not_false_eq_true,
        decide_True, if_true, List.length_cons, List.drop_succ_cons]
      exact ih

theorem fracOf_of_not_mem (s : GoString) (h : 46 ∉ s) : fracOf s = [] := by
  induction s with
  | nil => simp [fracOf]
  | cons c cs ih =>
    simp only [List.mem_cons, not_or] at h
    have h1 : ¬ c = 46 := fun e => h.1 e.symm
    simp only [fracOf] at ih ⊢
    simp only [List.dropWhile_cons, ne_eq, h1, not_false_eq_true, decide_True, if_true]
    exact ih h.2

theorem Repeat_zero_byte (n : Nat) : strings.Repeat [48] n = List.replicate n 48 := by
  induction n with
  | zero => simp [strings.Repeat]
  | succ k ih => simp [strings.Repeat, ih, List.replicate_succ]

theorem fracMaskFn_pad (p : Int) (tf : GoString) :
    ∀ (i : Nat) (eq : Bool) (sf : GoString) (k : Nat),
      fracMaskFn p i eq tf (sf ++ List.replicate k 48) = fracMaskFn p i eq tf sf := by
  induction tf with
  | nil => intros; simp [fracMaskFn]
  | cons t tf ih =>
    intro i eq sf k
    cases sf with
    | nil =>
      cases k with
      | zero => simp
      | succ k =>
        have := ih (i + 1) (eq && decide (t = 48)) [] k
        simp only [List.nil_append] at this
        simp [fracMaskFn, List.replicate_succ, this]
    | cons s sf =>
      simp [fracMaskFn, ih]

theorem fracLoop (p : Int) (tr : GoString) :
    ∀ (sr : GoString) (pre : List Bool) (tp sp : GoString) (eq : Bool),
      tp.length = pre.length → sp.length = pre.length → tr.length ≤ sr.length →
      (forLoop (fun i (st : FracState) =>
        ((tp ++ tr)[i]?).bind fun t => ((sp ++ sr)[i]?).bind fun s =>
        let equal := if t ≠ s then false else st.equal
        if !equal ∧ (i : Int) < p then
          (setAt st.fracMask i true).map fun fm => { fracMask := fm, equal := equal }
        else some { fracMask := st.fracMask, equal := equal })
        tr.length pre.length { fracMask := pre ++ List.replicate tr.length false, equal := eq }).map
        FracState.fracMask
      = some (pre ++ fracMaskFn p pre.length eq tr sr) := by
  induction tr with
  | nil => intros; simp [forLoop, fracMaskFn]
  | cons t tr ih =>
    intro sr pre tp sp eq h1 h2 h3
    cases sr with
    | nil => simp at h3
    | cons s sr =>
      simp only [List.length_cons, Nat.add_le_add_iff_right] at h3
      simp only [List.length_cons, forLoop, List.replicate_succ]
      rw [List.getElem?_append_right (by omega), List.getElem?_append_right (by omega)]
      simp only [h1, h2, Nat.sub_self, List.getElem?_cons_zero, Option.some_bind]
      have hih := fun b e => ih sr (pre ++ [b]) (tp ++ [t]) (sp ++ [s]) e
        (by simp [h1]) (by simp [h2]) h3
      simp only [List.append_assoc, List.singleton_append, List.length_append,
        List.length_singleton] at hih
      have heq : (if t ≠ s then false else eq) = (eq && decide (t = s)) := by
        by_cases hts : t = s <;> simp [hts]
      simp only [heq, fracMaskFn, List.headD_cons, List.tail_cons]
      by_cases hc : (!(eq && decide (t = s))) = true ∧ (pre.length : Int) < p
      · rw [if_pos hc, setAt_append_cons]
        simp only [Option.map_some', Option.some_bind]
        rw [hih true]
        simp [hc.1, hc.2]
      · rw [if_neg hc]
        simp only [Option.some_bind]
        rw [hih false]
        have : (!(eq && decide (t = s)) && decide ((pre.length : Int) < p)) = false := by
          by_cases hp : (pre.length : Int) < p
          · simp only [hp, and_true] at hc; simp [hc]
          · simp [hp]
        rw [this]

theorem sliceFrom_frac_target (s : GoString) (h : 46 ∈ s) :
    sliceFrom s (strings.IndexRune s 46 + 1) = some (fracOf s) := by
  have hlen : (wholeOf s).length + 1 ≤ s.length := by
    have h1 : (wholeOf s).length ≤ s.length := by
      unfold wholeOf
      exact (List.takeWhile_prefix (fun c => decide (c ≠ 46)) (l := s)).length_le
    have h2 : (wholeOf s).length ≠ s.length := by
      intro e
      have : wholeOf s = s := by
        unfold wholeOf at e ⊢
        have := List.takeWhile_prefix (fun c => decide (c ≠ 46)) (l := s)
        exact List.IsPrefix.eq_of_length this e
      exact (wholeOf_eq_self s).1 this h
    omega
  rw [IndexRune_eq, if_pos h]
  unfold sliceFrom
  have hc : (0 : Int) ≤ ((wholeOf s).length : Int) + 1 ∧
      ((wholeOf s).length : Int) + 1 ≤ (s.length : Int) := by
    constructor <;> omega
  rw [if_pos hc]
  have : (((wholeOf s).length : Int) + 1).toNat = (wholeOf s).length + 1 := by omega
  rw [this, drop_wholeOf_succ]

theorem sliceFrom_frac_source (s : GoString) :
    sliceFrom s (if strings.IndexRune s 46 + 1 = 0 then (s.length : Int)
      else strings.IndexRune s 46 + 1) = some (fracOf s) := by
  by_cases h : 46 ∈ s
  · have hne : ¬ (strings.IndexRune s 46 + 1 = 0) := by
      rw [IndexRune_eq, if_pos h]; omega
    rw [if_neg hne]
    exact sliceFrom_frac_target s h
  · have he : strings.IndexRune s 46 + 1 = 0 := by
      rw [IndexRune_eq, if_neg h]; omega
    rw [if_pos he, fracOf_of_not_mem s h]
    unfold sliceFrom
    simp

theorem GenMaskForFloat_eq (l : Lexer) (target source : GoString) :
    l.GenMaskForFloat target source
      = some (floatMaskFn (intOfUint l.Precision) target source) := by
  unfold Lexer.GenMaskForFloat floatMaskFn
  simp only [Split_head, Option.some_bind, GenMaskForInt_eq]
  by_cases ht : wholeOf target = target
  · simp [ht]
  · have hmem : 46 ∈ target := by
      by_contra hn
      exact ht ((wholeOf_eq_self target).2 hn)
    simp only [ht, if_false, sliceFrom_frac_target target hmem, sliceFrom_frac_source,
      Option.some_bind, Repeat_zero_byte]
    have hpad : (if (fracOf target).length > (fracOf source).length then
          fracOf source ++ List.replicate ((fracOf target).length - (fracOf source).length) 48
        else fracOf source)
        = fracOf source ++ List.replicate ((fracOf target).length - (fracOf source).length) 48 := by
      split_ifs with hlt
      · rfl
      · have : (fracOf target).length - (fracOf source).length = 0 := by omega
        simp [this]
    rw [hpad]
    have hl := fracLoop (intOfUint l.Precision) (fracOf target)
      (fracOf source ++ List.replicate ((fracOf target).length - (fracOf source).length) 48)
      [] [] [] true rfl rfl (by simp; omega)
    simp only [List.nil_append, List.length_nil, fracMaskFn_pad] at hl
    cases hfl : forLoop (fun i (st : FracState) =>
        ((fracOf target)[i]?).bind fun t =>
        ((fracOf source ++ List.replicate ((fracOf target).length - (fracOf source).length) 48)[i]?).bind
          fun s =>
        let equal := if t ≠ s then false else st.equal
        if !equal ∧ (i : Int) < intOfUint l.Precision then
          (setAt st.fracMask i true).map fun fm => { fracMask := fm, equal := equal }
        else some { fracMask := st.fracMask, equal := equal })
      (fracOf target).length 0
      { fracMask := List.replicate (fracOf target).length false, equal := true } with
    | none => rw [hfl] at hl; simp at hl
    | some st =>
      rw [hfl] at hl
      simp only [Option.map_some', Option.some.injEq] at hl
      simp [hl]

theorem IsFloatLexeme_eq (xm : GoString) (h : xm ≠ []) : IsFloatLexeme xm = some (floatOk xm) := by
  cases xm with
  | nil => exact absurd rfl h
  | cons c cs =>
    unfold IsFloatLexeme floatOk unsignedPart
    simp only [List.getElem?_cons_zero, List.head?_cons, Option.some.injEq, List.drop_succ_cons,
      List.drop_zero]
    by_cases h1 : (strings.Split (if c = 43 ∨ c = 45 then cs else c :: cs) 46).length > 2
    · have h1' : ¬ (strings.Split (if c = 43 ∨ c = 45 then cs else c :: cs) 46).length ≤ 2 := by
        omega
      simp [h1, h1']
    · have h1' : (strings.Split (if c = 43 ∨ c = 45 then cs else c :: cs) 46).length ≤ 2 := by
        omega
      simp only [h1, if_false, h1', decide_True, Bool.true_and]
      by_cases h2 : (if c = 43 ∨ c = 45 then cs else c :: cs).any
          (fun r => !(isDigit r) && decide (r ≠ 46)) = true
      · rw [if_pos h2]
        have : (if c = 43 ∨ c = 45 then cs else c :: cs).all
            (fun r => isDigit r || decide (r = 46)) = false := by
          rw [List.any_eq_true] at h2
          obtain ⟨x, hx, hx2⟩ := h2
          rw [List.all_eq_false]
          refine ⟨x, hx, ?_⟩
          simp only [Bool.and_eq_true, Bool.not_eq_true', decide_eq_true_eq] at hx2
          simp [hx2.1, hx2.2]
        simp [this]
      · rw [if_neg h2]
        have : (if c = 43 ∨ c = 45 then cs else c :: cs).all
            (fun r => isDigit r || decide (r = 46)) = true := by
          rw [List.all_eq_true]
          intro x hx
          by_contra hn
          apply h2
          rw [List.any_eq_true]
          refine ⟨x, hx, ?_⟩
          simp only [Bool.or_eq_true, decide_eq_true_eq, not_or] at hn
          simp [hn.1, hn.2]
        simp [this]

theorem DeduceLexemeType_eq (xm : GoString) (h : xm ≠ []) :
    DeduceLexemeType xm = some (typeFn xm) := by
  unfold DeduceLexemeType typeFn
  rw [IsFloatLexeme_eq xm h]
  simp only [Option.some_bind]
  split_ifs <;> rfl

theorem GenerateMask_eq (l : Lexer) (target source : GoString) (ht : target ≠ [])
    (hs : source ≠ []) : l.GenerateMask target source = some (maskFn l target source) := by
  unfold Lexer.GenerateMask maskFn
  rw [DeduceLexemeType_eq target ht, DeduceLexemeType_eq source hs]
  simp only [Option.some_bind]
  split <;> simp_all [GenMaskForString_eq, GenMaskForInt_eq, GenMaskForFloat_eq]

theorem take_set_succ {α : Type} (xs : List α) (i : Nat) (v : α) (h : i < xs.length) :
    (xs.set i v).take (i + 1) = xs.take i ++ [v] := by
  induction xs generalizing i with
  | nil => simp at h
  | cons x xs ih =>
    cases i with
    | zero => simp
    | succ j =>
      simp only [List.length_cons, Nat.add_lt_add_iff_right] at h
      simp [ih j h]

theorem whileLoop_true {σ : Type} (cond : σ → Bool) (body : σ → Option σ) (fuel : Nat) (s : σ)
    (h : cond s = true) :
    whileLoop cond body (fuel + 1) s = (body s).bind (whileLoop cond body fuel) := by
  simp [whileLoop, h]

theorem whileLoop_false {σ : Type} (cond : σ → Bool) (body : σ → Option σ) (fuel : Nat) (s : σ)
    (h : cond s = false) : whileLoop cond body fuel s = some s := by
  cases fuel <;> simp [whileLoop, h]

theorem flagRest_eq (l : Lexer) (target : List GoString) :
    ∀ (fuel : Nat) (st : CmpState), st.rts.length = target.length → st.ti ≤ target.length →
      target.length - st.ti ≤ fuel →
      ∃ st1, flagRest l target fuel st = some st1 ∧
        st1.rts = st.rts.take st.ti ++ (target.drop st.ti).map flagAll ∧
        st1.ok = (st.ok && decide (st.ti = target.length)) := by
  intro fuel
  induction fuel with
  | zero =>
    intro st h1 h2 h3
    have h4 : st.ti = target.length := by omega
    refine ⟨st, ?_, ?_, ?_⟩
    · simp [flagRest, whileLoop, h4]
    · simp [h4, ← h1]
    · simp [h4]
  | succ fuel ih =>
    intro st h1 h2 h3
    by_cases hlt : st.ti < target.length
    · have hget : target[st.ti]? = some target[st.ti] := List.getElem?_eq_getElem hlt
      have hset : setAt st.rts st.ti (flagAll target[st.ti])
          = some (st.rts.set st.ti (flagAll target[st.ti])) := by
        simp [setAt, h1, hlt]
      obtain ⟨st1, e1, e2, e3⟩ := ih
        { st with rts := st.rts.set st.ti (flagAll target[st.ti]), ok := false, ti := st.ti + 1 }
        (by simp [h1]) (by simp; omega) (by simp; omega)
      refine ⟨st1, ?_, ?_, ?_⟩
      · unfold flagRest at e1 ⊢
        rw [whileLoop_true _ _ _ _ (by simp [hlt])]
        generalize whileLoop _ _ fuel = k at e1 ⊢
        simp only [hget, Option.some_bind, GenMaskForString_eq]
        unfold flagAll at hset e1
        rw [hset]
        exact e1
      · rw [e2]
        simp only
        rw [take_set_succ _ _ _ (by omega), List.drop_eq_getElem_cons hlt, List.map_cons,
          List.append_assoc, List.singleton_append]
      · rw [e3]
        have : st.ti ≠ target.length := by omega
        simp [this]
    · have h4 : st.ti = target.length := by omega
      refine ⟨st, ?_, ?_, ?_⟩
      · simp [flagRest, whileLoop, h4]
      · simp [h4, ← h1]
      · simp [h4]

theorem alignL_flag (l : Lexer) (ts : List GoString) (s : GoString) (ss : List GoString)
    (hs : s ≠ LF) :
    alignL l (LF :: ts) (s :: ss)
      = ({ Str := LF, Mask := [true] } :: (alignL l ts (s :: ss)).1, false) := by
  simp [alignL, hs]

theorem alignL_skip (l : Lexer) (t : GoString) (ts ss : List GoString) (ht : t ≠ LF) :
    alignL l (t :: ts) (LF :: ss) = alignL l (t :: ts) ss := by
  simp [alignL, ht]

theorem alignL_pair (l : Lexer) (t s : GoString) (ts ss : List GoString)
    (h : t = LF ↔ s = LF) :
    alignL l (t :: ts) (s :: ss)
      = ({ Str := t, Mask := maskFn l t s } :: (alignL l ts ss).1,
          !((maskFn l t s).any id) && (alignL l ts ss).2) := by
  by_cases ht : t = LF
  · have hs : s = LF := h.1 ht
    simp [alignL, ht, hs]
  · have hs : ¬ s = LF := fun e => ht (h.2 e)
    simp [alignL, ht, hs]

theorem alignL_nil_right (l : Lexer) (ts : List GoString) :
    alignL l ts [] = (ts.map flagAll, decide (ts = [])) := by
  cases ts with
  | nil => simp [alignL]
  | cons t ts => by_cases ht : t = LF <;> simp [alignL, ht]

theorem skipTargetLF_eq (l : Lexer) (target source : List GoString) :
    ∀ (fuel : Nat) (st : CmpState), st.rts.length = target.length → st.ti ≤ target.length →
      target.length - st.ti ≤ fuel → (∃ s, source[st.si]? = some s ∧ s ≠ LF) →
      ∃ st1, skipTargetLF target fuel st = some st1 ∧ st1.si = st.si ∧
        st1.rts.length = target.length ∧ st.ti ≤ st1.ti ∧ st1.ti ≤ target.length ∧
        target[st1.ti]? ≠ some LF ∧
        predict l target source st1 = predict l target source st := by
  intro fuel
  induction fuel with
  | zero =>
    intro st h1 h2 h3 _
    have h4 : st.ti = target.length := by omega
    refine ⟨st, ?_, rfl, h1, le_refl _, h2, ?_, rfl⟩
    · unfold skipTargetLF
      rw [whileLoop_false]
      simp [h4]
    · simp [h4]
  | succ fuel ih =>
    intro st h1 h2 h3 hs
    by_cases hc : st.ti < target.length ∧ target[st.ti]? = some LF
    · obtain ⟨hlt, hget⟩ := hc
      have hset : setAt st.rts st.ti ({ Str := LF, Mask := [true] } : RichText)
          = some (st.rts.set st.ti { Str := LF, Mask := [true] }) := by
        simp [setAt, h1, hlt]
      obtain ⟨st1, e1, e2, e3, e4, e5, e6, e7⟩ := ih
        { st with rts := st.rts.set st.ti { Str := LF, Mask := [true] }, ok := false,
                  ti := st.ti + 1 }
        (by simp [h1]) (by simp; omega) (by simp; omega) hs
      refine ⟨st1, ?_, e2, e3, ?_, e5, e6, ?_⟩
      · unfold skipTargetLF at e1 ⊢
        rw [whileLoop_true _ _ _ _ (by simp [hlt, hget])]
        generalize whileLoop _ _ fuel = k at e1 ⊢
        simp only [hset, Option.map_some', Option.some_bind]
        exact e1
      · simp only at e4; omega
      · rw [e7]
        obtain ⟨s, hs1, hs2⟩ := hs
        have hsi : st.si < source.length := by
          by_contra hn
          rw [List.getElem?_eq_none (by omega)] at hs1
          exact absurd hs1 (by simp)
        have hsv : source[st.si] = s := by
          rw [List.getElem?_eq_getElem hsi] at hs1
          exact Option.some.inj hs1
        have htv : target[st.ti] = LF := by
          rw [List.getElem?_eq_getElem hlt] at hget
          exact Option.some.inj hget
        unfold predict
        simp only
        rw [List.drop_eq_getElem_cons hlt, List.drop_eq_getElem_cons hsi, htv, hsv,
          alignL_flag l _ s _ hs2, take_set_succ _ _ _ (by omega)]
        simp
    · refine ⟨st, ?_, rfl, h1, le_refl _, h2, ?_, rfl⟩
      · unfold skipTargetLF
        rw [whileLoop_false]
        simp only [Bool.and_eq_false_iff, decide_eq_false_iff_not]
        by_cases hlt : st.ti < target.length
        · right; exact fun e => hc ⟨hlt, e⟩
        · left; exact hlt
      · intro e
        apply hc
        refine ⟨?_, e⟩
        by_contra hn
        rw [List.getElem?_eq_none (by omega)] at e
        exact absurd e (by simp)

theorem skipSourceLF_eq (l : Lexer) (target source : List GoString) :
    ∀ (fuel : Nat) (st : CmpState), st.si ≤ source.length →
      source.length - st.si ≤ fuel → (∃ t, target[st.ti]? = some t ∧ t ≠ LF) →
      ∃ st1, skipSourceLF source fuel st = some st1 ∧ st1.ti = st.ti ∧
        st1.rts = st.rts ∧ st1.ok = st.ok ∧ st1.si ≤ source.length ∧
        source[st1.si]? ≠ some LF ∧
        predict l target source st1 = predict l target source st := by
  intro fuel
  induction fuel with
  | zero =>
    intro st h2 h3 _
    have h4 : st.si = source.length := by omega
    refine ⟨st, ?_, rfl, rfl, rfl, h2, ?_, rfl⟩
    · unfold skipSourceLF
      rw [whileLoop_false]
      simp [h4]
    · simp [h4]
  | succ fuel ih =>
    intro st h2 h3 ht
    by_cases hc : st.si < source.length ∧ source[st.si]? = some LF
    · obtain ⟨hlt, hget⟩ := hc
      obtain ⟨st1, e1, e2, e3, e4, e5, e6, e7⟩ := ih
        { st with si := st.si + 1 } (by simp; omega) (by simp; omega) ht
      refine ⟨st1, ?_, e2, e3, e4, e5, e6, ?_⟩
      · unfold skipSourceLF at e1 ⊢
        rw [whileLoop_true _ _ _ _ (by simp [hlt, hget])]
        generalize whileLoop _ _ fuel = k at e1 ⊢
        simp only [Option.some_bind]
        exact e1
      · rw [e7]
        obtain ⟨t, ht1, ht2⟩ := ht
        have hti : st.ti < target.length := by
          by_contra hn
          rw [List.getElem?_eq_none (by omega)] at ht1
          exact absurd ht1 (by simp)
        have htv : target[st.ti] = t := by
          rw [List.getElem?_eq_getElem hti] at ht1
          exact Option.some.inj ht1
        have hsv : source[st.si] = LF := by
          rw [List.getElem?_eq_getElem hlt] at hget
          exact Option.some.inj hget
        unfold predict
        simp only
        rw [List.drop_eq_getElem_cons hti, List.drop_eq_getElem_cons hlt, htv, hsv,
          alignL_skip l t _ _ ht2]
    · refine ⟨st, ?_, rfl, rfl, rfl, h2, ?_, rfl⟩
      · unfold skipSourceLF
        rw [whileLoop_false]
        simp only [Bool.and_eq_false_iff, decide_eq_false_iff_not]
        by_cases hlt : st.si < source.length
        · right; exact fun e => hc ⟨hlt, e⟩
        · left; exact hlt
      · intro e
        apply hc
        refine ⟨?_, e⟩
        by_contra hn
        rw [List.getElem?_eq_none (by omega)] at e
        exact absurd e (by simp)

theorem getElem?_ne_nil (xs : List GoString) (h : ∀ x ∈ xs, x ≠ []) (i : Nat) (x : GoString)
    (hx : xs[i]? = some x) : x ≠ [] :=
  h x (List.getElem?_mem hx)

theorem finish_eq (l : Lexer) (target source : List GoString) (st : CmpState)
    (h1 : st.rts.length = target.length) (h2 : st.ti ≤ target.length)
    (h3 : st.ti = target.length ∨ st.si = source.length) :
    ∃ st1, flagRest l target target.length st = some st1 ∧
      (st1.rts, st1.ok) = predict l target source st := by
  obtain ⟨st1, e1, e2, e3⟩ := flagRest_eq l target target.length st h1 h2 (by omega)
  refine ⟨st1, e1, ?_⟩
  rw [e2, e3]
  unfold predict
  by_cases h4 : st.ti = target.length
  · simp [h4, alignL]
  · have h5 : st.si = source.length := by
      rcases h3 with h3 | h3
      · exact absurd h3 h4
      · exact h3
    have h6 : List.drop st.ti target ≠ [] := by
      intro e
      have := congrArg List.length e
      simp at this
      omega
    simp [h5, alignL_nil_right, h4, h6]

theorem pair_predict (l : Lexer) (target source : List GoString) (st : CmpState)
    (xm src : GoString) (h1 : st.rts.length = target.length)
    (hx : target[st.ti]? = some xm) (hs : source[st.si]? = some src)
    (hiff : xm = LF ↔ src = LF) :
    predict l target source
        { rts := st.rts.set st.ti { Str := xm, Mask := maskFn l xm src },
          ok := if RichText.Colorful { Str := xm, Mask := maskFn l xm src } then false else st.ok,
          ti := st.ti + 1, si := st.si + 1 }
      = predict l target source st := by
  have hti : st.ti < target.length := by
    by_contra hn
    rw [List.getElem?_eq_none (by omega)] at hx
    exact absurd hx (by simp)
  have hsi : st.si < source.length := by
    by_contra hn
    rw [List.getElem?_eq_none (by omega)] at hs
    exact absurd hs (by simp)
  have htv : target[st.ti] = xm := by
    rw [List.getElem?_eq_getElem hti] at hx
    exact Option.some.inj hx
  have hsv : source[st.si] = src := by
    rw [List.getElem?_eq_getElem hsi] at hs
    exact Option.some.inj hs
  unfold predict
  simp only
  rw [List.drop_eq_getElem_cons hti, List.drop_eq_getElem_cons hsi, htv, hsv,
    alignL_pair l xm src _ _ hiff, take_set_succ _ _ _ (by omega)]
  simp only [List.append_assoc, List.singleton_append, RichText.Colorful, Prod.mk.injEq,
    true_and]
  by_cases hb : (maskFn l xm src).any id = true
  · simp [hb]
  · simp only [Bool.not_eq_true] at hb
    simp [hb]

theorem compareLoop_eq (l : Lexer) (target source : List GoString)
    (hT : ∀ t ∈ target, t ≠ []) (hS : ∀ s ∈ source, s ≠ []) :
    ∀ (fuel : Nat) (st : CmpState), st.rts.length = target.length → st.ti ≤ target.length →
      st.si ≤ source.length → target.length - st.ti ≤ fuel →
      ∃ st1, (compareLoop l target source fuel st).bind (flagRest l target target.length)
          = some st1 ∧ (st1.rts, st1.ok) = predict l target source st := by
  intro fuel
  induction fuel with
  | zero =>
    intro st h1 h2 h3 h4
    have h5 : st.ti = target.length := by omega
    have hc : ¬ (st.ti < target.length ∧ st.si < source.length) := by omega
    simp only [compareLoop, hc, if_false, Option.some_bind]
    exact finish_eq l target source st h1 h2 (Or.inl h5)
  | succ fuel ih =>
    intro st h1 h2 h3 h4
    by_cases hc : st.ti < target.length ∧ st.si < source.length
    · obtain ⟨hti, hsi⟩ := hc
      -- what happens once the cursors are resynchronized
      have key : ∀ st1 : CmpState, st1.rts.length = target.length → st.ti ≤ st1.ti →
          st1.ti ≤ target.length → st1.si ≤ source.length →
          (∀ xm src, target[st1.ti]? = some xm → source[st1.si]? = some src →
            (xm = LF ↔ src = LF)) →
          ∃ st2, ((if st1.ti = target.length ∨ st1.si = source.length then some st1
            else
              (target[st1.ti]?).bind fun xm =>
              (source[st1.si]?).bind fun src =>
              (l.GenerateMask xm src).bind fun mask =>
              (setAt st1.rts st1.ti { Str := xm, Mask := mask }).bind fun rts =>
              let ok := if RichText.Colorful { Str := xm, Mask := mask } then false else st1.ok
              compareLoop l target source fuel
                { rts := rts, ok := ok, ti := st1.ti + 1, si := st1.si + 1 }).bind
              (flagRest l target target.length)) = some st2 ∧
            (st2.rts, st2.ok) = predict l target source st1 := by
        intro st1 g1 g2 g3 g4 g5
        by_cases hb : st1.ti = target.length ∨ st1.si = source.length
        · rw [if_pos hb, Option.some_bind]
          exact finish_eq l target source st1 g1 g3 hb
        · rw [if_neg hb]
          have gti : st1.ti < target.length := by omega
          have gsi : st1.si < source.length := by omega
          have hx : target[st1.ti]? = some target[st1.ti] := List.getElem?_eq_getElem gti
          have hs : source[st1.si]? = some source[st1.si] := List.getElem?_eq_getElem gsi
          have hm := GenerateMask_eq l target[st1.ti] source[st1.si]
            (getElem?_ne_nil target hT _ _ hx) (getElem?_ne_nil source hS _ _ hs)
          have hset : setAt st1.rts st1.ti
              ({ Str := target[st1.ti], Mask := maskFn l target[st1.ti] source[st1.si] } : RichText)
              = some (st1.rts.set st1.ti
                  { Str := target[st1.ti], Mask := maskFn l target[st1.ti] source[st1.si] }) := by
            simp [setAt, g1, gti]
          simp only [hx, hs, hm, hset, Option.some_bind]
          obtain ⟨st2, e1, e2⟩ := ih
            { rts := st1.rts.set st1.ti
                { Str := target[st1.ti], Mask := maskFn l target[st1.ti] source[st1.si] },
              ok := if RichText.Colorful
                  { Str := target[st1.ti], Mask := maskFn l target[st1.ti] source[st1.si] }
                then false else st1.ok,
              ti := st1.ti + 1, si := st1.si + 1 }
            (by simp [g1]) (by simp; omega) (by simp; omega) (by simp; omega)
          refine ⟨st2, e1, ?_⟩
          rw [e2]
          exact pair_predict l target source st1 _ _ g1 hx hs (g5 _ _ hx hs)
      have hsg : source[st.si]? = some source[st.si] := List.getElem?_eq_getElem hsi
      have htg : target[st.ti]? = some target[st.ti] := List.getElem?_eq_getElem hti
      simp only [compareLoop, resync, hti, hsi, and_self, if_true, hsg, htg, Option.some_bind]
      by_cases hs : source[st.si] = LF
      · by_cases ht : target[st.ti] = LF
        · simp only [hs, ht, ne_eq, not_true_eq_false, if_false, Option.some_bind]
          apply key st h1 (le_refl _) h2 h3
          intro xm src hxm hsrc
          rw [htg] at hxm; rw [hsg] at hsrc
          have e1 := Option.some.inj hxm
          have e2 := Option.some.inj hsrc
          rw [← e1, ← e2, ht, hs]
        · obtain ⟨st1, e1, e2, e3, e4, e5, e6, e7⟩ :=
            skipSourceLF_eq l target source source.length st h3 (by omega)
              ⟨_, htg, ht⟩
          simp only [hs, ht, ne_eq, not_true_eq_false, not_false_eq_true, if_false, if_true, e1,
            Option.some_bind]
          rw [← e7]
          apply key st1 (by rw [e3]; exact h1) (by omega) (by omega) e5
          intro xm src hxm hsrc
          rw [e2, htg] at hxm
          have e8 := Option.some.inj hxm
          constructor
          · intro e; exact absurd (e8.trans e) ht
          · intro e; rw [e] at hsrc; exact absurd hsrc e6
      · obtain ⟨st1, e1, e2, e3, e4, e5, e6, e7⟩ :=
          skipTargetLF_eq l target source target.length st h1 h2 (by omega) ⟨_, hsg, hs⟩
        simp only [hs, ne_eq, not_false_eq_true, if_true, e1, Option.some_bind]
        rw [← e7]
        apply key st1 e3 e4 e5 (by omega)
        intro xm src hxm hsrc
        rw [e2, hsg] at hsrc
        have e8 := Option.some.inj hsrc
        constructor
        · intro e; rw [e] at hxm; exact absurd hxm e6
        · intro e; exact absurd (e8.trans e) hs
    · simp only [compareLoop, hc, if_false, Option.some_bind]
      exact finish_eq l target source st h1 h2 (by omega)

theorem Compare_eq (l : Lexer) (target source : List GoString)
    (hT : ∀ t ∈ target, t ≠ []) (hS : ∀ s ∈ source, s ≠ []) :
    l.Compare target source = some (alignL l target source) := by
  obtain ⟨st1, e1, e2⟩ := compareLoop_eq l target source hT hS (target.length + source.length)
    { rts := List.replicate target.length ({ Str := [], Mask := [] } : RichText), ok := true,
      ti := 0, si := 0 } (by simp) (by simp) (by simp) (by simp)
  simp only [Option.bind_eq_some] at e1
  obtain ⟨st0, e3, e4⟩ := e1
  simp only [Lexer.Compare, e3, Option.some_bind, e4, Option.map_some', Option.some.injEq]
  rw [e2]
  simp [predict]

theorem strMaskFn_self (t : GoString) : strMaskFn t t = List.replicate t.length false := by
  unfold strMaskFn
  induction t with
  | nil => simp
  | cons c cs ih =>
    simp only [Nat.sub_self, List.replicate_zero, List.append_nil] at ih
    simp [List.replicate_succ, ih]

theorem strMaskFn_nil (t : GoString) : strMaskFn t [] = List.replicate t.length true := by
  simp [strMaskFn]

theorem signClash_self (t : GoString) : signClash t t = false := by
  cases t with
  | nil => simp [signClash]
  | cons c cs =>
    rw [signClash_cons]
    simp only [decide_eq_false_iff_not, not_or, not_and, not_not]
    constructor
    · intro h; exact h
    · intro h1 h2; omega

theorem intMaskFn_self (t : GoString) : intMaskFn t t = List.replicate t.length false := by
  unfold intMaskFn
  by_cases h : t = []
  · simp [h]
  · simp only [h, or_self, if_false, ne_eq, not_true_eq_false, signClash_self]
    cases t with
    | nil => exact absurd rfl h
    | cons c cs => simp [List.replicate_succ]

theorem intMaskFn_whole (w : GoString) :
    intMaskFn w (if w = [] then [48] else w) = List.replicate w.length false := by
  by_cases h : w = []
  · simp [h, intMaskFn]
  · simp only [h, if_false]
    exact intMaskFn_self w

theorem fracMaskFn_length (p : Int) (tf : GoString) :
    ∀ (i : Nat) (eq : Bool) (sf : GoString), (fracMaskFn p i eq tf sf).length = tf.length := by
  induction tf with
  | nil => intros; simp [fracMaskFn]
  | cons t tf ih => intro i eq sf; simp [fracMaskFn, ih]

theorem fracMaskFn_zeros (p : Int) (k : Nat) :
    ∀ (i : Nat), fracMaskFn p i true (List.replicate k 48) [] = List.replicate k false := by
  induction k with
  | zero => intro i; simp [fracMaskFn]
  | succ k ih => intro i; simp [fracMaskFn, List.replicate_succ, ih]

theorem fracMaskFn_self_pad (p : Int) (f : GoString) (k : Nat) :
    ∀ (i : Nat), fracMaskFn p i true (f ++ List.replicate k 48) f
      = List.replicate (f.length + k) false := by
  induction f with
  | nil => intro i; simp [fracMaskFn_zeros]
  | cons c cs ih =>
    intro i
    simp only [List.cons_append, fracMaskFn, List.headD_cons, decide_True, Bool.and_self,
      Bool.not_true, Bool.false_and, List.tail_cons, List.append_eq, ih, List.length_cons]
    rw [show cs.length + 1 + k = (cs.length + k) + 1 by omega, List.replicate_succ]

theorem fracMaskFn_self (p : Int) (f : GoString) (i : Nat) :
    fracMaskFn p i true f f = List.replicate f.length false := by
  have := fracMaskFn_self_pad p f 0 i
  simpa using this

theorem floatMaskFn_self (p : Int) (t : GoString) :
    floatMaskFn p t t = List.replicate t.length false := by
  unfold floatMaskFn
  rw [intMaskFn_whole, fracMaskFn_self]
  by_cases h : wholeOf t = t
  · simp [h]
  · rw [if_neg h]
    have hmem : 46 ∈ t := by
      by_contra hn
      exact h ((wholeOf_eq_self t).2 hn)
    have hlen : t.length = (wholeOf t).length + 1 + (fracOf t).length := by
      have h1 := drop_wholeOf_succ t
      have h2 := congrArg List.length h1
      simp only [List.length_drop] at h2
      have h3 : (wholeOf t).length ≤ t.length := by
        unfold wholeOf
        exact (List.takeWhile_prefix (fun c => decide (c ≠ 46)) (l := t)).length_le
      have h4 : (wholeOf t).length ≠ t.length := by
        intro e
        apply h
        unfold wholeOf at e ⊢
        exact List.IsPrefix.eq_of_length (List.takeWhile_prefix _) e
      omega
    rw [hlen, show (wholeOf t).length + 1 + (fracOf t).length
      = (wholeOf t).length + ((fracOf t).length + 1) by omega, List.replicate_add,
      List.replicate_succ]

theorem maskFn_self (l : Lexer) (t : GoString) : maskFn l t t = List.replicate t.length false := by
  unfold maskFn
  simp only [lt_self_iff_false, if_false]
  cases typeFn t
  · exact strMaskFn_self t
  · exact floatMaskFn_self _ t
  · exact intMaskFn_self t

theorem any_replicate_false (n : Nat) : (List.replicate n false).any id = false := by
  induction n with
  | zero => rfl
  | succ k ih => simp [List.replicate_succ, ih]

theorem alignL_self_append (l : Lexer) (ts rest : List GoString) :
    alignL l (ts ++ rest) ts = (ts.map cleanEntry ++ rest.map flagAll, decide (rest = [])) := by
  induction ts with
  | nil => simp [alignL_nil_right]
  | cons t ts ih =>
    rw [List.cons_append, alignL_pair l t t _ _ Iff.rfl, ih, maskFn_self, any_replicate_false]
    simp [cleanEntry]

theorem strMaskFn_all_false_iff (t s : GoString) :
    (∀ b ∈ strMaskFn t s, b = false) ↔ t <+: s := by
  induction t generalizing s with
  | nil => simp [strMaskFn]
  | cons c cs ih =>
    cases s with
    | nil =>
      simp only [strMaskFn, List.zipWith_nil_right, List.length_cons, List.length_nil,
        Nat.sub_zero, List.nil_append, List.replicate_succ, List.mem_cons]
      constructor
      · intro h
        have := h true (Or.inl rfl)
        exact absurd this (by simp)
      · intro h
        simp at h
    | cons d ds =>
      have hstep : strMaskFn (c :: cs) (d :: ds) = decide (c ≠ d) :: strMaskFn cs ds := by
        simp [strMaskFn]
      rw [hstep, List.cons_prefix_cons, ← ih ds]
      simp only [List.mem_cons, forall_eq_or_imp, decide_eq_false_iff_not, not_not]

theorem typeFn_str (xm : GoString) (h : floatOk xm = false) : typeFn xm = .STRXM := by
  simp [typeFn, h]

theorem maskFn_str (l : Lexer) (t s : GoString) (h : floatOk t = false ∨ floatOk s = false) :
    maskFn l t s = strMaskFn t s := by
  unfold maskFn
  rcases h with h | h
  · rw [typeFn_str t h]
    simp [LexemeType.toNat]
  · rw [typeFn_str s h]
    cases ht : typeFn t <;> simp [LexemeType.toNat]

theorem atoiFast_digits (cs : GoString) :
    ∀ (a n : Nat), strconv.atoiFast cs a = some n → ∀ d ∈ cs, isDigit d = true := by
  induction cs with
  | nil => intro a n _ d hd; simp at hd
  | cons c cs ih =>
    intro a n h d hd
    unfold strconv.atoiFast at h
    by_cases hc : isDigit c = true
    · rw [if_pos hc] at h
      rcases List.mem_cons.1 hd with e | e
      · rw [e]; exact hc
      · exact ih _ _ h d e
    · rw [if_neg hc] at h
      exact absurd h (by simp)

theorem atoiFast_bound (cs : GoString) :
    ∀ (a n : Nat), strconv.atoiFast cs a = some n → n < (a + 1) * 10 ^ cs.length := by
  induction cs with
  | nil =>
    intro a n h
    simp only [strconv.atoiFast, Option.some.injEq] at h
    simp; omega
  | cons c cs ih =>
    intro a n h
    unfold strconv.atoiFast at h
    by_cases hc : isDigit c = true
    · rw [if_pos hc] at h
      have h1 := ih _ _ h
      have h2 : c - 48 ≤ 9 := by
        simp only [isDigit, Bool.and_eq_true, decide_eq_true_eq] at hc
        omega
      have h3 : (a * 10 + (c - 48) + 1) * 10 ^ cs.length ≤ ((a + 1) * 10) * 10 ^ cs.length :=
        Nat.mul_le_mul_right _ (by omega)
      rw [List.length_cons, pow_succ]
      calc n < (a * 10 + (c - 48) + 1) * 10 ^ cs.length := h1
        _ ≤ ((a + 1) * 10) * 10 ^ cs.length := h3
        _ = (a + 1) * (10 ^ cs.length * 10) := by ring
    · rw [if_neg hc] at h
      exact absurd h (by simp)

theorem parseUintLoop_digits (cs : GoString) :
    ∀ (a n : Nat), strconv.parseUintLoop cs a = .ok n → ∀ d ∈ cs, isDigit d = true := by
  induction cs with
  | nil => intro a n _ d hd; simp at hd
  | cons c cs ih =>
    intro a n h d hd
    unfold strconv.parseUintLoop at h
    by_cases hc : isDigit c = true
    · simp only [hc, Bool.not_true, Bool.false_eq_true, if_false] at h
      split_ifs at h
      rcases List.mem_cons.1 hd with e | e
      · rw [e]; exact hc
      · exact ih _ _ h d e
    · simp only [Bool.not_eq_true] at hc
      simp [hc] at h

theorem isDigit_not_sign (c : Nat) (h : isDigit c = true) : c ≠ 43 ∧ c ≠ 45 ∧ c ≠ 46 ∧ c ≠ 10 := by
  simp only [isDigit, Bool.and_eq_true, decide_eq_true_eq] at h
  omega

/-- The shape of a string that `Atoi` accepts: an optional sign and then digits only. -/
theorem Atoi_ok_shape (s : GoString) (h : (strconv.Atoi s).2 = true) :
    ∃ c cs, s = c :: cs ∧ (∀ d ∈ cs, isDigit d = true) ∧
      (((c = 43 ∨ c = 45) ∧ cs ≠ []) ∨ isDigit c = true) := by
  have hParse : ∀ c cs, (strconv.ParseInt (c :: cs)).2 = true →
      (∀ d ∈ cs, isDigit d = true) ∧ (((c = 43 ∨ c = 45) ∧ cs ≠ []) ∨ isDigit c = true) := by
    intro c cs hp
    unfold strconv.ParseInt at hp
    simp only at hp
    by_cases hsign : c = 43 ∨ c = 45
    · simp only [hsign, if_true] at hp
      unfold strconv.ParseUint at hp
      by_cases hcs : cs = []
      · simp [hcs] at hp
      · simp only [hcs, if_false] at hp
        cases hl : strconv.parseUintLoop cs 0 with
        | ok n => exact ⟨parseUintLoop_digits cs 0 n hl, Or.inl ⟨hsign, hcs⟩⟩
        | syntaxErr => rw [hl] at hp; simp at hp
        | rangeErr => rw [hl] at hp; simp only at hp; split_ifs at hp
    · simp only [hsign, if_false] at hp
      unfold strconv.ParseUint at hp
      simp only [reduceCtorEq, if_false] at hp
      cases hl : strconv.parseUintLoop (c :: cs) 0 with
      | ok n =>
        have := parseUintLoop_digits (c :: cs) 0 n hl
        exact ⟨fun d hd => this d (List.mem_cons_of_mem _ hd),
          Or.inr (this c (List.mem_cons_self _ _))⟩
      | syntaxErr => rw [hl] at hp; simp at hp
      | rangeErr => rw [hl] at hp; simp only at hp; split_ifs at hp
  cases s with
  | nil => simp [strconv.Atoi, strconv.ParseInt] at h
  | cons c cs =>
    refine ⟨c, cs, rfl, ?_⟩
    unfold strconv.Atoi at h
    simp only at h
    by_cases hlen : (c :: cs).length < 19
    · rw [if_pos hlen] at h
      by_cases hsign : c = 45 ∨ c = 43
      · rw [if_pos hsign] at h
        by_cases hcs : cs.length < 1
        · simp [hcs] at h
        · rw [if_neg hcs] at h
          cases hf : strconv.atoiFast cs 0 with
          | none => rw [hf] at h; simp at h
          | some n =>
            refine ⟨atoiFast_digits cs 0 n hf, Or.inl ⟨hsign.symm, ?_⟩⟩
            intro e; rw [e] at hcs; simp at hcs
      · rw [if_neg hsign] at h
        cases hf : strconv.atoiFast (c :: cs) 0 with
        | none => rw [hf] at h; simp at h
        | some n =>
          have := atoiFast_digits (c :: cs) 0 n hf
          exact ⟨fun d hd => this d (List.mem_cons_of_mem _ hd),
            Or.inr (this c (List.mem_cons_self _ _))⟩
    · rw [if_neg hlen] at h
      exact hParse c cs h

theorem Atoi_fails_on_dot (s : GoString) (h : 46 ∈ s) : (strconv.Atoi s).2 = false := by
  by_contra hn
  simp only [Bool.not_eq_false] at hn
  obtain ⟨c, cs, rfl, h1, h2⟩ := Atoi_ok_shape s hn
  rcases List.mem_cons.1 h with e | e
  · rcases h2 with ⟨h2, _⟩ | h2
    · omega
    · exact (isDigit_not_sign c h2).2.2.1 e.symm
  · exact (isDigit_not_sign 46 (h1 46 e)).2.2.1 rfl

/-- The value that `Atoi` returns for an integer lexeme. -/
theorem IsIntLexeme_value (t : GoString) (h : IsIntLexeme t = true) :
    ∃ (c : Nat) (cs : GoString) (n : Nat), t = c :: cs ∧ n < 10 ^ 10 ∧
      (strconv.Atoi t).1 = (if c = 45 then -(n : Int) else (n : Int)) := by
  unfold IsIntLexeme at h
  simp only [Bool.and_eq_true, decide_eq_true_eq, VALID_INT_MAX_LEN] at h
  obtain ⟨hok, hlen⟩ := h
  cases t with
  | nil => simp [strconv.Atoi, strconv.ParseInt] at hok
  | cons c cs =>
    refine ⟨c, cs, ?_⟩
    have hlen19 : (c :: cs).length < 19 := by omega
    unfold strconv.Atoi at hok ⊢
    simp only [hlen19, if_true] at hok ⊢
    have hpow : ∀ k, k ≤ 10 → (10 : Nat) ^ k ≤ 10 ^ 10 := fun k hk =>
      Nat.pow_le_pow_right (by omega) hk
    by_cases hsign : c = 45 ∨ c = 43
    · simp only [hsign, if_true] at hok ⊢
      by_cases hcs : cs.length < 1
      · simp [hcs] at hok
      · simp only [hcs, if_false] at hok ⊢
        cases hf : strconv.atoiFast cs 0 with
        | none => rw [hf] at hok; simp at hok
        | some n =>
          have hb := atoiFast_bound cs 0 n hf
          have := hpow cs.length (by simp at hlen; omega)
          refine ⟨n, trivial, by omega, ?_⟩
          simp only
          split_ifs <;> rfl
    · simp only [hsign, if_false] at hok ⊢
      cases hf : strconv.atoiFast (c :: cs) 0 with
      | none => rw [hf] at hok; simp at hok
      | some n =>
        have hb := atoiFast_bound (c :: cs) 0 n hf
        have := hpow (c :: cs).length hlen
        refine ⟨n, trivial, by omega, ?_⟩
        have hc : ¬ c = 45 := fun e => hsign (Or.inl e)
        simp [hc]

theorem Split_of_not_mem (s : GoString) (h : 46 ∉ s) : strings.Split s 46 = [s] := by
  induction s with
  | nil => simp [strings.Split]
  | cons c cs ih =>
    simp only [List.mem_cons, not_or] at h
    have h1 : ¬ c = 46 := fun e => h.1 e.symm
    unfold strings.Split
    simp [h1, ih h.2]

theorem floatOk_of_digits (xm : GoString)
    (h : ∀ d ∈ unsignedPart xm, isDigit d = true) : floatOk xm = true := by
  have hdot : 46 ∉ unsignedPart xm := fun hm => (isDigit_not_sign 46 (h 46 hm)).2.2.1 rfl
  unfold floatOk
  rw [Split_of_not_mem _ hdot]
  simp only [List.length_singleton, Nat.one_le_ofNat, decide_True, Bool.true_and,
    Bool.and_eq_true, List.all_eq_true, Bool.or_eq_true, decide_eq_true_eq, ne_eq]
  constructor
  · intro x hx
    exact Or.inl (h x hx)
  · intro e
    apply hdot
    rw [e]
    simp

theorem IsIntLexeme_ok (t : GoString) (h : IsIntLexeme t = true) : (strconv.Atoi t).2 = true := by
  unfold IsIntLexeme at h
  simp only [Bool.and_eq_true] at h
  exact h.1

theorem IsIntLexeme_floatOk (t : GoString) (h : IsIntLexeme t = true) : floatOk t = true := by
  obtain ⟨c, cs, rfl, h1, h2⟩ := Atoi_ok_shape t (IsIntLexeme_ok t h)
  apply floatOk_of_digits
  unfold unsignedPart
  simp only [List.head?_cons, Option.some.injEq, List.drop_succ_cons, List.drop_zero]
  rcases h2 with ⟨h2, _⟩ | h2
  · rw [if_pos h2]
    exact h1
  · have := isDigit_not_sign c h2
    rw [if_neg (by omega)]
    intro d hd
    rcases List.mem_cons.1 hd with e | e
    · rw [e]; exact h2
    · exact h1 d e

theorem typeFn_int (t : GoString) (h : IsIntLexeme t = true) : typeFn t = .INTXM := by
  simp [typeFn, IsIntLexeme_floatOk t h, h]

theorem maskFn_int (l : Lexer) (t s : GoString) (ht : IsIntLexeme t = true)
    (hs : IsIntLexeme s = true) : maskFn l t s = intMaskFn t s := by
  simp [maskFn, typeFn_int t ht, typeFn_int s hs]

theorem IsIntLexeme_ne_nil (t : GoString) (h : IsIntLexeme t = true) : t ≠ [] := by
  intro e
  rw [e] at h
  simp [IsIntLexeme, strconv.Atoi, strconv.ParseInt] at h

theorem IsIntLexeme_ne_LF (t : GoString) (h : IsIntLexeme t = true) : t ≠ LF := by
  intro e
  rw [e] at h
  revert h
  decide

theorem absInt64_small (v : Int) (h1 : -(2 : Int) ^ 63 < v) (_h2 : v < 2 ^ 63) :
    absInt64 v = (v.natAbs : Int) := by
  unfold absInt64 wrapInt64
  split_ifs with h
  · omega
  · omega

theorem IsIntLexeme_abs (t : GoString) (h : IsIntLexeme t = true) :
    absInt64 (strconv.Atoi t).1 = ((strconv.Atoi t).1.natAbs : Int) := by
  obtain ⟨c, cs, n, _, hn, hv⟩ := IsIntLexeme_value t h
  by_cases hc : c = 45
  · rw [if_pos hc] at hv
    exact absInt64_small _ (by omega) (by omega)
  · rw [if_neg hc] at hv
    exact absInt64_small _ (by omega) (by omega)

theorem intMaskFn_int (t s : GoString) (ht : IsIntLexeme t = true) (hs : IsIntLexeme s = true) :
    intMaskFn t s = if (strconv.Atoi t).1.natAbs ≠ (strconv.Atoi s).1.natAbs then
        List.replicate t.length true
      else signClash t s :: List.replicate (t.length - 1) false := by
  unfold intMaskFn
  have h1 := IsIntLexeme_ne_nil t ht
  have h2 := IsIntLexeme_ne_nil s hs
  simp only [h1, h2, or_self, if_false, IsIntLexeme_abs t ht, IsIntLexeme_abs s hs, ne_eq,
    Nat.cast_inj]

theorem alignL_single (l : Lexer) (t s : GoString) (ht : t ≠ LF) (hs : s ≠ LF) :
    alignL l [t] [s] = ([{ Str := t, Mask := maskFn l t s }], !((maskFn l t s).any id)) := by
  rw [alignL_pair l t s [] [] ⟨fun e => absurd e ht, fun e => absurd e hs⟩]
  simp [alignL]

theorem Compare_single (l : Lexer) (t s : GoString) (ht0 : t ≠ []) (hs0 : s ≠ [])
    (ht : t ≠ LF) (hs : s ≠ LF) :
    l.Compare [t] [s]
      = some ([{ Str := t, Mask := maskFn l t s }], !((maskFn l t s).any id)) := by
  rw [Compare_eq l [t] [s] (by simpa using ht0) (by simpa using hs0), alignL_single l t s ht hs]

theorem any_id_eq_false_iff (m : List Bool) : m.any id = false ↔ ∀ b ∈ m, b = false := by
  induction m with
  | nil => simp
  | cons a m ih => simp [List.any_cons, ih]

theorem IsIntLexeme_head (t : GoString) (h : IsIntLexeme t = true) :
    ∃ c, t.head? = some c ∧ (c = 45 → (strconv.Atoi t).1 ≤ 0) ∧
      (c ≠ 45 → 0 ≤ (strconv.Atoi t).1) ∧ (c = 43 ∨ c = 45 ∨ isDigit c = true) := by
  obtain ⟨c, cs, n, e, _, hv⟩ := IsIntLexeme_value t h
  obtain ⟨c2, cs2, e2, _, hshape⟩ := Atoi_ok_shape t (IsIntLexeme_ok t h)
  have hcc : c2 = c := by
    rw [e] at e2
    exact (List.cons.inj e2).1.symm
  refine ⟨c, by rw [e]; rfl, ?_, ?_, ?_⟩
  · intro hc; rw [hv, if_pos hc]; omega
  · intro hc; rw [hv, if_neg hc]; omega
  · rw [hcc] at hshape
    rcases hshape with ⟨h1 | h1, _⟩ | h1
    · exact Or.inl h1
    · exact Or.inr (Or.inl h1)
    · exact Or.inr (Or.inr h1)

theorem intMaskFn_length (t s : GoString) : (intMaskFn t s).length = t.length := by
  unfold intMaskFn
  split_ifs with h1 h2
  · simp
  · simp
  · simp only [not_or] at h1
    cases t with
    | nil => exact absurd rfl h1.1
    | cons c cs => simp

theorem fracMaskFn_getElem (p : Int) (tf : GoString) :
    ∀ (i : Nat) (eq : Bool) (sf : GoString) (k : Nat),
      (fracMaskFn p i eq tf sf)[k]? = some true ↔
        k < tf.length ∧ ((i + k : Nat) : Int) < p ∧
          (eq = false ∨ ∃ j, j ≤ k ∧ tf[j]? ≠ some (sf.getD j 48)) := by
  induction tf with
  | nil => intro i eq sf k; simp [fracMaskFn]
  | cons t tf ih =>
    intro i eq sf k
    have hhead : sf.headD 48 = sf.getD 0 48 := by cases sf <;> rfl
    have htail : ∀ j, sf.tail.getD j 48 = sf.getD (j + 1) 48 := by
      intro j; cases sf <;> rfl
    cases k with
    | zero =>
      simp only [fracMaskFn, List.getElem?_cons_zero, Option.some.injEq, Bool.and_eq_true,
        Bool.not_eq_true', Bool.and_eq_false_iff, decide_eq_false_iff_not, decide_eq_true_eq,
        List.length_cons, Nat.zero_lt_succ, Nat.add_zero, true_and, Nat.le_zero_eq,
        exists_eq_left, ne_eq, hhead]
      tauto
    | succ k =>
      simp only [fracMaskFn, List.getElem?_cons_succ, ih, htail, List.length_cons,
        Nat.add_lt_add_iff_right, Bool.and_eq_false_iff, decide_eq_false_iff_not, hhead]
      constructor
      · rintro ⟨h1, h2, h3⟩
        refine ⟨h1, by omega, ?_⟩
        rcases h3 with (h3 | h3) | ⟨j, hj, h3⟩
        · exact Or.inl h3
        · exact Or.inr ⟨0, by omega, by simpa using h3⟩
        · exact Or.inr ⟨j + 1, by omega, by simpa using h3⟩
      · rintro ⟨h1, h2, h3⟩
        refine ⟨h1, by omega, ?_⟩
        rcases h3 with h3 | ⟨j, hj, h3⟩
        · exact Or.inl (Or.inl h3)
        · cases j with
          | zero => exact Or.inl (Or.inr (by simpa using h3))
          | succ j => exact Or.inr ⟨j, by omega, by simpa using h3⟩

theorem typeFn_float (t : GoString) (h1 : floatOk t = true) (h2 : IsIntLexeme t = false) :
    typeFn t = .FLOATXM := by
  simp [typeFn, h1, h2]

theorem maskFn_float (l : Lexer) (t s : GoString) (ht : floatOk t = true)
    (hs : floatOk s = true) (h : IsIntLexeme t = false ∨ IsIntLexeme s = false) :
    maskFn l t s = floatMaskFn (intOfUint l.Precision) t s := by
  unfold maskFn
  have key : ∀ x : GoString, floatOk x = true →
      typeFn x = .FLOATXM ∨ typeFn x = .INTXM := by
    intro x hx
    by_cases hi : IsIntLexeme x = true
    · right; simp [typeFn, hx, hi]
    · left; simp only [Bool.not_eq_true] at hi; exact typeFn_float x hx hi
  rcases h with h | h
  · rw [typeFn_float t ht h]
    rcases key s hs with e | e <;> rw [e] <;> simp [LexemeType.toNat]
  · rw [typeFn_float s hs h]
    rcases key t ht with e | e <;> rw [e] <;> simp [LexemeType.toNat]

theorem IsIntLexeme_of_dot (t : GoString) (h : 46 ∈ t) : IsIntLexeme t = false := by
  simp [IsIntLexeme, Atoi_fails_on_dot t h]

theorem whole_dot_frac (t : GoString) (h : 46 ∈ t) : t = wholeOf t ++ 46 :: fracOf t := by
  induction t with
  | nil => simp at h
  | cons c cs ih =>
    by_cases hc : c = 46
    · simp [wholeOf, fracOf, hc]
    · have hm : 46 ∈ cs := by
        rcases List.mem_cons.1 h with e | e
        · exact absurd e.symm hc
        · exact e
      have := ih hm
      simp only [wholeOf, fracOf] at this ⊢
      simp only [List.takeWhile_cons, List.dropWhile_cons, ne_eq, hc, not_false_eq_true,
        decide_True, if_true, List.cons_append, List.cons.injEq, true_and]
      exact this

theorem floatOk_ne_nil_of_true (t : GoString) (h : IsFloatLexeme t = some true) : t ≠ [] := by
  intro e
  rw [e] at h
  simp [IsFloatLexeme] at h

theorem floatOk_of_IsFloatLexeme (t : GoString) (h : IsFloatLexeme t = some true) :
    floatOk t = true := by
  have := IsFloatLexeme_eq t (floatOk_ne_nil_of_true t h)
  rw [this] at h
  exact Option.some.inj h

/-- C1 (reflexivity). For every sequence `ts` of non-empty tokens and every Precision (every
`l`), `Compare(ts, ts)` returns `matched = true` and every returned mask is all-false; and for
every non-empty token `t`, `GenerateMask(t, t)` is all-false, whatever type `t` classifies as. -/
theorem compare_reflexive (l : Lexer) (ts : List GoString) (h : ∀ t ∈ ts, t ≠ []) :
    (∃ rts, l.Compare ts ts = some (rts, true) ∧ ∀ rt ∈ rts, ∀ b ∈ rt.Mask, b = false) ∧
    (∀ t : GoString, t ≠ [] → ∃ m, l.GenerateMask t t = some m ∧ ∀ b ∈ m, b = false) := by
  constructor
  · refine ⟨ts.map cleanEntry, ?_, ?_⟩
    · rw [Compare_eq l ts ts h h]
      have := alignL_self_append l ts []
      simpa using this
    · intro rt hrt b hb
      rw [List.mem_map] at hrt
      obtain ⟨t, _, rfl⟩ := hrt
      exact List.eq_of_mem_replicate hb
  · intro t ht
    refine ⟨List.replicate t.length false, ?_, ?_⟩
    · rw [GenerateMask_eq l t t ht ht, maskFn_self]
    · intro b hb
      exact List.eq_of_mem_replicate hb

/-- Witness for `compare_reflexive`. -/
theorem compare_reflexive_witness :
    (∀ t ∈ [ascii "12x", LF, ascii "-1.50", ascii "007"], t ≠ []) ∧
    ((∃ rts, (Lexer.mk 2).Compare [ascii "12x", LF, ascii "-1.50", ascii "007"]
          [ascii "12x", LF, ascii "-1.50", ascii "007"] = some (rts, true) ∧
        ∀ rt ∈ rts, ∀ b ∈ rt.Mask, b = false) ∧
      (∀ t : GoString, t ≠ [] →
        ∃ m, (Lexer.mk 2).GenerateMask t t = some m ∧ ∀ b ∈ m, b = false)) :=
  ⟨by decide, compare_reflexive (Lexer.mk 2) [ascii "12x", LF, ascii "-1.50", ascii "007"]
    (by decide)⟩

/-- C10 (excess expected tokens). For every sequence `source` and every non-empty sequence
`rest`, all of non-empty tokens, `Compare(source ++ rest, source)` returns `matched = false`;
its first `len(source)` entries carry all-false masks and each entry of `rest` carries a mask
in which every position is true. -/
theorem compare_excess_target (l : Lexer) (source rest : List GoString)
    (hs : ∀ s ∈ source, s ≠ []) (hr : ∀ t ∈ rest, t ≠ []) (hne : rest ≠ []) :
    l.Compare (source ++ rest) source
      = some (source.map (fun t => { Str := t, Mask := List.replicate t.length false })
          ++ rest.map (fun t => { Str := t, Mask := List.replicate t.length true }), false) := by
  have hT : ∀ t ∈ source ++ rest, t ≠ [] := by
    intro t ht
    rcases List.mem_append.1 ht with h | h
    · exact hs t h
    · exact hr t h
  rw [Compare_eq l _ _ hT hs, alignL_self_append]
  have h1 : (List.map flagAll rest)
      = rest.map (fun t => ({ Str := t, Mask := List.replicate t.length true } : RichText)) := by
    apply List.map_congr_left
    intro t _
    simp [flagAll, strMaskFn_nil]
  rw [h1]
  simp only [hne, decide_False, Option.some.injEq, Prod.mk.injEq, and_true,
    List.append_cancel_right_eq]
  apply List.map_congr_left
  intro a _
  rfl

/-- Witness for `compare_excess_target`. -/
theorem compare_excess_target_witness :
    (∀ s ∈ [ascii "a", LF], s ≠ []) ∧ (∀ t ∈ [LF, ascii "42"], t ≠ []) ∧
    [LF, ascii "42"] ≠ [] ∧
    (Lexer.mk 2).Compare ([ascii "a", LF] ++ [LF, ascii "42"]) [ascii "a", LF]
      = some ([ascii "a", LF].map (fun t => { Str := t, Mask := List.replicate t.length false })
          ++ [LF, ascii "42"].map (fun t => { Str := t, Mask := List.replicate t.length true }),
          false) :=
  ⟨by decide, by decide, by decide,
    compare_excess_target (Lexer.mk 2) [ascii "a", LF] [LF, ascii "42"] (by decide) (by decide)
      (by decide)⟩

/-- C2, counterexample: the non-numeric source `"abc"` extends the non-numeric target `"ab"`,
the two strings differ, and still `GenerateMask("ab", "abc")` is the all-false mask. -/
theorem string_mask_extension_unflagged :
    ascii "ab" ≠ [] ∧ ascii "abc" ≠ [] ∧ IsFloatLexeme (ascii "ab") = some false ∧
    IsFloatLexeme (ascii "abc") = some false ∧ ascii "ab" ≠ ascii "abc" ∧
    (Lexer.mk 0).GenerateMask (ascii "ab") (ascii "abc") = some [false, false] := by
  decide

/-- C2, amended: for every pair of non-empty tokens `target` and `source` of which at least one
is not a valid float lexeme, `GenerateMask(target, source)` is all-false if and only if
`target` is an initial segment of `source`: equal strings give an all-false mask, a source that
truncates the target or differs from it within the target's length is flagged, a source that
extends the target is not. -/
theorem string_mask_exact_on_target (l : Lexer) (target source : GoString)
    (ht : target ≠ []) (hs : source ≠ [])
    (h : IsFloatLexeme target = some false ∨ IsFloatLexeme source = some false) :
    ∃ m, l.GenerateMask target source = some m ∧
      ((∀ b ∈ m, b = false) ↔ target <+: source) := by
  refine ⟨strMaskFn target source, ?_, strMaskFn_all_false_iff target source⟩
  rw [GenerateMask_eq l target source ht hs, maskFn_str]
  rw [IsFloatLexeme_eq target ht, IsFloatLexeme_eq source hs] at h
  simpa using h

/-- Witness for `string_mask_exact_on_target`. -/
theorem string_mask_exact_on_target_witness :
    ascii "12x" ≠ [] ∧ ascii "12" ≠ [] ∧
    (IsFloatLexeme (ascii "12x") = some false ∨ IsFloatLexeme (ascii "12") = some false) ∧
    ∃ m, (Lexer.mk 2).GenerateMask (ascii "12x") (ascii "12") = some m ∧
      ((∀ b ∈ m, b = false) ↔ ascii "12x" <+: ascii "12") :=
  ⟨by decide, by decide, by decide,
    string_mask_exact_on_target (Lexer.mk 2) (ascii "12x") (ascii "12") (by decide) (by decide)
      (by decide)⟩

/-- C3, the code at the failing input: `"7"` and `"-7"` are valid integer lexemes that denote
different integers, and `Compare(["7"], ["-7"])` returns `matched = true` with an all-false
mask. The sign guard of `GenMaskForInt` does flag the sibling pair `"+7"` against `"-7"`, which
has the same expected value, and the pair `"-7"` against `"7"` of the other order. -/
theorem int_unsigned_target_matches_negative_source :
    IsIntLexeme (ascii "7") = true ∧ IsIntLexeme (ascii "-7") = true ∧
    IsIntLexeme (ascii "+7") = true ∧
    (strconv.Atoi (ascii "7")).1 = 7 ∧ (strconv.Atoi (ascii "-7")).1 = -7 ∧
    (strconv.Atoi (ascii "+7")).1 = 7 ∧
    (Lexer.mk 0).GenMaskForInt (ascii "7") (ascii "-7") = some [false] ∧
    (Lexer.mk 0).Compare [ascii "7"] [ascii "-7"]
      = some ([{ Str := ascii "7", Mask := [false] }], true) ∧
    (Lexer.mk 0).Compare [ascii "+7"] [ascii "-7"]
      = some ([{ Str := ascii "+7", Mask := [true, false] }], false) ∧
    (Lexer.mk 0).Compare [ascii "-7"] [ascii "7"]
      = some ([{ Str := ascii "-7", Mask := [true, false] }], false) := by
  decide

/-- Extent of the missing sign test of `GenMaskForInt`: for every pair of valid integer
lexemes `t` and `s`, `Compare([t], [s])` returns, and the only pairs of different values it
reports as matched are those where `t` starts with a digit (carries no sign) and `s` denotes
the negative of the value of `t`. A target that starts with `'-'` never matches a source that
does not. -/
theorem int_match_sound_for_signed_target (l : Lexer) (t s : GoString)
    (ht : IsIntLexeme t = true) (hs : IsIntLexeme s = true) :
    ∃ rts ok, l.Compare [t] [s] = some (rts, ok) ∧
      (ok = true → (strconv.Atoi t).1 = (strconv.Atoi s).1 ∨
        ((∃ c, t.head? = some c ∧ isDigit c = true) ∧
          (strconv.Atoi s).1 = -(strconv.Atoi t).1)) ∧
      (t.head? = some 45 → s.head? ≠ some 45 → ok = false) := by
  refine ⟨_, _, Compare_single l t s (IsIntLexeme_ne_nil t ht) (IsIntLexeme_ne_nil s hs)
    (IsIntLexeme_ne_LF t ht) (IsIntLexeme_ne_LF s hs), ?_, ?_⟩
  · intro hok
    simp only [Bool.not_eq_true', any_id_eq_false_iff] at hok
    rw [maskFn_int l t s ht hs, intMaskFn_int t s ht hs] at hok
    by_cases habs : (strconv.Atoi t).1.natAbs ≠ (strconv.Atoi s).1.natAbs
    · rw [if_pos habs] at hok
      obtain ⟨c, cs, rfl, _⟩ := Atoi_ok_shape t (IsIntLexeme_ok t ht)
      have := hok true (by simp [List.replicate_succ])
      exact absurd this (by simp)
    · rw [if_neg habs] at hok
      simp only [ne_eq, not_not] at habs
      have hclash : signClash t s = false := hok _ (List.mem_cons_self _ _)
      obtain ⟨ct, hct, ht1, ht2, ht3⟩ := IsIntLexeme_head t ht
      obtain ⟨cs, hcs, hs1, hs2, _⟩ := IsIntLexeme_head s hs
      have hcl : ¬ ((ct = 45 ∧ cs ≠ 45) ∨ (ct = 43 ∧ cs = 45)) := by
        intro hcon
        have : signClash t s = true := by
          unfold signClash
          rw [hct, hcs]
          rcases hcon with ⟨h1, h2⟩ | ⟨h1, h2⟩ <;> simp [h1, h2]
        rw [this] at hclash
        exact absurd hclash (by simp)
      by_cases hv : (strconv.Atoi t).1 = (strconv.Atoi s).1
      · exact Or.inl hv
      · right
        have hneg : (strconv.Atoi s).1 = -(strconv.Atoi t).1 := by omega
        refine ⟨⟨ct, hct, ?_⟩, hneg⟩
        by_cases h45 : ct = 45
        · have := ht1 h45
          by_cases hs45 : cs = 45
          · have := hs1 hs45
            omega
          · exact absurd (Or.inl ⟨h45, hs45⟩) hcl
        · have := ht2 h45
          have hs45 : cs = 45 := by
            by_contra hn
            have := hs2 hn
            omega
          rcases ht3 with h43 | h | h
          · exact absurd (Or.inr ⟨h43, hs45⟩) hcl
          · exact absurd h h45
          · exact h
  · intro h1 h2
    simp only [Bool.not_eq_false']
    rw [maskFn_int l t s ht hs, intMaskFn_int t s ht hs]
    have hclash : signClash t s = true := by
      unfold signClash
      simp [h1, h2]
    split_ifs
    · obtain ⟨c, cs, rfl, _⟩ := Atoi_ok_shape t (IsIntLexeme_ok t ht)
      simp [List.replicate_succ]
    · simp [hclash]

/-- C4 (integer mask rule). For every pair of valid integer lexemes `t` and `s`,
`GenMaskForInt(t, s)` returns a mask with one entry per byte of `t`; every entry is true when
the absolute values of `t` and `s` differ; when they are equal, entry 0 is true exactly when
`t` starts with `'-'` and `s` does not, or `t` starts with `'+'` and `s` starts with `'-'`, and
every other entry is false. So `"007"`, `"+7"` and `"7"` against `"7"` give all-false masks,
`"-7"` against `"7"` gives `[true, false]` and `"42"` against `"43"` gives `[true, true]`. -/
theorem int_mask_rule (l : Lexer) (t s : GoString)
    (ht : IsIntLexeme t = true) (hs : IsIntLexeme s = true) :
    (∃ m, l.GenMaskForInt t s = some m ∧ m.length = t.length ∧
      ((strconv.Atoi t).1.natAbs ≠ (strconv.Atoi s).1.natAbs → ∀ b ∈ m, b = true) ∧
      ((strconv.Atoi t).1.natAbs = (strconv.Atoi s).1.natAbs →
        (m[0]? = some true ↔
          (t.head? = some 45 ∧ s.head? ≠ some 45) ∨ (t.head? = some 43 ∧ s.head? = some 45)) ∧
        ∀ i, 0 < i → i < t.length → m[i]? = some false)) ∧
    l.GenMaskForInt (ascii "007") (ascii "7") = some [false, false, false] ∧
    l.GenMaskForInt (ascii "+7") (ascii "7") = some [false, false] ∧
    l.GenMaskForInt (ascii "7") (ascii "7") = some [false] ∧
    l.GenMaskForInt (ascii "-7") (ascii "7") = some [true, false] ∧
    l.GenMaskForInt (ascii "42") (ascii "43") = some [true, true] := by
  refine ⟨⟨intMaskFn t s, GenMaskForInt_eq l t s, ?_, ?_, ?_⟩, ?_, ?_, ?_, ?_, ?_⟩
  · rw [intMaskFn_int t s ht hs]
    obtain ⟨c, cs, rfl, _⟩ := Atoi_ok_shape t (IsIntLexeme_ok t ht)
    split_ifs <;> simp
  · intro habs b hb
    rw [intMaskFn_int t s ht hs, if_pos habs] at hb
    exact List.eq_of_mem_replicate hb
  · intro habs
    rw [intMaskFn_int t s ht hs, if_neg (by simpa using habs)]
    constructor
    · simp only [List.getElem?_cons_zero, Option.some.injEq]
      unfold signClash
      simp only [Bool.or_eq_true, Bool.and_eq_true, decide_eq_true_eq, ne_eq]
    · intro i hi hlt
      cases i with
      | zero => omega
      | succ j =>
        rw [List.getElem?_cons_succ, List.getElem?_replicate]
        simp only [ite_eq_left_iff, not_lt, reduceCtorEq, imp_false, not_le]
        omega
  all_goals (rw [GenMaskForInt_eq]; decide)

/-- Witness for `int_mask_rule`. -/
theorem int_mask_rule_witness :
    IsIntLexeme (ascii "-12") = true ∧ IsIntLexeme (ascii "+012") = true ∧
    ((∃ m, (Lexer.mk 0).GenMaskForInt (ascii "-12") (ascii "+012") = some m ∧
      m.length = (ascii "-12").length ∧
      ((strconv.Atoi (ascii "-12")).1.natAbs ≠ (strconv.Atoi (ascii "+012")).1.natAbs →
        ∀ b ∈ m, b = true) ∧
      ((strconv.Atoi (ascii "-12")).1.natAbs = (strconv.Atoi (ascii "+012")).1.natAbs →
        (m[0]? = some true ↔
          ((ascii "-12").head? = some 45 ∧ (ascii "+012").head? ≠ some 45) ∨
            ((ascii "-12").head? = some 43 ∧ (ascii "+012").head? = some 45)) ∧
        ∀ i, 0 < i → i < (ascii "-12").length → m[i]? = some false)) ∧
    (Lexer.mk 0).GenMaskForInt (ascii "007") (ascii "7") = some [false, false, false] ∧
    (Lexer.mk 0).GenMaskForInt (ascii "+7") (ascii "7") = some [false, false] ∧
    (Lexer.mk 0).GenMaskForInt (ascii "7") (ascii "7") = some [false] ∧
    (Lexer.mk 0).GenMaskForInt (ascii "-7") (ascii "7") = some [true, false] ∧
    (Lexer.mk 0).GenMaskForInt (ascii "42") (ascii "43") = some [true, true]) :=
  ⟨by decide, by decide,
    int_mask_rule (Lexer.mk 0) (ascii "-12") (ascii "+012") (by decide) (by decide)⟩

theorem intOfUint_small (u : Nat) (h : u < 2 ^ 63) : intOfUint u = (u : Int) := by
  unfold intOfUint wrapInt64
  omega

/-- C5, counterexample: `"1"` and `"1.5"` are valid float lexemes, `GenerateMask("1", "1.5")`
at Precision 1 is all-false, and yet the first fractional digits differ: the target has none
(it reads `'0'`), the source has `'5'`. The same happens for `"1.2"` against `"1.25"` at
Precision 2 in the second fractional digit. -/
theorem float_mask_ignores_source_surplus :
    IsFloatLexeme (ascii "1") = some true ∧ IsFloatLexeme (ascii "1.5") = some true ∧
    (Lexer.mk 1).GenerateMask (ascii "1") (ascii "1.5") = some [false] ∧
    (fracOf (ascii "1")).getD 0 48 = 48 ∧ (fracOf (ascii "1.5")).getD 0 48 = 53 ∧
    IsFloatLexeme (ascii "1.2") = some true ∧ IsFloatLexeme (ascii "1.25") = some true ∧
    (Lexer.mk 2).GenerateMask (ascii "1.2") (ascii "1.25") = some [false, false, false] ∧
    (fracOf (ascii "1.2")).getD 1 48 = 48 ∧ (fracOf (ascii "1.25")).getD 1 48 = 53 := by
  decide

/-- C5, amended: for every pair of valid float lexemes `t` and `s` and every Precision `p`
below `2^63`, `GenerateMask(t, s)` returns a mask, and if that mask is all-false then `t` and
`s` carry the same digit in each of the first `p` fractional positions that the target has, a
missing fractional digit of the source counting as `'0'`. -/
theorem float_precision_on_target_digits (l : Lexer) (t s : GoString)
    (hp : l.Precision < 2 ^ 63)
    (ht : IsFloatLexeme t = some true) (hs : IsFloatLexeme s = some true) :
    ∃ m, l.GenerateMask t s = some m ∧
      ((∀ b ∈ m, b = false) →
        ∀ i, i < l.Precision → i < (fracOf t).length →
          (fracOf t)[i]? = some ((fracOf s).getD i 48)) := by
  have ht0 := floatOk_ne_nil_of_true t ht
  have hs0 := floatOk_ne_nil_of_true s hs
  refine ⟨maskFn l t s, GenerateMask_eq l t s ht0 hs0, ?_⟩
  intro hall i hip hil
  by_cases hdot : 46 ∈ t
  · rw [maskFn_float l t s (floatOk_of_IsFloatLexeme t ht) (floatOk_of_IsFloatLexeme s hs)
      (Or.inl (IsIntLexeme_of_dot t hdot))] at hall
    unfold floatMaskFn at hall
    have hw : wholeOf t ≠ t := fun e => (wholeOf_eq_self t).1 e hdot
    rw [if_neg hw] at hall
    by_contra hne
    have hflag : (fracMaskFn (intOfUint l.Precision) 0 true (fracOf t) (fracOf s))[i]?
        = some true := by
      rw [fracMaskFn_getElem, intOfUint_small _ hp]
      exact ⟨hil, by omega, Or.inr ⟨i, le_refl _, hne⟩⟩
    have hmem : true ∈ fracMaskFn (intOfUint l.Precision) 0 true (fracOf t) (fracOf s) :=
      List.getElem?_mem hflag
    have := hall true (by simp [hmem])
    exact absurd this (by simp)
  · rw [fracOf_of_not_mem t hdot] at hil
    simp at hil

/-- Witness for `float_precision_on_target_digits`. -/
theorem float_precision_on_target_digits_witness :
    (Lexer.mk 2).Precision < 2 ^ 63 ∧
    IsFloatLexeme (ascii "1.2345") = some true ∧ IsFloatLexeme (ascii "1.2399") = some true ∧
    ∃ m, (Lexer.mk 2).GenerateMask (ascii "1.2345") (ascii "1.2399") = some m ∧
      ((∀ b ∈ m, b = false) →
        ∀ i, i < (Lexer.mk 2).Precision → i < (fracOf (ascii "1.2345")).length →
          (fracOf (ascii "1.2345"))[i]? = some ((fracOf (ascii "1.2399")).getD i 48)) :=
  ⟨by decide, by decide, by decide,
    float_precision_on_target_digits (Lexer.mk 2) (ascii "1.2345") (ascii "1.2399") (by decide)
      (by decide) (by decide)⟩

/-- The fractional mask rule for a Precision below `2^63`: for valid float lexemes `t` and `s`
where `t` contains a decimal point, the mask has one entry per byte of `t`, the entry of the
decimal point is false, and the entry of the `i`-th fractional digit of `t` is true if and
only if `i < p` and some fractional digit `j ≤ i` of `t` differs from that of `s`, the
fraction of `s` being padded on the right with `'0'`. -/
theorem fraction_mask_rule_small_precision (l : Lexer) (t s : GoString)
    (hp : l.Precision < 2 ^ 63)
    (ht : IsFloatLexeme t = some true) (hs : IsFloatLexeme s = some true) (hdot : 46 ∈ t) :
    ∃ m, l.GenerateMask t s = some m ∧ t = wholeOf t ++ 46 :: fracOf t ∧
      m.length = t.length ∧ m[(wholeOf t).length]? = some false ∧
      ∀ i, i < (fracOf t).length →
        (m[(wholeOf t).length + 1 + i]? = some true ↔
          i < l.Precision ∧ ∃ j, j ≤ i ∧ (fracOf t)[j]? ≠ some ((fracOf s).getD j 48)) := by
  have ht0 := floatOk_ne_nil_of_true t ht
  have hs0 := floatOk_ne_nil_of_true s hs
  have hw : wholeOf t ≠ t := fun e => (wholeOf_eq_self t).1 e hdot
  have hsplit := whole_dot_frac t hdot
  have hm : maskFn l t s = intMaskFn (wholeOf t) (if wholeOf s = [] then [48] else wholeOf s)
      ++ false :: fracMaskFn (intOfUint l.Precision) 0 true (fracOf t) (fracOf s) := by
    rw [maskFn_float l t s (floatOk_of_IsFloatLexeme t ht) (floatOk_of_IsFloatLexeme s hs)
      (Or.inl (IsIntLexeme_of_dot t hdot))]
    unfold floatMaskFn
    rw [if_neg hw]
  refine ⟨maskFn l t s, GenerateMask_eq l t s ht0 hs0, hsplit, ?_, ?_, ?_⟩
  · rw [hm]
    conv_rhs => rw [hsplit]
    simp [intMaskFn_length, fracMaskFn_length]
  · rw [hm, List.getElem?_append_right (by rw [intMaskFn_length])]
    simp [intMaskFn_length]
  · intro i hi
    rw [hm, List.getElem?_append_right (by rw [intMaskFn_length]; omega)]
    rw [intMaskFn_length, show (wholeOf t).length + 1 + i - (wholeOf t).length = i + 1 by omega,
      List.getElem?_cons_succ, fracMaskFn_getElem, intOfUint_small _ hp]
    simp only [Nat.zero_add, Bool.true_eq_false, false_or, Nat.cast_lt]
    constructor
    · rintro ⟨_, h2, h3⟩; exact ⟨h2, h3⟩
    · rintro ⟨h2, h3⟩; exact ⟨hi, h2, h3⟩

/-- C6, the code at the failing input: with the Precision `2^63` (a valid `uint`),
`int(l.Precision)` is `-2^63`, so the test `i < int(l.Precision)` never holds and
`GenerateMask("1.5", "1.6")` is all-false, although the first fractional digits differ and
`0 < 2^63`; the claim requires the entry of that digit to be true, as it is at Precision 1. -/
theorem fraction_mask_huge_precision :
    IsFloatLexeme (ascii "1.5") = some true ∧ IsFloatLexeme (ascii "1.6") = some true ∧
    46 ∈ ascii "1.5" ∧ 2 ^ 63 < 2 ^ 64 ∧ intOfUint (2 ^ 63) = -(2 ^ 63) ∧
    (fracOf (ascii "1.5"))[0]? ≠ some ((fracOf (ascii "1.6")).getD 0 48) ∧
    (Lexer.mk (2 ^ 63)).GenerateMask (ascii "1.5") (ascii "1.6") = some [false, false, false] ∧
    (Lexer.mk 1).GenerateMask (ascii "1.5") (ascii "1.6") = some [false, false, true] := by
  decide

theorem Split_length (s : GoString) : (strings.Split s 46).length = s.count 46 + 1 := by
  induction s with
  | nil => simp [strings.Split]
  | cons c cs ih =>
    unfold strings.Split
    by_cases hc : c = 46
    · simp [hc, ih]
    · have hc2 : ¬ (c == 46) = true := by simpa using hc
      simp only [hc, if_false]
      cases hs : strings.Split cs 46 with
      | nil => rw [hs] at ih; simp at ih
      | cons a t =>
        rw [hs] at ih
        simp only [List.length_cons] at ih ⊢
        rw [List.count_cons, ih]
        simp [hc]

theorem unsignedPart_append (s z : GoString) (h : s ≠ []) :
    unsignedPart (s ++ z) = unsignedPart s ++ z := by
  cases s with
  | nil => exact absurd rfl h
  | cons c cs =>
    unfold unsignedPart
    simp only [List.cons_append, List.head?_cons, Option.some.injEq, List.drop_succ_cons,
      List.drop_zero]
    split_ifs <;> rfl

theorem floatOk_append_zeros (s : GoString) (k : Nat) (h0 : s ≠ []) (h : floatOk s = true) :
    floatOk (s ++ List.replicate k 48) = true := by
  unfold floatOk at h ⊢
  simp only [Bool.and_eq_true, decide_eq_true_eq, List.all_eq_true, Bool.or_eq_true, ne_eq]
    at h ⊢
  obtain ⟨⟨h1, h2⟩, h3⟩ := h
  rw [unsignedPart_append s _ h0]
  refine ⟨⟨?_, ?_⟩, ?_⟩
  · rw [Split_length] at h1 ⊢
    rw [List.count_append]
    have : List.count 46 (List.replicate k 48) = 0 := by
      rw [List.count_replicate]; simp
    omega
  · intro x hx
    rcases List.mem_append.1 hx with e | e
    · exact h2 x e
    · rw [List.eq_of_mem_replicate e]
      left; decide
  · intro e
    rcases List.append_eq_cons_iff.1 e with ⟨e1, e2⟩ | ⟨a, e1, e2⟩
    · cases k with
      | zero => simp at e2
      | succ k => simp [List.replicate_succ] at e2
    · have hnil := List.append_eq_nil.1 e2.symm
      rw [hnil.1] at e1
      exact h3 e1

theorem wholeOf_append (s z : GoString) (h : 46 ∈ s) : wholeOf (s ++ z) = wholeOf s := by
  induction s with
  | nil => simp at h
  | cons c cs ih =>
    by_cases hc : c = 46
    · simp [wholeOf, hc]
    · have hm : 46 ∈ cs := by
        rcases List.mem_cons.1 h with e | e
        · exact absurd e.symm hc
        · exact e
      have := ih hm
      simp only [wholeOf] at this ⊢
      simp only [List.cons_append, List.takeWhile_cons, ne_eq, hc, not_false_eq_true,
        decide_True, if_true, List.cons.injEq, true_and]
      exact this

theorem fracOf_append (s z : GoString) (h : 46 ∈ s) : fracOf (s ++ z) = fracOf s ++ z := by
  induction s with
  | nil => simp at h
  | cons c cs ih =>
    by_cases hc : c = 46
    · simp [fracOf, hc]
    · have hm : 46 ∈ cs := by
        rcases List.mem_cons.1 h with e | e
        · exact absurd e.symm hc
        · exact e
      have := ih hm
      simp only [fracOf] at this ⊢
      simp only [List.cons_append, List.dropWhile_cons, ne_eq, hc, not_false_eq_true,
        decide_True, if_true]
      exact this

theorem length_whole_frac (t : GoString) (h : 46 ∈ t) :
    t.length = (wholeOf t).length + ((fracOf t).length + 1) := by
  have := congrArg List.length (whole_dot_frac t h)
  simp only [List.length_append, List.length_cons] at this
  exact this

theorem replicate_false_join (a b : Nat) :
    List.replicate a false ++ false :: List.replicate b false
      = List.replicate (a + (b + 1)) false := by
  rw [List.replicate_add, List.replicate_succ]

theorem floatMaskFn_zeros_target (p : Int) (s : GoString) (k : Nat) (h : 46 ∈ s) :
    floatMaskFn p (s ++ List.replicate k 48) s
      = List.replicate (s ++ List.replicate k 48).length false := by
  have hz : 46 ∈ s ++ List.replicate k 48 := List.mem_append_left _ h
  have hw : wholeOf (s ++ List.replicate k 48) ≠ s ++ List.replicate k 48 :=
    fun e => (wholeOf_eq_self _).1 e hz
  unfold floatMaskFn
  rw [if_neg hw, wholeOf_append s _ h, fracOf_append s _ h, intMaskFn_whole,
    fracMaskFn_self_pad, replicate_false_join]
  congr 1
  rw [List.length_append, List.length_replicate, length_whole_frac s h]
  omega

theorem floatMaskFn_zeros_source (p : Int) (s : GoString) (k : Nat) (h : 46 ∈ s) :
    floatMaskFn p s (s ++ List.replicate k 48) = List.replicate s.length false := by
  have hw : wholeOf s ≠ s := fun e => (wholeOf_eq_self _).1 e h
  unfold floatMaskFn
  rw [if_neg hw, wholeOf_append s _ h, fracOf_append s _ h, intMaskFn_whole, fracMaskFn_pad,
    fracMaskFn_self, replicate_false_join]
  congr 1
  exact (length_whole_frac s h).symm

theorem ne_LF_of_dot (s : GoString) (h : 46 ∈ s) : s ≠ LF := by
  intro e
  rw [e] at h
  revert h
  decide

/-- C7 (trailing zeros). For every valid float lexeme `s` that contains a decimal point, every
`k ≥ 0` and every Precision, with `z` = `s` followed by `k` characters `'0'`, both
`Compare([z], [s])` and `Compare([s], [z])` yield `matched = true` with an all-false mask. -/
theorem compare_trailing_zeros (l : Lexer) (s : GoString) (k : Nat)
    (hs : IsFloatLexeme s = some true) (hdot : 46 ∈ s) :
    l.Compare [s ++ List.replicate k 48] [s]
      = some ([{ Str := s ++ List.replicate k 48,
                 Mask := List.replicate (s ++ List.replicate k 48).length false }], true) ∧
    l.Compare [s] [s ++ List.replicate k 48]
      = some ([{ Str := s, Mask := List.replicate s.length false }], true) := by
  have hs0 := floatOk_ne_nil_of_true s hs
  have hok := floatOk_of_IsFloatLexeme s hs
  have hz0 : s ++ List.replicate k 48 ≠ [] := by
    intro e; exact hs0 (List.append_eq_nil.1 e).1
  have hzdot : 46 ∈ s ++ List.replicate k 48 := List.mem_append_left _ hdot
  have hzok := floatOk_append_zeros s k hs0 hok
  constructor
  · rw [Compare_single l _ _ hz0 hs0 (ne_LF_of_dot _ hzdot) (ne_LF_of_dot _ hdot),
      maskFn_float l _ _ hzok hok (Or.inr (IsIntLexeme_of_dot s hdot)),
      floatMaskFn_zeros_target _ s k hdot, any_replicate_false]
    rfl
  · rw [Compare_single l _ _ hs0 hz0 (ne_LF_of_dot _ hdot) (ne_LF_of_dot _ hzdot),
      maskFn_float l _ _ hok hzok (Or.inl (IsIntLexeme_of_dot s hdot)),
      floatMaskFn_zeros_source _ s k hdot, any_replicate_false]
    rfl

/-- Witness for `compare_trailing_zeros`. -/
theorem compare_trailing_zeros_witness :
    IsFloatLexeme (ascii "1.5") = some true ∧ 46 ∈ ascii "1.5" ∧
    ((Lexer.mk 3).Compare [ascii "1.5" ++ List.replicate 1 48] [ascii "1.5"]
      = some ([{ Str := ascii "1.5" ++ List.replicate 1 48,
                 Mask := List.replicate (ascii "1.5" ++ List.replicate 1 48).length false }],
              true) ∧
    (Lexer.mk 3).Compare [ascii "1.5"] [ascii "1.5" ++ List.replicate 1 48]
      = some ([{ Str := ascii "1.5", Mask := List.replicate (ascii "1.5").length false }],
              true)) :=
  ⟨by decide, by decide, compare_trailing_zeros (Lexer.mk 3) (ascii "1.5") 1 (by decide)
    (by decide)⟩

theorem InsertsLF_drop_LF (xs : List GoString) :
    ∀ s : List GoString, InsertsLF (LF :: xs) s → InsertsLF xs s := by
  intro s
  induction s with
  | nil => intro h; cases h
  | cons a s ih =>
    intro h
    cases h with
    | keep _ h1 => exact InsertsLF.insert h1
    | insert h1 => exact InsertsLF.insert (ih h1)

theorem InsertsLF_head_LF (xs : List GoString) :
    ∀ s : List GoString, InsertsLF (LF :: xs) s → ∃ s1, s = LF :: s1 ∧ InsertsLF xs s1 := by
  intro s h
  cases h with
  | keep _ h1 => exact ⟨_, rfl, h1⟩
  | insert h1 => exact ⟨_, rfl, InsertsLF_drop_LF xs _ h1⟩

theorem InsertsLF_head_other (x : GoString) (xs : List GoString) (hx : x ≠ LF) :
    ∀ s : List GoString, InsertsLF (x :: xs) s →
      ∃ s1, s.dropWhile (fun a => decide (a = LF)) = x :: s1 ∧ InsertsLF xs s1 := by
  intro s
  induction s with
  | nil => intro h; cases h
  | cons a s ih =>
    intro h
    cases h with
    | keep _ h1 => exact ⟨s, by simp [hx], h1⟩
    | insert h1 =>
      obtain ⟨s1, e1, e2⟩ := ih h1
      exact ⟨s1, by simpa using e1, e2⟩

theorem InsertsLF_ne_nil (target source : List GoString) (h : InsertsLF target source)
    (hT : ∀ t ∈ target, t ≠ []) : ∀ s ∈ source, s ≠ [] := by
  induction h with
  | nil => intro s hs; simp at hs
  | keep x _ ih =>
    intro s hs
    rcases List.mem_cons.1 hs with e | e
    · rw [e]; exact hT x (List.mem_cons_self _ _)
    · exact ih (fun t ht => hT t (List.mem_cons_of_mem _ ht)) s e
  | insert _ ih =>
    intro s hs
    rcases List.mem_cons.1 hs with e | e
    · rw [e]; decide
    · exact ih hT s e

theorem alignL_other (l : Lexer) (x : GoString) (xs src : List GoString) (s : GoString)
    (ss : List GoString) (hx : x ≠ LF)
    (hd : src.dropWhile (fun a => decide (a = LF)) = s :: ss) :
    alignL l (x :: xs) src
      = ({ Str := x, Mask := maskFn l x s } :: (alignL l xs ss).1,
          !((maskFn l x s).any id) && (alignL l xs ss).2) := by
  simp only [alignL, if_neg hx, hd]

theorem alignL_other_end (l : Lexer) (x : GoString) (xs src : List GoString) (hx : x ≠ LF)
    (hd : src.dropWhile (fun a => decide (a = LF)) = []) :
    alignL l (x :: xs) src = ((x :: xs).map flagAll, false) := by
  simp only [alignL, if_neg hx, hd]

theorem alignL_inserts (l : Lexer) (target : List GoString) :
    ∀ source : List GoString, InsertsLF target source →
      alignL l target source = (target.map cleanEntry, true) := by
  induction target with
  | nil => intro source _; simp [alignL]
  | cons x xs ih =>
    intro source h
    by_cases hx : x = LF
    · rw [hx] at h ⊢
      obtain ⟨s1, rfl, h1⟩ := InsertsLF_head_LF xs source h
      rw [alignL_pair l LF LF xs s1 Iff.rfl, ih s1 h1, maskFn_self, any_replicate_false]
      simp [cleanEntry]
    · obtain ⟨s1, e1, h1⟩ := InsertsLF_head_other x xs hx source h
      rw [alignL_other l x xs source x s1 hx e1, ih s1 h1, maskFn_self, any_replicate_false]
      simp [cleanEntry]

/-- C8 (extra blank lines are tolerated). For every sequence `target` of non-empty tokens and
every `source` obtained from `target` by inserting any number of `"\n"` tokens at any
positions, `Compare(target, source)` returns `matched = true` and every returned mask is
all-false. -/
theorem compare_tolerates_inserted_newlines (l : Lexer) (target source : List GoString)
    (hT : ∀ t ∈ target, t ≠ []) (h : InsertsLF target source) :
    ∃ rts, l.Compare target source = some (rts, true) ∧
      ∀ rt ∈ rts, ∀ b ∈ rt.Mask, b = false := by
  refine ⟨target.map cleanEntry, ?_, ?_⟩
  · rw [Compare_eq l target source hT (InsertsLF_ne_nil target source h hT),
      alignL_inserts l target source h]
  · intro rt hrt b hb
    rw [List.mem_map] at hrt
    obtain ⟨t, _, rfl⟩ := hrt
    exact List.eq_of_mem_replicate hb

/-- Witness for `compare_tolerates_inserted_newlines`: blank lines inserted at the start, in
the middle and at the end. -/
theorem compare_tolerates_inserted_newlines_witness :
    (∀ t ∈ [ascii "a", LF, ascii "b"], t ≠ []) ∧
    InsertsLF [ascii "a", LF, ascii "b"] [LF, ascii "a", LF, LF, ascii "b", LF] ∧
    ∃ rts, (Lexer.mk 2).Compare [ascii "a", LF, ascii "b"]
        [LF, ascii "a", LF, LF, ascii "b", LF] = some (rts, true) ∧
      ∀ rt ∈ rts, ∀ b ∈ rt.Mask, b = false :=
  ⟨by decide,
    InsertsLF.insert (InsertsLF.keep _ (InsertsLF.keep _ (InsertsLF.insert
      (InsertsLF.keep _ (InsertsLF.insert InsertsLF.nil))))),
    compare_tolerates_inserted_newlines (Lexer.mk 2) [ascii "a", LF, ascii "b"]
      [LF, ascii "a", LF, LF, ascii "b", LF] (by decide)
      (InsertsLF.insert (InsertsLF.keep _ (InsertsLF.keep _ (InsertsLF.insert
        (InsertsLF.keep _ (InsertsLF.insert InsertsLF.nil))))))⟩

theorem whileLoop_exit {σ : Type} (cond : σ → Bool) (body : σ → Option σ) :
    ∀ (fuel : Nat) (s s1 : σ), whileLoop cond body fuel s = some s1 → cond s1 = false := by
  intro fuel
  induction fuel with
  | zero =>
    intro s s1 h
    by_cases hc : cond s = true
    · simp [whileLoop, hc] at h
    · simp only [whileLoop, hc, Bool.false_eq_true, if_false, Option.some.injEq] at h
      rw [← h]; simpa using hc
  | succ fuel ih =>
    intro s s1 h
    by_cases hc : cond s = true
    · rw [whileLoop_true _ _ _ _ hc] at h
      cases hb : body s with
      | none => rw [hb] at h; simp at h
      | some s2 =>
        rw [hb, Option.some_bind] at h
        exact ih s2 s1 h
    · simp only [whileLoop, hc, Bool.false_eq_true, if_false, Option.some.injEq] at h
      rw [← h]; simpa using hc

theorem whileLoop_keeps {σ α : Type} (cond : σ → Bool) (body : σ → Option σ) (f : σ → α)
    (hf : ∀ a b, body a = some b → f b = f a) :
    ∀ (fuel : Nat) (s s1 : σ), whileLoop cond body fuel s = some s1 → f s1 = f s := by
  intro fuel
  induction fuel with
  | zero =>
    intro s s1 h
    by_cases hc : cond s = true
    · simp [whileLoop, hc] at h
    · simp only [whileLoop, hc, Bool.false_eq_true, if_false, Option.some.injEq] at h
      rw [← h]
  | succ fuel ih =>
    intro s s1 h
    by_cases hc : cond s = true
    · rw [whileLoop_true _ _ _ _ hc] at h
      cases hb : body s with
      | none => rw [hb] at h; simp at h
      | some s2 =>
        rw [hb, Option.some_bind] at h
        rw [ih s2 s1 h, hf s s2 hb]
    · simp only [whileLoop, hc, Bool.false_eq_true, if_false, Option.some.injEq] at h
      rw [← h]

theorem resync_pairs_newlines (target source : List GoString) (st st1 : CmpState)
    (h : resync target source st = some st1) (xm src : GoString)
    (hx : target[st1.ti]? = some xm) (hs : source[st1.si]? = some src) (hxm : xm = LF) :
    src = LF := by
  unfold resync at h
  cases hsi : source[st.si]? with
  | none => rw [hsi] at h; simp at h
  | some s =>
    rw [hsi, Option.some_bind] at h
    by_cases hsl : s = LF
    · simp only [hsl, ne_eq, not_true_eq_false, if_false] at h
      cases hti : target[st.ti]? with
      | none => rw [hti] at h; simp at h
      | some t =>
        rw [hti, Option.some_bind] at h
        by_cases htl : t = LF
        · simp only [htl, ne_eq, not_true_eq_false, if_false, Option.some.injEq] at h
          rw [← h, hsi] at hs
          rw [← Option.some.inj hs, hsl]
        · simp only [ne_eq, htl, not_false_eq_true, if_true] at h
          have hk : st1.ti = st.ti := by
            unfold skipSourceLF at h
            exact whileLoop_keeps _ _ (fun s => s.ti) (by
              intro a b hab
              simp only [Option.some.injEq] at hab
              rw [← hab]) _ _ _ h
          rw [hk, hti] at hx
          exact absurd ((Option.some.inj hx).trans hxm) htl
    · simp only [ne_eq, hsl, not_false_eq_true, if_true] at h
      unfold skipTargetLF at h
      have hc := whileLoop_exit _ _ _ _ _ h
      simp only [Bool.and_eq_false_iff, decide_eq_false_iff_not] at hc
      rw [hxm] at hx
      rcases hc with hc | hc
      · rw [List.getElem?_eq_none (by omega)] at hx
        exact absurd hx (by simp)
      · exact absurd hx hc

theorem count_dropWhile_LF (src : List GoString) :
    (src.dropWhile (fun a => decide (a = LF))).count LF ≤ src.count LF := by
  induction src with
  | nil => simp
  | cons a src ih =>
    by_cases ha : a = LF
    · simp only [List.dropWhile_cons, ha, decide_True, if_true, List.count_cons_self]
      omega
    · simp [ha]

theorem alignL_missing_newline (l : Lexer) (target : List GoString) :
    ∀ source : List GoString, source.count LF < target.count LF →
      (alignL l target source).2 = false ∧
        ({ Str := LF, Mask := [true] } : RichText) ∈ (alignL l target source).1 := by
  induction target with
  | nil => intro source h; simp at h
  | cons x xs ih =>
    intro source h
    by_cases hx : x = LF
    · rw [hx] at h ⊢
      cases source with
      | nil =>
        rw [alignL_nil_right]
        refine ⟨by simp, ?_⟩
        rw [List.map_cons]
        exact List.mem_cons_self _ _
      | cons s ss =>
        by_cases hs : s = LF
        · rw [hs] at h ⊢
          simp only [List.count_cons_self, Nat.add_lt_add_iff_right] at h
          obtain ⟨h1, h2⟩ := ih ss h
          rw [alignL_pair l LF LF xs ss Iff.rfl]
          exact ⟨by simp [h1], List.mem_cons_of_mem _ h2⟩
        · rw [alignL_flag l xs s ss hs]
          exact ⟨rfl, List.mem_cons_self _ _⟩
    · have hcount : (x :: xs).count LF = xs.count LF := by
        rw [List.count_cons]
        have : ¬ (x == LF) = true := by simpa using hx
        simp [this]
      rw [hcount] at h
      cases hd : source.dropWhile (fun a => decide (a = LF)) with
      | nil =>
        rw [alignL_other_end l x xs source hx hd]
        refine ⟨rfl, ?_⟩
        have hmem : LF ∈ xs := by
          by_contra hn
          rw [List.count_eq_zero_of_not_mem hn] at h
          omega
        rw [List.map_cons]
        apply List.mem_cons_of_mem
        rw [List.mem_map]
        exact ⟨LF, hmem, rfl⟩
      | cons s ss =>
        have hle := count_dropWhile_LF source
        rw [hd] at hle
        have hs : s ≠ LF := by
          have := List.head_dropWhile_not (fun a => decide (a = LF)) source
            (by rw [hd]; simp)
          simpa [hd] using this
        have hcs : (s :: ss).count LF = ss.count LF := by
          rw [List.count_cons]
          have : ¬ (s == LF) = true := by simpa using hs
          simp [this]
        rw [hcs] at hle
        obtain ⟨h1, h2⟩ := ih ss (by omega)
        rw [alignL_other l x xs source s ss hx hd]
        exact ⟨by simp [h1], List.mem_cons_of_mem _ h2⟩

/-- C9 (missing newlines are a mismatch). For all sequences `target` and `source` of non-empty
tokens, if `target` contains more `"\n"` tokens than `source` then `Compare(target, source)`
returns `matched = false` and at least one `"\n"` entry of the result has mask `[true]`; and
whenever the cursors have been resynchronized and a pair is about to be compared, a target
newline faces a source newline (it is never compared against another token). -/
theorem compare_flags_missing_newlines (l : Lexer) (target source : List GoString)
    (hT : ∀ t ∈ target, t ≠ []) (hS : ∀ s ∈ source, s ≠ [])
    (h : source.count LF < target.count LF) :
    (∃ rts, l.Compare target source = some (rts, false) ∧
      ({ Str := LF, Mask := [true] } : RichText) ∈ rts) ∧
    (∀ st st1 : CmpState, resync target source st = some st1 →
      ∀ xm src : GoString, target[st1.ti]? = some xm → source[st1.si]? = some src →
        xm = LF → src = LF) := by
  obtain ⟨h1, h2⟩ := alignL_missing_newline l target source h
  refine ⟨⟨(alignL l target source).1, ?_, h2⟩, ?_⟩
  · rw [Compare_eq l target source hT hS, ← h1]
  · intro st st1 hr xm src hx hs hxm
    exact resync_pairs_newlines target source st st1 hr xm src hx hs hxm

/-- Witness for `compare_flags_missing_newlines`. -/
theorem compare_flags_missing_newlines_witness :
    (∀ t ∈ [ascii "a", LF, LF, ascii "b"], t ≠ []) ∧
    (∀ s ∈ [ascii "a", LF, ascii "b"], s ≠ []) ∧
    [ascii "a", LF, ascii "b"].count LF < [ascii "a", LF, LF, ascii "b"].count LF ∧
    ((∃ rts, (Lexer.mk 2).Compare [ascii "a", LF, LF, ascii "b"] [ascii "a", LF, ascii "b"]
        = some (rts, false) ∧ ({ Str := LF, Mask := [true] } : RichText) ∈ rts) ∧
    (∀ st st1 : CmpState,
      resync [ascii "a", LF, LF, ascii "b"] [ascii "a", LF, ascii "b"] st = some st1 →
      ∀ xm src : GoString, [ascii "a", LF, LF, ascii "b"][st1.ti]? = some xm →
        [ascii "a", LF, ascii "b"][st1.si]? = some src → xm = LF → src = LF)) :=
  ⟨by decide, by decide, by decide,
    compare_flags_missing_newlines (Lexer.mk 2) [ascii "a", LF, LF, ascii "b"]
      [ascii "a", LF, ascii "b"] (by decide) (by decide) (by decide)⟩

theorem strMaskFn_length (t s : GoString) : (strMaskFn t s).length = t.length := by
  unfold strMaskFn
  simp only [List.length_append, List.length_zipWith, List.length_replicate]
  omega

theorem floatMaskFn_length (p : Int) (t s : GoString) : (floatMaskFn p t s).length = t.length := by
  unfold floatMaskFn
  by_cases h : wholeOf t = t
  · rw [if_pos h, List.append_nil, intMaskFn_length, h]
  · rw [if_neg h]
    have hmem : 46 ∈ t := by
      by_contra hn
      exact h ((wholeOf_eq_self t).2 hn)
    rw [List.length_append, intMaskFn_length, List.length_cons, fracMaskFn_length]
    exact (length_whole_frac t hmem).symm

theorem maskFn_length (l : Lexer) (t s : GoString) : (maskFn l t s).length = t.length := by
  unfold maskFn
  split
  · exact strMaskFn_length t s
  · exact floatMaskFn_length _ t s
  · exact intMaskFn_length t s

theorem any_flagAll (t : GoString) (h : t ≠ []) : (flagAll t).Mask.any id = true := by
  cases t with
  | nil => exact absurd rfl h
  | cons c cs => simp [flagAll, strMaskFn_nil, List.replicate_succ]

theorem alignL_ok_iff (l : Lexer) (target : List GoString) :
    ∀ source : List GoString, (∀ t ∈ target, t ≠ []) →
      ((alignL l target source).2 = true ↔
        ∀ rt ∈ (alignL l target source).1, rt.Mask.any id = false) := by
  induction target with
  | nil => intro source _; simp [alignL]
  | cons x xs ih =>
    intro source hT
    have hx0 : x ≠ [] := hT x (List.mem_cons_self _ _)
    have hT2 : ∀ t ∈ xs, t ≠ [] := fun t ht => hT t (List.mem_cons_of_mem _ ht)
    have hend : ¬ (∀ rt ∈ List.map flagAll (x :: xs), rt.Mask.any id = false) := by
      intro hall
      have := hall (flagAll x) (by simp)
      rw [any_flagAll x hx0] at this
      exact absurd this (by simp)
    have hpair : ∀ (s : GoString) (ss : List GoString),
        ((!((maskFn l x s).any id) && (alignL l xs ss).2) = true ↔
          ∀ rt ∈ ({ Str := x, Mask := maskFn l x s } : RichText) :: (alignL l xs ss).1,
            rt.Mask.any id = false) := by
      intro s ss
      rw [List.forall_mem_cons, ← ih ss hT2]
      simp
    by_cases hx : x = LF
    · cases source with
      | nil =>
        rw [alignL_nil_right]
        simp only [reduceCtorEq, decide_False, Bool.false_eq_true, false_iff]
        exact hend
      | cons s ss =>
        by_cases hs : s = LF
        · rw [alignL_pair l x s xs ss ⟨fun _ => hs, fun _ => hx⟩]
          exact hpair s ss
        · rw [hx, alignL_flag l xs s ss hs]
          simp only [Bool.false_eq_true, false_iff]
          intro hall
          have := hall _ (List.mem_cons_self _ _)
          simp at this
    · cases hd : source.dropWhile (fun a => decide (a = LF)) with
      | nil =>
        rw [alignL_other_end l x xs source hx hd]
        simp only [Bool.false_eq_true, false_iff]
        exact hend
      | cons s ss =>
        rw [alignL_other l x xs source s ss hx hd]
        exact hpair s ss

theorem alignL_strs (l : Lexer) (target : List GoString) :
    ∀ source : List GoString, (alignL l target source).1.map RichText.Str = target := by
  induction target with
  | nil => intro source; simp [alignL]
  | cons x xs ih =>
    intro source
    have hend : List.map RichText.Str (List.map flagAll (x :: xs)) = x :: xs := by
      rw [List.map_map]
      have : (RichText.Str ∘ flagAll) = id := by
        funext t; rfl
      rw [this, List.map_id]
    by_cases hx : x = LF
    · cases source with
      | nil => rw [alignL_nil_right]; exact hend
      | cons s ss =>
        by_cases hs : s = LF
        · rw [alignL_pair l x s xs ss ⟨fun _ => hs, fun _ => hx⟩]
          simp [ih ss]
        · rw [hx, alignL_flag l xs s ss hs]
          simp [ih (s :: ss)]
    · cases hd : source.dropWhile (fun a => decide (a = LF)) with
      | nil => rw [alignL_other_end l x xs source hx hd]; exact hend
      | cons s ss =>
        rw [alignL_other l x xs source s ss hx hd]
        simp [ih ss]

theorem alignL_mask_lengths (l : Lexer) (target : List GoString) :
    ∀ source : List GoString, ∀ rt ∈ (alignL l target source).1,
      rt.Mask.length = rt.Str.length := by
  induction target with
  | nil => intro source rt hrt; simp [alignL] at hrt
  | cons x xs ih =>
    intro source
    have hend : ∀ rt ∈ List.map flagAll (x :: xs), rt.Mask.length = rt.Str.length := by
      intro rt hrt
      rw [List.mem_map] at hrt
      obtain ⟨t, _, rfl⟩ := hrt
      simp [flagAll, strMaskFn_length]
    have hpair : ∀ (s : GoString) (ss : List GoString),
        ∀ rt ∈ ({ Str := x, Mask := maskFn l x s } : RichText) :: (alignL l xs ss).1,
          rt.Mask.length = rt.Str.length := by
      intro s ss rt hrt
      rcases List.mem_cons.1 hrt with e | e
      · rw [e]; exact maskFn_length l x s
      · exact ih ss rt e
    by_cases hx : x = LF
    · cases source with
      | nil => rw [alignL_nil_right]; exact hend
      | cons s ss =>
        by_cases hs : s = LF
        · rw [alignL_pair l x s xs ss ⟨fun _ => hs, fun _ => hx⟩]
          exact hpair s ss
        · rw [hx, alignL_flag l xs s ss hs]
          intro rt hrt
          rcases List.mem_cons.1 hrt with e | e
          · rw [e]; rfl
          · exact ih (s :: ss) rt e
    · cases hd : source.dropWhile (fun a => decide (a = LF)) with
      | nil => rw [alignL_other_end l x xs source hx hd]; exact hend
      | cons s ss =>
        rw [alignL_other l x xs source s ss hx hd]
        exact hpair s ss

theorem alignL_surplus (l : Lexer) (ts extra : List GoString) :
    alignL l ts (ts ++ extra) = (ts.map cleanEntry, true) := by
  induction ts with
  | nil => simp [alignL]
  | cons t ts ih =>
    rw [List.cons_append, alignL_pair l t t _ _ Iff.rfl, ih, maskFn_self, any_replicate_false]
    simp [cleanEntry]

theorem Compare_nil_target (l : Lexer) (source : List GoString) :
    l.Compare [] source = some ([], true) := by
  have h1 : ∀ fuel (st : CmpState), st.ti = 0 → compareLoop l [] source fuel st = some st := by
    intro fuel st h
    cases fuel <;> simp [compareLoop, h]
  have h2 : ∀ st : CmpState, flagRest l [] 0 st = some st := by
    intro st
    simp [flagRest, whileLoop]
  simp [Lexer.Compare, h1, h2]

/-- C11 (the match flag agrees with the masks). For all sequences `target` and `source` of
non-empty tokens and every Precision, `Compare(target, source)` returns, and `matched = true`
if and only if no entry of the result has a true mask entry, that is, no entry is flagged
(`Colorful`). -/
theorem compare_matched_iff_unflagged (l : Lexer) (target source : List GoString)
    (hT : ∀ t ∈ target, t ≠ []) (hS : ∀ s ∈ source, s ≠ []) :
    ∃ rts ok, l.Compare target source = some (rts, ok) ∧
      (ok = true ↔ ∀ rt ∈ rts, ∀ b ∈ rt.Mask, b = false) ∧
      (ok = true ↔ ∀ rt ∈ rts, rt.Colorful = false) := by
  refine ⟨_, _, Compare_eq l target source hT hS, ?_, ?_⟩
  · rw [alignL_ok_iff l target source hT]
    constructor
    · intro h rt hrt
      exact (any_id_eq_false_iff _).1 (h rt hrt)
    · intro h rt hrt
      exact (any_id_eq_false_iff _).2 (h rt hrt)
  · exact alignL_ok_iff l target source hT

/-- Witness for `compare_matched_iff_unflagged`. -/
theorem compare_matched_iff_unflagged_witness :
    (∀ t ∈ [ascii "1.50", LF, ascii "x"], t ≠ []) ∧ (∀ s ∈ [ascii "1.5", ascii "y"], s ≠ []) ∧
    ∃ rts ok, (Lexer.mk 2).Compare [ascii "1.50", LF, ascii "x"] [ascii "1.5", ascii "y"]
        = some (rts, ok) ∧
      (ok = true ↔ ∀ rt ∈ rts, ∀ b ∈ rt.Mask, b = false) ∧
      (ok = true ↔ ∀ rt ∈ rts, rt.Colorful = false) :=
  ⟨by decide, by decide,
    compare_matched_iff_unflagged (Lexer.mk 2) [ascii "1.50", LF, ascii "x"]
      [ascii "1.5", ascii "y"] (by decide) (by decide)⟩

/-- C12 (the result follows the expected sequence). For all sequences `target` and `source`
of non-empty tokens, the result of `Compare(target, source)` has exactly `len(target)` entries
and entry `i` carries the string `target[i]`, whatever resynchronization skipped. -/
theorem compare_result_follows_target (l : Lexer) (target source : List GoString)
    (hT : ∀ t ∈ target, t ≠ []) (hS : ∀ s ∈ source, s ≠ []) :
    ∃ rts ok, l.Compare target source = some (rts, ok) ∧ rts.length = target.length ∧
      rts.map RichText.Str = target := by
  refine ⟨_, _, Compare_eq l target source hT hS, ?_, alignL_strs l target source⟩
  have := congrArg List.length (alignL_strs l target source)
  simpa using this

/-- Witness for `compare_result_follows_target`. -/
theorem compare_result_follows_target_witness :
    (∀ t ∈ [ascii "a", LF, LF, ascii "b"], t ≠ []) ∧
    (∀ s ∈ [LF, ascii "a", ascii "b", LF], s ≠ []) ∧
    ∃ rts ok, (Lexer.mk 2).Compare [ascii "a", LF, LF, ascii "b"] [LF, ascii "a", ascii "b", LF]
        = some (rts, ok) ∧ rts.length = [ascii "a", LF, LF, ascii "b"].length ∧
      rts.map RichText.Str = [ascii "a", LF, LF, ascii "b"] :=
  ⟨by decide, by decide,
    compare_result_follows_target (Lexer.mk 2) [ascii "a", LF, LF, ascii "b"]
      [LF, ascii "a", ascii "b", LF] (by decide) (by decide)⟩

/-- C13 (mask length). Each of `GenMaskForString`, `GenMaskForInt` and `GenMaskForFloat`
returns, for every target and source, a mask with exactly as many entries as the target has
bytes (the decimal point of a float target occupying one of them); so does
`GenerateMask(target, source)` for every pair of non-empty tokens and every Precision, and so
does every entry of a `Compare` result on sequences of non-empty tokens. -/
theorem mask_length_is_target_length (l : Lexer) (target source : GoString)
    (ht : target ≠ []) (hs : source ≠ []) :
    (∃ m, l.GenerateMask target source = some m ∧ m.length = target.length) ∧
    (∀ t s : GoString, ∃ m, l.GenMaskForString t s = some m ∧ m.length = t.length) ∧
    (∀ t s : GoString, ∃ m, l.GenMaskForInt t s = some m ∧ m.length = t.length) ∧
    (∀ t s : GoString, ∃ m, l.GenMaskForFloat t s = some m ∧ m.length = t.length) ∧
    (∀ ts ss : List GoString, (∀ t ∈ ts, t ≠ []) → (∀ s ∈ ss, s ≠ []) →
      ∃ rts ok, l.Compare ts ss = some (rts, ok) ∧
        ∀ rt ∈ rts, rt.Mask.length = rt.Str.length) := by
  refine ⟨⟨_, GenerateMask_eq l target source ht hs, maskFn_length l target source⟩, ?_, ?_,
    ?_, ?_⟩
  · intro t s
    exact ⟨_, GenMaskForString_eq l t s, strMaskFn_length t s⟩
  · intro t s
    exact ⟨_, GenMaskForInt_eq l t s, intMaskFn_length t s⟩
  · intro t s
    exact ⟨_, GenMaskForFloat_eq l t s, floatMaskFn_length _ t s⟩
  · intro ts ss hT hS
    exact ⟨_, _, Compare_eq l ts ss hT hS, alignL_mask_lengths l ts ss⟩

/-- Witness for `mask_length_is_target_length`. -/
theorem mask_length_is_target_length_witness :
    ascii "-12.50" ≠ [] ∧ ascii "3" ≠ [] ∧
    ((∃ m, (Lexer.mk 2).GenerateMask (ascii "-12.50") (ascii "3") = some m ∧
        m.length = (ascii "-12.50").length) ∧
    (∀ t s : GoString, ∃ m, (Lexer.mk 2).GenMaskForString t s = some m ∧ m.length = t.length) ∧
    (∀ t s : GoString, ∃ m, (Lexer.mk 2).GenMaskForInt t s = some m ∧ m.length = t.length) ∧
    (∀ t s : GoString, ∃ m, (Lexer.mk 2).GenMaskForFloat t s = some m ∧ m.length = t.length) ∧
    (∀ ts ss : List GoString, (∀ t ∈ ts, t ≠ []) → (∀ s ∈ ss, s ≠ []) →
      ∃ rts ok, (Lexer.mk 2).Compare ts ss = some (rts, ok) ∧
        ∀ rt ∈ rts, rt.Mask.length = rt.Str.length)) :=
  ⟨by decide, by decide,
    mask_length_is_target_length (Lexer.mk 2) (ascii "-12.50") (ascii "3") (by decide)
      (by decide)⟩

/-- C20 (surplus actual tokens are ignored). For every sequence `target` of non-empty tokens
and every sequence `extra` of non-empty tokens (newline or not), `Compare(target, target ++
extra)` returns `matched = true` with every mask all-false; and `Compare([], source)` returns
an empty result and `matched = true` for every `source`. -/
theorem compare_ignores_surplus_source (l : Lexer) (target extra : List GoString)
    (hT : ∀ t ∈ target, t ≠ []) (hE : ∀ s ∈ extra, s ≠ []) :
    l.Compare target (target ++ extra)
      = some (target.map (fun t => { Str := t, Mask := List.replicate t.length false }), true) ∧
    (∀ source : List GoString, l.Compare [] source = some ([], true)) := by
  refine ⟨?_, Compare_nil_target l⟩
  have hS : ∀ s ∈ target ++ extra, s ≠ [] := by
    intro s hs
    rcases List.mem_append.1 hs with h | h
    · exact hT s h
    · exact hE s h
  rw [Compare_eq l _ _ hT hS, alignL_surplus]
  rfl

/-- Witness for `compare_ignores_surplus_source`. -/
theorem compare_ignores_surplus_source_witness :
    (∀ t ∈ [ascii "1", LF], t ≠ []) ∧ (∀ s ∈ [ascii "2", LF, ascii "x"], s ≠ []) ∧
    ((Lexer.mk 2).Compare [ascii "1", LF] ([ascii "1", LF] ++ [ascii "2", LF, ascii "x"])
      = some ([ascii "1", LF].map
          (fun t => { Str := t, Mask := List.replicate t.length false }), true) ∧
    (∀ source : List GoString, (Lexer.mk 2).Compare [] source = some ([], true))) :=
  ⟨by decide, by decide,
    compare_ignores_surplus_source (Lexer.mk 2) [ascii "1", LF] [ascii "2", LF, ascii "x"]
      (by decide) (by decide)⟩

theorem atoiFast_of_digits (cs : GoString) :
    ∀ a : Nat, (∀ d ∈ cs, isDigit d = true) → ∃ n, strconv.atoiFast cs a = some n := by
  induction cs with
  | nil => intro a _; exact ⟨a, rfl⟩
  | cons c cs ih =>
    intro a h
    have hc : isDigit c = true := h c (List.mem_cons_self _ _)
    obtain ⟨n, hn⟩ := ih (a * 10 + (c - 48)) (fun d hd => h d (List.mem_cons_of_mem _ hd))
    exact ⟨n, by simp [strconv.atoiFast, hc, hn]⟩

theorem IsIntLexeme_of_digits (t : GoString) (h0 : t ≠ []) (hd : ∀ d ∈ t, isDigit d = true)
    (hlen : t.length ≤ 10) : IsIntLexeme t = true := by
  cases t with
  | nil => exact absurd rfl h0
  | cons c cs =>
    have hc := isDigit_not_sign c (hd c (List.mem_cons_self _ _))
    obtain ⟨n, hn⟩ := atoiFast_of_digits (c :: cs) 0 hd
    have hlen19 : (c :: cs).length < 19 := by omega
    have hsign : ¬ (c = 45 ∨ c = 43) := by omega
    unfold IsIntLexeme strconv.Atoi
    simp only [hlen19, if_true, hsign, if_false, hn, Bool.true_and, decide_eq_true_eq,
      VALID_INT_MAX_LEN]
    exact hlen

theorem unsignedPart_of_digits (t : GoString) (hd : ∀ d ∈ t, isDigit d = true) :
    unsignedPart t = t := by
  cases t with
  | nil => rfl
  | cons c cs =>
    have hc := isDigit_not_sign c (hd c (List.mem_cons_self _ _))
    unfold unsignedPart
    simp only [List.head?_cons, Option.some.injEq]
    rw [if_neg (by omega)]

theorem typeFn_digits_short (t : GoString) (h0 : t ≠ []) (hd : ∀ d ∈ t, isDigit d = true)
    (hlen : t.length ≤ 10) : typeFn t = .INTXM :=
  typeFn_int t (IsIntLexeme_of_digits t h0 hd hlen)

theorem typeFn_digits_long (t : GoString) (hd : ∀ d ∈ t, isDigit d = true)
    (hlen : 11 ≤ t.length) : typeFn t = .FLOATXM := by
  apply typeFn_float
  · apply floatOk_of_digits
    rw [unsignedPart_of_digits t hd]
    exact hd
  · unfold IsIntLexeme
    have : ¬ t.length ≤ VALID_INT_MAX_LEN := by
      unfold VALID_INT_MAX_LEN; omega
    simp [this]

/-- C14 (classification order). For every non-empty token `t`, `DeduceLexemeType(t)` is String
when `IsFloatLexeme(t)` is false, Float when `IsFloatLexeme(t)` is true and `IsIntLexeme(t)` is
false, and Int otherwise (`IsFloatLexeme` returns on every non-empty token); every run of 11
or more decimal digits is classified Float and every run of 1 to 10 decimal digits is
classified Int. -/
theorem classification_order (t : GoString) (h0 : t ≠ []) :
    (∃ b, IsFloatLexeme t = some b) ∧
    (IsFloatLexeme t = some false → DeduceLexemeType t = some .STRXM) ∧
    (IsFloatLexeme t = some true → IsIntLexeme t = false →
      DeduceLexemeType t = some .FLOATXM) ∧
    (IsFloatLexeme t = some true → IsIntLexeme t = true → DeduceLexemeType t = some .INTXM) ∧
    ((∀ d ∈ t, isDigit d = true) → 11 ≤ t.length → DeduceLexemeType t = some .FLOATXM) ∧
    ((∀ d ∈ t, isDigit d = true) → t.length ≤ 10 → DeduceLexemeType t = some .INTXM) := by
  refine ⟨⟨_, IsFloatLexeme_eq t h0⟩, ?_, ?_, ?_, ?_, ?_⟩
  · intro h; simp [DeduceLexemeType, h]
  · intro h1 h2; simp [DeduceLexemeType, h1, h2]
  · intro h1 h2; simp [DeduceLexemeType, h1, h2]
  · intro hd hlen
    rw [DeduceLexemeType_eq t h0, typeFn_digits_long t hd hlen]
  · intro hd hlen
    rw [DeduceLexemeType_eq t h0, typeFn_digits_short t h0 hd hlen]

/-- Witness for `classification_order`. -/
theorem classification_order_witness :
    ascii "12345678901" ≠ [] ∧
    ((∃ b, IsFloatLexeme (ascii "12345678901") = some b) ∧
    (IsFloatLexeme (ascii "12345678901") = some false →
      DeduceLexemeType (ascii "12345678901") = some .STRXM) ∧
    (IsFloatLexeme (ascii "12345678901") = some true → IsIntLexeme (ascii "12345678901") = false →
      DeduceLexemeType (ascii "12345678901") = some .FLOATXM) ∧
    (IsFloatLexeme (ascii "12345678901") = some true → IsIntLexeme (ascii "12345678901") = true →
      DeduceLexemeType (ascii "12345678901") = some .INTXM) ∧
    ((∀ d ∈ ascii "12345678901", isDigit d = true) → 11 ≤ (ascii "12345678901").length →
      DeduceLexemeType (ascii "12345678901") = some .FLOATXM) ∧
    ((∀ d ∈ ascii "12345678901", isDigit d = true) → (ascii "12345678901").length ≤ 10 →
      DeduceLexemeType (ascii "12345678901") = some .INTXM)) :=
  ⟨by decide, classification_order (ascii "12345678901") (by decide)⟩

/-- C15, the code at the failing inputs: the tokens `"+"` and `"-"` contain no digit, yet
`IsFloatLexeme` accepts them and `DeduceLexemeType` classifies them as Float, not String; the
float rule then applies numeric leniency: `"+"` matches `"0"` in both orders. -/
theorem lone_sign_is_classified_float :
    IsFloatLexeme (ascii "+") = some true ∧ IsFloatLexeme (ascii "-") = some true ∧
    DeduceLexemeType (ascii "+") = some .FLOATXM ∧
    DeduceLexemeType (ascii "-") = some .FLOATXM ∧
    (Lexer.mk 0).Compare [ascii "+"] [ascii "0"]
      = some ([{ Str := ascii "+", Mask := [false] }], true) ∧
    (Lexer.mk 0).Compare [ascii "0"] [ascii "+"]
      = some ([{ Str := ascii "0", Mask := [false] }], true) ∧
    DeduceLexemeType (ascii ".") = some .STRXM ∧
    DeduceLexemeType (ascii "-.") = some .STRXM ∧
    DeduceLexemeType (ascii "1.2.3") = some .STRXM := by
  decide

/-- C16, the code at the failing input: `"9223372036854775808"` and `"9223372036854775809"`
are runs of decimal digits that denote different natural numbers; `Atoi` reports a range
error for both and returns the largest `int`, the error is dropped, and `GenerateMask` returns
the all-false mask, so `Compare` reports a match in both orders. -/
theorem big_numbers_compare_equal :
    (∀ d ∈ ascii "9223372036854775808", isDigit d = true) ∧
    (∀ d ∈ ascii "9223372036854775809", isDigit d = true) ∧
    strconv.Atoi (ascii "9223372036854775808") = (2 ^ 63 - 1, false) ∧
    strconv.Atoi (ascii "9223372036854775809") = (2 ^ 63 - 1, false) ∧
    (Lexer.mk 0).GenerateMask (ascii "9223372036854775808") (ascii "9223372036854775809")
      = some (List.replicate 19 false) ∧
    (Lexer.mk 0).Compare [ascii "9223372036854775808"] [ascii "9223372036854775809"]
      = some ([{ Str := ascii "9223372036854775808", Mask := List.replicate 19 false }], true) ∧
    (Lexer.mk 0).Compare [ascii "9223372036854775809"] [ascii "9223372036854775808"]
      = some ([{ Str := ascii "9223372036854775809", Mask := List.replicate 19 false }], true) ∧
    (Lexer.mk 0).GenerateMask (ascii "12345678901") (ascii "12345678902")
      = some (List.replicate 11 true) := by
  decide

theorem decodeMulti_width (p0 sz lo hi : Nat) (p : GoString) (h2 : 2 ≤ sz) (h4 : sz ≤ 4) :
    1 ≤ (utf8.decodeMulti p0 sz lo hi p).2 ∧
      ((utf8.decodeMulti p0 sz lo hi p).2 = 1 ∨ (utf8.decodeMulti p0 sz lo hi p).2 = sz) ∧
      ((utf8.decodeMulti p0 sz lo hi p).2 = sz → sz ≤ p.length) := by
  unfold utf8.decodeMulti
  split_ifs <;> simp <;> omega

theorem DecodeRune_width (p : GoString) (hp : p ≠ []) :
    1 ≤ (utf8.DecodeRune p).2 ∧ (utf8.DecodeRune p).2 ≤ p.length := by
  cases p with
  | nil => exact absurd rfl hp
  | cons p0 rest =>
    unfold utf8.DecodeRune
    simp only
    by_cases h1 : p0 < 0x80
    · simp [h1]
    · by_cases h2 : p0 < 0xC2 ∨ 0xF4 < p0
      · simp [h1, h2]
      · rw [if_neg h1, if_neg h2]
        have hw := decodeMulti_width p0 (if p0 < 0xE0 then 2 else if p0 < 0xF0 then 3 else 4)
          (if p0 = 0xE0 then 0xA0 else if p0 = 0xF0 then 0x90 else 0x80)
          (if p0 = 0xED then 0x9F else if p0 = 0xF4 then 0x8F else 0xBF) (p0 :: rest)
          (by split_ifs <;> omega) (by split_ifs <;> omega)
        obtain ⟨hw1, hw2, hw3⟩ := hw
        refine ⟨hw1, ?_⟩
        rcases hw2 with e | e
        · rw [e]; simp
        · have := hw3 e
          omega

theorem getD_take (p : GoString) (k i : Nat) (h : i < k) : (p.take k).getD i 0 = p.getD i 0 := by
  simp only [List.getD_eq_getElem?_getD]
  rw [List.getElem?_take_of_lt h]

theorem decodeMulti_take (p0 sz lo hi : Nat) (p : GoString) (k : Nat) (h2 : 2 ≤ sz)
    (h4 : sz ≤ 4) (hk : (utf8.decodeMulti p0 sz lo hi p).2 ≤ k) (hk1 : 1 ≤ k) :
    utf8.decodeMulti p0 sz lo hi (p.take k) = utf8.decodeMulti p0 sz lo hi p := by
  unfold utf8.decodeMulti at hk ⊢
  by_cases c1 : p.length < sz
  · have : (p.take k).length < sz := by
      rw [List.length_take]; omega
    simp [c1, this]
  · rw [if_neg c1] at hk ⊢
    by_cases hksz : k < sz
    · -- the result on `p` has width 1
      have hlen : (p.take k).length < sz := by
        rw [List.length_take]; omega
      rw [if_pos hlen]
      split_ifs at hk ⊢ <;> first
        | rfl
        | (simp only at hk; omega)
    · have hlen : ¬ (p.take k).length < sz := by
        rw [List.length_take]; omega
      rw [if_neg hlen]
      have g1 : (p.take k).getD 1 0 = p.getD 1 0 := getD_take p k 1 (by omega)
      rw [g1]
      by_cases c2 : p.getD 1 0 < lo ∨ hi < p.getD 1 0
      · rw [if_pos c2, if_pos c2]
      · rw [if_neg c2, if_neg c2]
        by_cases c3 : sz ≤ 2
        · rw [if_pos c3, if_pos c3]
        · rw [if_neg c3, if_neg c3]
          have g2 : (p.take k).getD 2 0 = p.getD 2 0 := getD_take p k 2 (by omega)
          rw [g2]
          by_cases c4 : p.getD 2 0 < 0x80 ∨ 0xBF < p.getD 2 0
          · rw [if_pos c4, if_pos c4]
          · rw [if_neg c4, if_neg c4]
            by_cases c5 : sz ≤ 3
            · rw [if_pos c5, if_pos c5]
            · rw [if_neg c5, if_neg c5]
              have g3 : (p.take k).getD 3 0 = p.getD 3 0 := getD_take p k 3 (by omega)
              rw [g3]

theorem DecodeRune_take (p : GoString) (k : Nat) (hk : (utf8.DecodeRune p).2 ≤ k)
    (hk1 : 1 ≤ k) : utf8.DecodeRune (p.take k) = utf8.DecodeRune p := by
  cases p with
  | nil => simp
  | cons p0 rest =>
    obtain ⟨k, rfl⟩ : ∃ j, k = j + 1 := ⟨k - 1, by omega⟩
    have htake : (p0 :: rest).take (k + 1) = p0 :: rest.take k := rfl
    unfold utf8.DecodeRune at hk ⊢
    rw [htake]
    simp only at hk ⊢
    by_cases h1 : p0 < 0x80
    · simp [h1]
    · by_cases h2 : p0 < 0xC2 ∨ 0xF4 < p0
      · simp [h1, h2]
      · simp only [if_neg h1, if_neg h2] at hk ⊢
        rw [← htake]
        exact decodeMulti_take _ _ _ _ _ _ (by split_ifs <;> omega) (by split_ifs <;> omega) hk
          (by omega)

theorem decodeMulti_ge (p0 sz lo hi : Nat) (p : GoString) (h0 : 0xC2 ≤ p0) (h1 : p0 ≤ 0xF4)
    (hsz : sz = if p0 < 0xE0 then 2 else if p0 < 0xF0 then 3 else 4)
    (hlo : lo = if p0 = 0xE0 then 0xA0 else if p0 = 0xF0 then 0x90 else 0x80)
    (hhi : hi ≤ 0xBF) :
    0x80 ≤ (utf8.decodeMulti p0 sz lo hi p).1 := by
  unfold utf8.decodeMulti
  split_ifs at hsz hlo ⊢ <;> simp only [utf8.RuneError] <;> omega

theorem DecodeRune_ascii (p : GoString) (h : (utf8.DecodeRune p).1 < 0x80) :
    ∃ rest, p = (utf8.DecodeRune p).1 :: rest ∧ (utf8.DecodeRune p).2 = 1 := by
  cases p with
  | nil => simp [utf8.DecodeRune, utf8.RuneError] at h
  | cons p0 rest =>
    unfold utf8.DecodeRune at h ⊢
    simp only at h ⊢
    by_cases h1 : p0 < 0x80
    · simp [h1]
    · by_cases h2 : p0 < 0xC2 ∨ 0xF4 < p0
      · simp [h1, h2, utf8.RuneError] at h
      · rw [if_neg h1, if_neg h2] at h
        have := decodeMulti_ge p0 _ _ (if p0 = 0xED then 0x9F else if p0 = 0xF4 then 0x8F
          else 0xBF) (p0 :: rest) (by omega) (by omega) rfl rfl (by split_ifs <;> omega)
        omega

theorem decodeRunes_fuel (f1 : Nat) :
    ∀ (f2 : Nat) (p : GoString), p.length ≤ f1 → p.length ≤ f2 →
      decodeRunes f1 p = decodeRunes f2 p := by
  induction f1 with
  | zero =>
    intro f2 p h1 _
    have : p = [] := List.length_eq_zero.1 (by omega)
    subst this
    cases f2 <;> simp [decodeRunes]
  | succ f1 ih =>
    intro f2 p h1 h2
    by_cases hp : p = []
    · subst hp
      cases f2 <;> simp [decodeRunes]
    · obtain ⟨f2, rfl⟩ : ∃ j, f2 = j + 1 := by
        have : 0 < p.length := List.length_pos.2 hp
        exact ⟨f2 - 1, by omega⟩
      have hw := DecodeRune_width p hp
      simp only [decodeRunes, hp, if_false, List.cons.injEq, true_and]
      apply ih
      · rw [List.length_drop]; omega
      · rw [List.length_drop]; omega

theorem runesOf_cons (p : GoString) (hp : p ≠ []) :
    runesOf p = (utf8.DecodeRune p).1 :: runesOf (p.drop (utf8.DecodeRune p).2) := by
  have hw := DecodeRune_width p hp
  have hlen : 0 < p.length := List.length_pos.2 hp
  unfold runesOf
  obtain ⟨n, hn⟩ : ∃ n, p.length = n + 1 := ⟨p.length - 1, by omega⟩
  rw [hn]
  simp only [decodeRunes, hp, if_false, List.cons.injEq, true_and]
  apply decodeRunes_fuel
  · rw [List.length_drop]; omega
  · exact le_refl _

theorem runesOf_nil : runesOf [] = [] := rfl

theorem goSlice_eq (data : GoString) (a b : Nat) :
    goSlice data a b = (data.drop a).take (b - a) := by
  unfold goSlice
  rw [List.drop_take]

theorem runesOf_goSlice (data : GoString) (i e : Nat) (hie : i < e) (hel : e ≤ data.length)
    (hw : i + (utf8.DecodeRune (data.drop i)).2 ≤ e) :
    runesOf (goSlice data i e)
      = (utf8.DecodeRune (data.drop i)).1
          :: runesOf (goSlice data (i + (utf8.DecodeRune (data.drop i)).2) e) := by
  have hne : goSlice data i e ≠ [] := by
    intro h
    have := congrArg List.length h
    rw [goSlice_eq, List.length_take, List.length_drop] at this
    simp at this
    omega
  have hdec : utf8.DecodeRune (goSlice data i e) = utf8.DecodeRune (data.drop i) := by
    rw [goSlice_eq]
    exact DecodeRune_take _ _ (by omega) (by omega)
  rw [runesOf_cons _ hne, hdec]
  congr 2
  rw [goSlice_eq, goSlice_eq, List.drop_take, List.drop_drop]
  congr 1
  omega

theorem skipLeading_spec (data : GoString) :
    ∀ (fuel start s1 : Nat), start ≤ data.length → skipLeading data fuel start = some s1 →
      start ≤ s1 ∧ s1 ≤ data.length ∧
        (s1 < data.length → (utf8.DecodeRune (data.drop s1)).1 = 10
          ∨ unicode.IsSpace (utf8.DecodeRune (data.drop s1)).1 = false) := by
  intro fuel
  induction fuel with
  | zero =>
    intro start s1 hs h
    unfold skipLeading at h
    split_ifs at h with hc
    simp only [Option.some.injEq] at h
    subst h
    refine ⟨le_refl _, hs, ?_⟩
    intro hlt
    by_contra hn
    exact hc ⟨hlt, hn⟩
  | succ fuel ih =>
    intro start s1 hs h
    unfold skipLeading at h
    split_ifs at h with hc
    · have hne : data.drop start ≠ [] := by
        intro e
        have := congrArg List.length e
        rw [List.length_drop] at this
        simp at this
        omega
      have hw := DecodeRune_width _ hne
      rw [List.length_drop] at hw
      obtain ⟨h1, h2, h3⟩ := ih _ s1 (by omega) h
      exact ⟨by omega, h2, h3⟩
    · simp only [Option.some.injEq] at h
      subst h
      refine ⟨le_refl _, hs, ?_⟩
      intro hlt
      by_contra hn
      exact hc ⟨hlt, hn⟩

theorem skipLeading_total (data : GoString) :
    ∀ (fuel start : Nat), start ≤ data.length → data.length - start ≤ fuel →
      ∃ s1, skipLeading data fuel start = some s1 := by
  intro fuel
  induction fuel with
  | zero =>
    intro start hs hf
    have : ¬ start < data.length := by omega
    exact ⟨start, by simp [skipLeading, this]⟩
  | succ fuel ih =>
    intro start hs hf
    unfold skipLeading
    split_ifs with hc
    · have hne : data.drop start ≠ [] := by
        intro e
        have := congrArg List.length e
        rw [List.length_drop] at this
        simp at this
        omega
      have hw := DecodeRune_width _ hne
      rw [List.length_drop] at hw
      exact ih _ (by omega) (by omega)
    · exact ⟨start, rfl⟩

theorem drop_ne_nil (data : GoString) (i : Nat) (h : i < data.length) : data.drop i ≠ [] := by
  intro e
  have := congrArg List.length e
  rw [List.length_drop] at this
  simp at this
  omega

theorem goSlice_length (data : GoString) (a b : Nat) (hb : b ≤ data.length) :
    (goSlice data a b).length = b - a := by
  rw [goSlice_eq, List.length_take, List.length_drop]
  omega

theorem hasNoSpace_nil : hasNoSpace [] := by
  intro r hr
  simp [runesOf_nil] at hr

theorem goSlice_self (data : GoString) (i : Nat) : goSlice data i i = [] := by
  rw [goSlice_eq]; simp

theorem wordLoop_total (data : GoString) (start : Nat) :
    ∀ (fuel i : Nat), i ≤ data.length → data.length - i ≤ fuel →
      ∃ res, wordLoop data start fuel i = some res := by
  intro fuel
  induction fuel with
  | zero =>
    intro i hi hf
    have : ¬ i < data.length := by omega
    exact ⟨none, by simp [wordLoop, this]⟩
  | succ fuel ih =>
    intro i hi hf
    unfold wordLoop
    by_cases hlt : i < data.length
    · have hw := DecodeRune_width _ (drop_ne_nil data i hlt)
      rw [List.length_drop] at hw
      simp only [hlt, if_true]
      split_ifs
      · exact ⟨_, rfl⟩
      · exact ⟨_, rfl⟩
      · exact ⟨_, rfl⟩
      · exact ih _ (by omega) (by omega)
    · simp only [hlt, if_false]
      exact ⟨_, rfl⟩

theorem wordLoop_token (data : GoString) (start : Nat)
    (hfirst : start < data.length → (utf8.DecodeRune (data.drop start)).1 = 10
      ∨ unicode.IsSpace (utf8.DecodeRune (data.drop start)).1 = false) :
    ∀ (fuel i : Nat) (res : Nat × Option GoString), start ≤ i → i ≤ data.length →
      wordLoop data start fuel i = some (some res) →
      0 < res.1 ∧ res.1 ≤ data.length ∧
        ∃ t, res.2 = some t ∧ t ≠ [] ∧
          (t = LF ∨ ∃ e, t = goSlice data start e ∧ i ≤ e ∧ e ≤ data.length
            ∧ hasNoSpace (goSlice data i e)) := by
  intro fuel
  induction fuel with
  | zero =>
    intro i res _ _ h
    unfold wordLoop at h
    split_ifs at h
    simp at h
  | succ fuel ih =>
    intro i res hsi hil h
    unfold wordLoop at h
    by_cases hlt : i < data.length
    · have hw := DecodeRune_width _ (drop_ne_nil data i hlt)
      rw [List.length_drop] at hw
      simp only [hlt, if_true] at h
      by_cases hLF : (utf8.DecodeRune (data.drop i)).1 = 10
      · obtain ⟨rest, hrest, hw1⟩ := DecodeRune_ascii (data.drop i) (by rw [hLF]; decide)
        rw [hLF] at hrest
        simp only [hLF, if_true] at h
        by_cases his : i = start
        · simp only [his, if_true, Option.some.injEq] at h
          subst h
          rw [his] at hw1 hrest hlt
          refine ⟨by simp only; omega, by simp only; omega, _, rfl, ?_, Or.inl ?_⟩
          · intro e
            have := congrArg List.length e
            rw [goSlice_length _ _ _ (by omega)] at this
            simp at this
            omega
          · rw [goSlice_eq, hw1, hrest]
            simp [LF]
        · simp only [his, if_false, Option.some.injEq] at h
          subst h
          refine ⟨by simp only; omega, by simp only; omega, _, rfl, ?_, Or.inr ⟨i, rfl, le_refl _,
            hil, ?_⟩⟩
          · intro e
            have := congrArg List.length e
            rw [goSlice_length _ _ _ (by omega)] at this
            simp at this
            omega
          · rw [goSlice_self]; exact hasNoSpace_nil
      · simp only [hLF, if_false] at h
        by_cases hsp : unicode.IsSpace (utf8.DecodeRune (data.drop i)).1 = true
        · simp only [hsp, if_true, Option.some.injEq] at h
          subst h
          have his : i ≠ start := by
            intro e
            rw [e] at hLF hsp hlt
            rcases hfirst hlt with h1 | h1
            · exact hLF h1
            · rw [h1] at hsp; exact absurd hsp (by simp)
          refine ⟨by simp only; omega, by simp only; omega, _, rfl, ?_, Or.inr ⟨i, rfl, le_refl _,
            hil, ?_⟩⟩
          · intro e
            have := congrArg List.length e
            rw [goSlice_length _ _ _ (by omega)] at this
            simp at this
            omega
          · rw [goSlice_self]; exact hasNoSpace_nil
        · simp only [hsp, Bool.false_eq_true, if_false] at h
          obtain ⟨h1, h2, t, h3, h4, h5⟩ := ih _ res (by omega) (by omega) h
          refine ⟨h1, h2, t, h3, h4, ?_⟩
          rcases h5 with h5 | ⟨e, he1, he2, he3, he4⟩
          · exact Or.inl h5
          · refine Or.inr ⟨e, he1, by omega, he3, ?_⟩
            intro r hr
            rw [runesOf_goSlice data i e (by omega) he3 he2] at hr
            rcases List.mem_cons.1 hr with e1 | e1
            · rw [e1]; simpa using hsp
            · exact he4 r e1
    · simp only [hlt, if_false] at h
      exact absurd h (by simp)

theorem wordLoop_fall (data : GoString) (start : Nat) :
    ∀ (fuel i : Nat), i ≤ data.length → wordLoop data start fuel i = some none →
      hasNoSpace (data.drop i) := by
  intro fuel
  induction fuel with
  | zero =>
    intro i hi h
    unfold wordLoop at h
    split_ifs at h with hlt
    have : data.drop i = [] := List.drop_eq_nil_of_le (by omega)
    rw [this]; exact hasNoSpace_nil
  | succ fuel ih =>
    intro i hi h
    unfold wordLoop at h
    by_cases hlt : i < data.length
    · have hw := DecodeRune_width _ (drop_ne_nil data i hlt)
      rw [List.length_drop] at hw
      simp only [hlt, if_true] at h
      by_cases hLF : (utf8.DecodeRune (data.drop i)).1 = 10
      · simp only [hLF, if_true] at h
        split_ifs at h <;> simp at h
      · simp only [hLF, if_false] at h
        by_cases hsp : unicode.IsSpace (utf8.DecodeRune (data.drop i)).1 = true
        · simp only [hsp, if_true] at h
          exact absurd h (by simp)
        · simp only [hsp, Bool.false_eq_true, if_false] at h
          have := ih _ (by omega) h
          intro r hr
          rw [runesOf_cons _ (drop_ne_nil data i hlt), List.drop_drop] at hr
          rcases List.mem_cons.1 hr with e1 | e1
          · rw [e1]; simpa using hsp
          · exact this r e1
    · have : data.drop i = [] := List.drop_eq_nil_of_le (by omega)
      rw [this]; exact hasNoSpace_nil

theorem ScanLexemes_total (data : GoString) (atEOF : Bool) :
    ∃ res, ScanLexemes data atEOF = some res := by
  obtain ⟨s1, hs1⟩ := skipLeading_total data data.length 0 (by omega) (by omega)
  obtain ⟨_, hs2, _⟩ := skipLeading_spec data _ _ _ (by omega) hs1
  obtain ⟨res, hres⟩ := wordLoop_total data s1 data.length s1 hs2 (by omega)
  unfold ScanLexemes
  rw [hs1, Option.some_bind, hres, Option.some_bind]
  cases res with
  | some r => exact ⟨r, rfl⟩
  | none =>
    simp only
    split_ifs
    · exact ⟨_, rfl⟩
    · exact ⟨_, rfl⟩

theorem ScanLexemes_token (data : GoString) (atEOF : Bool) (adv : Nat) (t : GoString)
    (h : ScanLexemes data atEOF = some (adv, some t)) :
    0 < adv ∧ adv ≤ data.length ∧ tokenOK t := by
  unfold ScanLexemes at h
  cases hs : skipLeading data data.length 0 with
  | none => rw [hs] at h; simp at h
  | some s1 =>
    obtain ⟨_, hs2, hs3⟩ := skipLeading_spec data _ _ _ (by omega) hs
    rw [hs, Option.some_bind] at h
    cases hw : wordLoop data s1 data.length s1 with
    | none => rw [hw] at h; simp at h
    | some res =>
      rw [hw, Option.some_bind] at h
      cases res with
      | some r =>
        simp only [Option.some.injEq] at h
        obtain ⟨h1, h2, t1, h3, h4, h5⟩ := wordLoop_token data s1 hs3 _ _ r (le_refl _) hs2 hw
        rw [h] at h1 h2 h3
        simp only [Option.some.injEq] at h3
        subst h3
        refine ⟨h1, h2, h4, ?_⟩
        rcases h5 with h5 | ⟨e, he1, _, _, he4⟩
        · exact Or.inl h5
        · right; rw [he1]; exact he4
      | none =>
        simp only at h
        split_ifs at h with hc
        · simp only [Option.some.injEq, Prod.mk.injEq] at h
          obtain ⟨h1, h2⟩ := h
          subst h1 h2
          refine ⟨by omega, le_refl _, ?_, Or.inr ?_⟩
          · intro e
            have := congrArg List.length e
            rw [goSlice_length _ _ _ (le_refl _)] at this
            simp at this
            omega
          · have : goSlice data s1 data.length = data.drop s1 := by
              rw [goSlice_eq, List.take_of_length_le (by rw [List.length_drop])]
            rw [this]
            exact wordLoop_fall data s1 _ _ hs2 hw
        · simp at h

theorem trySplit_spec (s : bufio.Scanner) (hinv : s.start + s.buf.length ≤ s.cap) :
    ∃ step, s.trySplit ScanLexemes = some step ∧
      (∀ tok s1, step = Sum.inl (tok, s1) →
        s1.start + s1.buf.length ≤ s1.cap ∧ scanMeasure s1 ≤ scanMeasure s ∧
          ∀ t, tok = some t → scanMeasure s1 < scanMeasure s ∧ tokenOK t) ∧
      (∀ s1, step = Sum.inr s1 →
        s1.start + s1.buf.length ≤ s1.cap ∧ scanMeasure s1 ≤ scanMeasure s) := by
  unfold bufio.Scanner.trySplit
  by_cases hc : s.buf.length > 0 ∨ s.atEOF
  · rw [if_pos hc]
    obtain ⟨res, hres⟩ := ScanLexemes_total s.buf s.atEOF
    rw [hres, Option.some_bind]
    by_cases hadv : res.1 > s.buf.length
    · rw [if_pos hadv]
      refine ⟨_, rfl, ?_, ?_⟩
      · intro tok s1 h
        simp only [Sum.inl.injEq, Prod.mk.injEq] at h
        obtain ⟨h1, h2⟩ := h
        subst h1 h2
        exact ⟨hinv, le_refl _, fun t ht => absurd ht (by simp)⟩
      · intro s1 h; simp at h
    · rw [if_neg hadv]
      obtain ⟨adv, tk⟩ := res
      simp only at hadv ⊢
      cases tk with
      | some token =>
        obtain ⟨h1, h2, h3⟩ := ScanLexemes_token s.buf s.atEOF adv token hres
        refine ⟨_, rfl, ?_, ?_⟩
        · intro tok s1 h
          simp only [Sum.inl.injEq, Prod.mk.injEq] at h
          obtain ⟨e1, e2⟩ := h
          subst e1 e2
          refine ⟨?_, ?_, ?_⟩
          · simp only [List.length_drop]; omega
          · simp only [scanMeasure, List.length_drop]; omega
          · intro t ht
            simp only [Option.some.injEq] at ht
            subst ht
            refine ⟨?_, h3⟩
            simp only [scanMeasure, List.length_drop]; omega
        · intro s1 h; simp at h
      | none =>
        refine ⟨_, rfl, ?_, ?_⟩
        · intro tok s1 h; simp at h
        · intro s1 h
          simp only [Sum.inr.injEq] at h
          subst h
          refine ⟨?_, ?_⟩
          · simp only [List.length_drop]; omega
          · simp only [scanMeasure, List.length_drop]; omega
  · rw [if_neg hc]
    refine ⟨_, rfl, ?_, ?_⟩
    · intro tok s1 h; simp at h
    · intro s1 h
      simp only [Sum.inr.injEq] at h
      subst h
      exact ⟨hinv, le_refl _⟩

theorem shift_spec (s : bufio.Scanner) (hinv : s.start + s.buf.length ≤ s.cap) :
    s.shift.start + s.shift.buf.length ≤ s.shift.cap ∧ scanMeasure s.shift = scanMeasure s ∧
      s.shift.atEOF = s.atEOF := by
  unfold bufio.Scanner.shift
  split_ifs
  · refine ⟨?_, rfl, rfl⟩
    show 0 + s.buf.length ≤ s.cap
    omega
  · exact ⟨hinv, rfl, rfl⟩

theorem grow_read_spec (s : bufio.Scanner) (hinv : s.start + s.buf.length ≤ s.cap)
    (heof : s.atEOF = false)
    (hfull : ¬ (s.start + s.buf.length = s.cap ∧ s.cap ≥ bufio.MaxScanTokenSize)) :
    s.grow.read.start + s.grow.read.buf.length ≤ s.grow.read.cap ∧
      scanMeasure s.grow.read < scanMeasure s := by
  have hg : s.grow.start + s.grow.buf.length < s.grow.cap ∧ s.grow.r = s.r ∧
      s.grow.buf = s.buf ∧ s.grow.atEOF = s.atEOF := by
    unfold bufio.Scanner.grow
    by_cases hc : s.start + s.buf.length = s.cap
    · rw [if_pos hc]
      have hcap : s.cap < bufio.MaxScanTokenSize := by
        by_contra hn
        exact hfull ⟨hc, by omega⟩
      refine ⟨?_, rfl, rfl, rfl⟩
      show 0 + s.buf.length
        < min (if s.cap * 2 = 0 then bufio.startBufSize else s.cap * 2) bufio.MaxScanTokenSize
      simp only [bufio.MaxScanTokenSize, bufio.startBufSize] at hcap ⊢
      split_ifs <;> omega
    · rw [if_neg hc]
      exact ⟨by omega, rfl, rfl, rfl⟩
  obtain ⟨hg1, hg2, hg3, hg4⟩ := hg
  unfold bufio.Scanner.read
  by_cases hr : s.grow.r = []
  · rw [if_pos hr]
    refine ⟨by simp only; omega, ?_⟩
    simp only [scanMeasure, hg2, hg3, heof]
    simp
  · rw [if_neg hr]
    have hlen : 0 < s.grow.r.length := List.length_pos.2 hr
    refine ⟨?_, ?_⟩
    · simp only [List.length_append, List.length_take]; omega
    · simp only [scanMeasure, List.length_append, List.length_take, List.length_drop, hg4, heof]
      rw [hg2] at hlen ⊢
      rw [hg3] at hg1 ⊢
      simp only [Bool.false_eq_true, if_false]
      omega

theorem Scanner_Scan_spec :
    ∀ (fuel : Nat) (s : bufio.Scanner), s.start + s.buf.length ≤ s.cap → scanMeasure s < fuel →
      ∃ tok s1, bufio.Scanner.Scan ScanLexemes fuel s = some (tok, s1) ∧
        s1.start + s1.buf.length ≤ s1.cap ∧ scanMeasure s1 ≤ scanMeasure s ∧
        ∀ t, tok = some t → scanMeasure s1 < scanMeasure s ∧ tokenOK t := by
  intro fuel
  induction fuel with
  | zero => intro s _ h; omega
  | succ fuel ih =>
    intro s hinv hfuel
    obtain ⟨step, hstep, hl, hr⟩ := trySplit_spec s hinv
    unfold bufio.Scanner.Scan
    rw [hstep, Option.some_bind]
    cases step with
    | inl res =>
      obtain ⟨tok, s1⟩ := res
      obtain ⟨h1, h2, h3⟩ := hl tok s1 rfl
      exact ⟨tok, s1, rfl, h1, h2, h3⟩
    | inr s2 =>
      obtain ⟨h1, h2⟩ := hr s2 rfl
      simp only
      by_cases heof : s2.atEOF = true
      · rw [if_pos heof]
        refine ⟨none, _, rfl, by simp, ?_, fun t ht => absurd ht (by simp)⟩
        simp only [scanMeasure, heof, if_true, List.length_nil] at h2 ⊢
        omega
      · rw [if_neg heof]
        simp only [Bool.not_eq_true] at heof
        obtain ⟨g1, g2, g3⟩ := shift_spec s2 h1
        by_cases hfull : s2.shift.start + s2.shift.buf.length = s2.shift.cap
            ∧ s2.shift.cap ≥ bufio.MaxScanTokenSize
        · rw [if_pos hfull]
          exact ⟨none, _, rfl, g1, by omega, fun t ht => absurd ht (by simp)⟩
        · rw [if_neg hfull]
          obtain ⟨k1, k2⟩ := grow_read_spec s2.shift g1 (by rw [g3]; exact heof) hfull
          obtain ⟨tok, s1, e1, e2, e3, e4⟩ := ih s2.shift.grow.read k1 (by omega)
          refine ⟨tok, s1, e1, e2, by omega, ?_⟩
          intro t ht
          obtain ⟨e5, e6⟩ := e4 t ht
          exact ⟨by omega, e6⟩

theorem scanAll_spec (inner : Nat) :
    ∀ (fuel : Nat) (s : bufio.Scanner) (xms : List GoString),
      s.start + s.buf.length ≤ s.cap → scanMeasure s < inner → scanMeasure s < fuel →
      (∀ t ∈ xms, tokenOK t) →
      ∃ ys, scanAll inner fuel s xms = some ys ∧ ∀ t ∈ ys, tokenOK t := by
  intro fuel
  induction fuel with
  | zero => intro s _ _ _ h; omega
  | succ fuel ih =>
    intro s xms hinv hin hfuel hx
    obtain ⟨tok, s1, e1, e2, e3, e4⟩ := Scanner_Scan_spec inner s hinv hin
    unfold scanAll
    rw [e1, Option.some_bind]
    cases tok with
    | none => exact ⟨xms, rfl, hx⟩
    | some t =>
      obtain ⟨e5, e6⟩ := e4 t rfl
      simp only
      apply ih s1 (xms ++ [t]) e2 (by omega) (by omega)
      intro u hu
      rcases List.mem_append.1 hu with h | h
      · exact hx u h
      · simp only [List.mem_singleton] at h
        rw [h]; exact e6

theorem Scan_spec (l : Lexer) (text : GoString) :
    ∃ xms, l.Scan text = some xms ∧ ∀ t ∈ xms, tokenOK t := by
  unfold Lexer.Scan
  apply scanAll_spec
  · simp [bufio.NewScanner]
  · simp [scanMeasure, bufio.NewScanner]
  · simp [scanMeasure, bufio.NewScanner]
  · intro t ht; simp at ht

theorem decodeMulti_bytes (p0 sz lo hi : Nat) (p : GoString) (hlo : 0x80 ≤ lo)
    (h0 : 0x80 ≤ p.getD 0 0) :
    ∀ j, j < (utf8.decodeMulti p0 sz lo hi p).2 → 0x80 ≤ p.getD j 0 := by
  intro j hj
  unfold utf8.decodeMulti at hj
  split_ifs at hj <;> simp only at hj <;>
    (have hj' : j = 0 ∨ j = 1 ∨ j = 2 ∨ j = 3 := by omega) <;>
    rcases hj' with e | e | e | e <;> subst e <;> omega

theorem DecodeRune_bytes (p : GoString) (b : Nat) (hb : b < 0x80)
    (hmem : b ∈ p.take (utf8.DecodeRune p).2) : b = (utf8.DecodeRune p).1 := by
  cases p with
  | nil => simp [utf8.DecodeRune] at hmem
  | cons p0 rest =>
    by_cases h1 : p0 < 0x80
    · have hd : utf8.DecodeRune (p0 :: rest) = (p0, 1) := by
        simp [utf8.DecodeRune, h1]
      rw [hd] at hmem ⊢
      simpa using hmem
    · by_cases h2 : p0 < 0xC2 ∨ 0xF4 < p0
      · have hd : utf8.DecodeRune (p0 :: rest) = (utf8.RuneError, 1) := by
          simp [utf8.DecodeRune, h1, h2]
        rw [hd] at hmem
        simp only [List.take_succ_cons, List.take_zero, List.mem_singleton] at hmem
        omega
      · have hd : utf8.DecodeRune (p0 :: rest)
            = utf8.decodeMulti p0 (if p0 < 0xE0 then 2 else if p0 < 0xF0 then 3 else 4)
                (if p0 = 0xE0 then 0xA0 else if p0 = 0xF0 then 0x90 else 0x80)
                (if p0 = 0xED then 0x9F else if p0 = 0xF4 then 0x8F else 0xBF) (p0 :: rest) := by
          simp only [utf8.DecodeRune, if_neg h1, if_neg h2]
        rw [hd] at hmem
        obtain ⟨j, hjb⟩ := List.mem_iff_getElem?.1 hmem
        have hjw : j < (utf8.decodeMulti p0 (if p0 < 0xE0 then 2 else if p0 < 0xF0 then 3 else 4)
            (if p0 = 0xE0 then 0xA0 else if p0 = 0xF0 then 0x90 else 0x80)
            (if p0 = 0xED then 0x9F else if p0 = 0xF4 then 0x8F else 0xBF) (p0 :: rest)).2 := by
          by_contra hn
          rw [List.getElem?_take_eq_none (by omega)] at hjb
          exact absurd hjb (by simp)
        rw [List.getElem?_take_of_lt hjw] at hjb
        have hlo : 0x80 ≤ (if p0 = 0xE0 then 0xA0 else if p0 = 0xF0 then 0x90 else 0x80) := by
          split_ifs <;> omega
        have := decodeMulti_bytes p0 (if p0 < 0xE0 then 2 else if p0 < 0xF0 then 3 else 4)
          (if p0 = 0xE0 then 0xA0 else if p0 = 0xF0 then 0x90 else 0x80)
          (if p0 = 0xED then 0x9F else if p0 = 0xF4 then 0x8F else 0xBF) (p0 :: rest) hlo
          (by simp; omega) j hjw
        rw [List.getD_eq_getElem?_getD, hjb] at this
        simp only [Option.getD_some] at this
        omega

theorem mem_runesOf_of_ascii (b : Nat) (hb : b < 0x80) :
    ∀ (n : Nat) (p : GoString), p.length ≤ n → b ∈ p → b ∈ runesOf p := by
  intro n
  induction n with
  | zero =>
    intro p hp hmem
    have : p = [] := List.length_eq_zero.1 (by omega)
    rw [this] at hmem
    simp at hmem
  | succ n ih =>
    intro p hp hmem
    have hne : p ≠ [] := by
      intro e; rw [e] at hmem; simp at hmem
    have hw := DecodeRune_width p hne
    rw [runesOf_cons p hne]
    rw [← List.take_append_drop (utf8.DecodeRune p).2 p] at hmem
    rcases List.mem_append.1 hmem with h | h
    · rw [DecodeRune_bytes p b hb h]
      exact List.mem_cons_self _ _
    · apply List.mem_cons_of_mem
      apply ih _ _ h
      rw [List.length_drop]; omega

theorem tokenOK_LF_alone (t : GoString) (h : tokenOK t) (hm : 10 ∈ t) : t = LF := by
  rcases h.2 with h1 | h1
  · exact h1
  · have := h1 10 (mem_runesOf_of_ascii 10 (by omega) t.length t (le_refl _) hm)
    have h10 : unicode.IsSpace 10 = true := by decide
    rw [h10] at this
    exact absurd this (by simp)

theorem DecodeRune_letters (k : Nat) (tl : GoString) :
    utf8.DecodeRune (List.replicate (k + 1) 97 ++ tl) = (97, 1) := by
  simp [utf8.DecodeRune, List.replicate_succ]

theorem drop_replicate_letters (c i : Nat) (h : i < c) :
    ∃ k, (List.replicate c 97 : GoString).drop i = List.replicate (k + 1) 97 := by
  refine ⟨c - i - 1, ?_⟩
  rw [List.drop_replicate]
  congr 1
  omega

theorem wordLoop_letters (c start : Nat) :
    ∀ (fuel i : Nat), c - i ≤ fuel → wordLoop (List.replicate c 97) start fuel i = some none := by
  intro fuel
  induction fuel with
  | zero =>
    intro i h
    have : ¬ i < (List.replicate c 97 : GoString).length := by
      rw [List.length_replicate]; omega
    unfold wordLoop
    rw [if_neg this]
  | succ fuel ih =>
    intro i h
    unfold wordLoop
    by_cases hlt : i < c
    · obtain ⟨k, hk⟩ := drop_replicate_letters c i hlt
      have hd : utf8.DecodeRune ((List.replicate c 97 : GoString).drop i) = (97, 1) := by
        rw [hk]
        have := DecodeRune_letters k []
        simpa using this
      have hlt2 : i < (List.replicate c 97 : GoString).length := by
        rw [List.length_replicate]; exact hlt
      have hsp : unicode.IsSpace 97 = false := by decide
      simp only [hlt2, if_true, hd, hsp]
      simp only [Nat.reduceEqDiff, if_false, Bool.false_eq_true]
      exact ih (i + 1) (by omega)
    · have : ¬ i < (List.replicate c 97 : GoString).length := by
        rw [List.length_replicate]; exact hlt
      rw [if_neg this]

theorem skipLeading_letters (c fuel : Nat) :
    skipLeading (List.replicate c 97) fuel 0 = some 0 := by
  have hsp : unicode.IsSpace 97 = false := by decide
  have key : ¬ (0 < (List.replicate c 97 : GoString).length ∧
      ¬ ((utf8.DecodeRune ((List.replicate c 97 : GoString).drop 0)).1 = 10
        ∨ unicode.IsSpace (utf8.DecodeRune ((List.replicate c 97 : GoString).drop 0)).1
            = false)) := by
    rintro ⟨h1, h2⟩
    rw [List.length_replicate] at h1
    obtain ⟨k, hk⟩ := drop_replicate_letters c 0 h1
    rw [hk] at h2
    have := DecodeRune_letters k []
    simp only [List.append_nil] at this
    rw [this] at h2
    exact h2 (Or.inr hsp)
  cases fuel with
  | zero => unfold skipLeading; rw [if_neg key]
  | succ f => unfold skipLeading; rw [if_neg key]

theorem ScanLexemes_letters (c : Nat) :
    ScanLexemes (List.replicate c 97) false = some (0, none) := by
  unfold ScanLexemes
  rw [skipLeading_letters, Option.some_bind, wordLoop_letters c 0 _ 0 (by simp),
    Option.some_bind]
  simp

theorem Scan_step_letters (fuel c : Nat) (r1 : GoString) (hc : 0 < c) (h2c : 2 * c ≤ 65536) :
    bufio.Scanner.Scan ScanLexemes (fuel + 1)
        { r := List.replicate c 97 ++ r1, buf := List.replicate c 97, start := 0, cap := c,
          atEOF := false }
      = bufio.Scanner.Scan ScanLexemes fuel
        { r := r1, buf := List.replicate (2 * c) 97, start := 0, cap := 2 * c,
          atEOF := false } := by
  have hsplit : bufio.Scanner.trySplit ScanLexemes
      { r := List.replicate c 97 ++ r1, buf := List.replicate c 97, start := 0, cap := c,
        atEOF := false }
      = some (Sum.inr { r := List.replicate c 97 ++ r1, buf := List.replicate c 97, start := 0,
                        cap := c, atEOF := false }) := by
    unfold bufio.Scanner.trySplit
    simp only [List.length_replicate, ScanLexemes_letters, Option.some_bind]
    simp [hc]
  have hshift : bufio.Scanner.shift
      { r := List.replicate c 97 ++ r1, buf := List.replicate c 97, start := 0, cap := c,
        atEOF := false }
      = { r := List.replicate c 97 ++ r1, buf := List.replicate c 97, start := 0, cap := c,
          atEOF := false } := by
    simp [bufio.Scanner.shift]
  have hgrow : bufio.Scanner.grow
      { r := List.replicate c 97 ++ r1, buf := List.replicate c 97, start := 0, cap := c,
        atEOF := false }
      = { r := List.replicate c 97 ++ r1, buf := List.replicate c 97, start := 0,
          cap := 2 * c, atEOF := false } := by
    have h1 : ¬ c * 2 = 0 := by omega
    have h2 : min (c * 2) bufio.MaxScanTokenSize = 2 * c := by
      simp only [bufio.MaxScanTokenSize]; omega
    simp [bufio.Scanner.grow, h1, h2]
  have hread : bufio.Scanner.read
      { r := List.replicate c 97 ++ r1, buf := List.replicate c 97, start := 0,
        cap := 2 * c, atEOF := false }
      = { r := r1, buf := List.replicate (2 * c) 97, start := 0, cap := 2 * c,
          atEOF := false } := by
    have hne : (List.replicate c 97 ++ r1 : GoString) ≠ [] := by
      intro e
      have := congrArg List.length e
      simp at this
      omega
    have hmin : min (2 * c - (0 + (List.replicate c 97 : GoString).length))
        (List.replicate c 97 ++ r1 : GoString).length = c := by
      simp only [List.length_replicate, List.length_append]; omega
    unfold bufio.Scanner.read
    simp only [hne, if_false, hmin]
    have ht : (List.replicate c 97 ++ r1 : GoString).take c = List.replicate c 97 := by
      rw [List.take_left' (by simp)]
    have hd : (List.replicate c 97 ++ r1 : GoString).drop c = r1 := by
      rw [List.drop_left' (by simp)]
    rw [ht, hd, ← List.replicate_add, ← Nat.two_mul]
  have hfull : ¬ ((0 : Nat) + (List.replicate c 97 : GoString).length = c
      ∧ c ≥ bufio.MaxScanTokenSize) := by
    simp only [bufio.MaxScanTokenSize]; omega
  conv_lhs => unfold bufio.Scanner.Scan
  rw [hsplit, Option.some_bind]
  simp only [Bool.false_eq_true, if_false, hshift, hfull, hgrow, hread]

theorem Scan_init_letters (fuel c : Nat) (r1 : GoString) (hc : c = 4096) :
    bufio.Scanner.Scan ScanLexemes (fuel + 1)
        (bufio.NewScanner (List.replicate c 97 ++ r1))
      = bufio.Scanner.Scan ScanLexemes fuel
        { r := r1, buf := List.replicate c 97, start := 0, cap := c, atEOF := false } := by
  have hne : (List.replicate c 97 ++ r1 : GoString) ≠ [] := by
    intro e
    have := congrArg List.length e
    simp at this
    omega
  have hmin : min (c - (0 + ([] : GoString).length))
      (List.replicate c 97 ++ r1 : GoString).length = c := by
    simp only [List.length_replicate, List.length_append, List.length_nil]; omega
  have ht : (List.replicate c 97 ++ r1 : GoString).take c = List.replicate c 97 := by
    rw [List.take_left' (by simp)]
  have hd : (List.replicate c 97 ++ r1 : GoString).drop c = r1 := by
    rw [List.drop_left' (by simp)]
  have hsplit : bufio.Scanner.trySplit ScanLexemes (bufio.NewScanner (List.replicate c 97 ++ r1))
      = some (Sum.inr (bufio.NewScanner (List.replicate c 97 ++ r1))) := by
    simp [bufio.Scanner.trySplit, bufio.NewScanner]
  have hshift : bufio.Scanner.shift (bufio.NewScanner (List.replicate c 97 ++ r1))
      = bufio.NewScanner (List.replicate c 97 ++ r1) := by
    simp [bufio.Scanner.shift, bufio.NewScanner]
  have hgrow : bufio.Scanner.grow (bufio.NewScanner (List.replicate c 97 ++ r1))
      = { r := List.replicate c 97 ++ r1, buf := [], start := 0, cap := c, atEOF := false } := by
    have hcap : min bufio.startBufSize bufio.MaxScanTokenSize = c := by
      rw [hc]; decide
    unfold bufio.Scanner.grow bufio.NewScanner
    simp only [List.length_nil, Nat.add_zero, Nat.zero_mul, if_true, hcap]
  have hread : bufio.Scanner.read
      { r := List.replicate c 97 ++ r1, buf := [], start := 0, cap := c, atEOF := false }
      = { r := r1, buf := List.replicate c 97, start := 0, cap := c, atEOF := false } := by
    unfold bufio.Scanner.read
    simp only [hne, if_false, hmin, ht, hd, List.nil_append]
  have hfull : ¬ ((bufio.NewScanner (List.replicate c 97 ++ r1)).start
      + (bufio.NewScanner (List.replicate c 97 ++ r1)).buf.length
        = (bufio.NewScanner (List.replicate c 97 ++ r1)).cap
      ∧ (bufio.NewScanner (List.replicate c 97 ++ r1)).cap ≥ bufio.MaxScanTokenSize) := by
    simp [bufio.NewScanner, bufio.MaxScanTokenSize]
  have heof : (bufio.NewScanner (List.replicate c 97 ++ r1)).atEOF = false := rfl
  conv_lhs => unfold bufio.Scanner.Scan
  rw [hsplit, Option.some_bind]
  simp only [heof, Bool.false_eq_true, if_false, hshift, hfull, hgrow, hread]

theorem Scan_full_letters (fuel c : Nat) (r1 : GoString) (hc : c = 65536) :
    bufio.Scanner.Scan ScanLexemes (fuel + 1)
        { r := r1, buf := List.replicate c 97, start := 0, cap := c, atEOF := false }
      = some (none, { r := r1, buf := List.replicate c 97, start := 0, cap := c,
                      atEOF := false }) := by
  have hsplit : bufio.Scanner.trySplit ScanLexemes
      { r := r1, buf := List.replicate c 97, start := 0, cap := c, atEOF := false }
      = some (Sum.inr { r := r1, buf := List.replicate c 97, start := 0, cap := c,
                        atEOF := false }) := by
    have hpos : 0 < c := by omega
    unfold bufio.Scanner.trySplit
    simp only [List.length_replicate, ScanLexemes_letters, Option.some_bind]
    simp [hpos]
  have hshift : bufio.Scanner.shift
      { r := r1, buf := List.replicate c 97, start := 0, cap := c, atEOF := false }
      = { r := r1, buf := List.replicate c 97, start := 0, cap := c, atEOF := false } := by
    simp [bufio.Scanner.shift]
  have hfull : (0 : Nat) + (List.replicate c 97 : GoString).length = c
      ∧ c ≥ bufio.MaxScanTokenSize := by
    simp only [bufio.MaxScanTokenSize, List.length_replicate]; omega
  conv_lhs => unfold bufio.Scanner.Scan
  rw [hsplit, Option.some_bind]
  simp only [Bool.false_eq_true, if_false, hshift, hfull, and_self, if_true]

theorem Scan_long_word_gen (l : Lexer) (c : Nat) (hc : c = 4096) (rest : GoString) :
    l.Scan (List.replicate (16 * c) 97 ++ rest) = some [] := by
  have hsplit : (List.replicate (16 * c) 97 : GoString)
      = List.replicate c 97 ++ (List.replicate c 97 ++ (List.replicate (2 * c) 97
          ++ (List.replicate (2 * (2 * c)) 97 ++ List.replicate (2 * (2 * (2 * c))) 97))) := by
    simp only [← List.replicate_add]
    congr 1
    omega
  obtain ⟨k, hk⟩ : ∃ k, 2 * (List.replicate (16 * c) 97 ++ rest : GoString).length + 2
      = k + 6 := by
    refine ⟨2 * (List.replicate (16 * c) 97 ++ rest : GoString).length + 2 - 6, ?_⟩
    simp only [List.length_append, List.length_replicate]
    omega
  unfold Lexer.Scan
  rw [hk]
  have hscan : bufio.Scanner.Scan ScanLexemes (k + 6)
      (bufio.NewScanner (List.replicate (16 * c) 97 ++ rest))
      = some (none, { r := rest, buf := List.replicate (2 * (2 * (2 * (2 * c)))) 97, start := 0,
                      cap := 2 * (2 * (2 * (2 * c))), atEOF := false }) := by
    rw [hsplit]
    simp only [List.append_assoc]
    rw [Scan_init_letters _ c _ hc,
      Scan_step_letters _ c _ (by omega) (by omega),
      Scan_step_letters _ (2 * c) _ (by omega) (by omega),
      Scan_step_letters _ (2 * (2 * c)) _ (by omega) (by omega),
      Scan_step_letters _ (2 * (2 * (2 * c))) _ (by omega) (by omega)]
    exact Scan_full_letters k _ rest (by omega)
  unfold scanAll
  rw [hscan]
  rfl

/-- C17, the code at the failing input: a text that starts with a word of 65536 bytes (here
65536 letters `a`) fills the scanner's buffer of `MaxScanTokenSize` bytes before the word
ends; `s.Scan()` returns false (`ErrTooLong`), `Scan` does not look at the error and returns
no token at all, whatever follows the word. The reference of the claim yields the word itself
(and the tokens after it). Short texts are scanned as the claim says. -/
theorem scan_drops_long_token :
    (Lexer.mk 0).Scan (List.replicate 65536 97) = some [] ∧
    (∀ rest : GoString, (Lexer.mk 0).Scan (List.replicate 65536 97 ++ rest) = some []) ∧
    (Lexer.mk 0).Scan (ascii "ab  c\n\n d \n") = some [ascii "ab", ascii "c", LF, LF, ascii "d", LF] := by
  refine ⟨?_, ?_, by decide⟩
  · have h := Scan_long_word_gen (Lexer.mk 0) 4096 rfl []
    rw [List.append_nil] at h
    exact h
  · intro rest
    exact Scan_long_word_gen (Lexer.mk 0) 4096 rfl rest

/-- C18 (token invariant). For every text, `Scan(text)` returns, and every token of the result
is non-empty and is either exactly `"\n"` or contains no Unicode whitespace character at all;
in particular a byte `'\n'` never occurs inside a longer token. -/
theorem scan_token_invariant (l : Lexer) (text : GoString) :
    ∃ xms, l.Scan text = some xms ∧
      ∀ t ∈ xms, t ≠ [] ∧ (t = LF ∨ ∀ r ∈ runesOf t, unicode.IsSpace r = false) ∧
        (10 ∈ t → t = LF) := by
  obtain ⟨xms, h1, h2⟩ := Scan_spec l text
  refine ⟨xms, h1, ?_⟩
  intro t ht
  exact ⟨(h2 t ht).1, (h2 t ht).2, tokenOK_LF_alone t (h2 t ht)⟩

/-- C19 (totality on scanned input). For all texts `a` and `b` and every Precision, `Scan(a)`
and `Scan(b)` return sequences of non-empty tokens and `Compare(Scan(a), Scan(b))` returns a
result: no index expression of `Compare`, `IsFloatLexeme`, `GenMaskForInt`, `GenMaskForFloat`
or `GenMaskForString` is out of range (an out-of-range index is `none` in the embedding). -/
theorem compare_total_on_scanned (l : Lexer) (a b : GoString) :
    ∃ ta tb, l.Scan a = some ta ∧ l.Scan b = some tb ∧
      (∀ t ∈ ta, t ≠ []) ∧ (∀ t ∈ tb, t ≠ []) ∧
      ∃ rts ok, l.Compare ta tb = some (rts, ok) ∧ rts.length = ta.length := by
  obtain ⟨ta, ha1, ha2⟩ := Scan_spec l a
  obtain ⟨tb, hb1, hb2⟩ := Scan_spec l b
  have hta : ∀ t ∈ ta, t ≠ [] := fun t ht => (ha2 t ht).1
  have htb : ∀ t ∈ tb, t ≠ [] := fun t ht => (hb2 t ht).1
  refine ⟨ta, tb, ha1, hb1, hta, htb, _, _, Compare_eq l ta tb hta htb, ?_⟩
  have := congrArg List.length (alignL_strs l ta tb)
  simpa using this

theorem all_dots_of_no_digit (u : GoString)
    (h1 : u.all (fun c => isDigit c || decide (c = 46)) = true) (h2 : u.any isDigit = false) :
    u.count 46 = u.length := by
  induction u with
  | nil => rfl
  | cons c cs ih =>
    simp only [List.all_cons, Bool.and_eq_true, Bool.or_eq_true, decide_eq_true_eq] at h1
    simp only [List.any_cons, Bool.or_eq_false_iff] at h2
    have hc : c = 46 := by
      rcases h1.1 with h | h
      · rw [h2.1] at h; exact absurd h (by simp)
      · exact h
    rw [hc, List.count_cons_self, ih h1.2 h2.2, List.length_cons]

theorem unsignedPart_eq_nil (t : GoString) (h0 : t ≠ []) (h : unsignedPart t = []) :
    t = [43] ∨ t = [45] := by
  cases t with
  | nil => exact absurd rfl h0
  | cons c cs =>
    unfold unsignedPart at h
    simp only [List.head?_cons, Option.some.injEq, List.drop_succ_cons, List.drop_zero] at h
    split_ifs at h with hc
    · subst h
      rcases hc with e | e
      · left; rw [e]
      · right; rw [e]

/-- Every non-empty token that is not a decimal numeral, other than the lone signs `"+"` and
`"-"`, is classified as String. -/
theorem non_numeral_is_string (t : GoString) (h0 : t ≠ []) (hn : isDecimalNumeral t = false)
    (hplus : t ≠ [43]) (hminus : t ≠ [45]) : DeduceLexemeType t = some .STRXM := by
  rw [DeduceLexemeType_eq t h0]
  have hf : floatOk t = false := by
    by_contra hne
    simp only [Bool.not_eq_false] at hne
    unfold floatOk at hne
    simp only [Bool.and_eq_true, decide_eq_true_eq] at hne
    obtain ⟨⟨h1, h2⟩, h3⟩ := hne
    rw [Split_length] at h1
    have hcount : (unsignedPart t).count 46 ≤ 1 := by omega
    unfold isDecimalNumeral at hn
    simp only [h2, hcount, decide_True, Bool.and_self, Bool.true_and] at hn
    have hlen := all_dots_of_no_digit _ h2 hn
    have hne : unsignedPart t ≠ [] := by
      intro e
      rcases unsignedPart_eq_nil t h0 e with h | h
      · exact hplus h
      · exact hminus h
    have hl1 : (unsignedPart t).length = 1 := by
      have : 0 < (unsignedPart t).length := List.length_pos.2 hne
      omega
    obtain ⟨x, hx⟩ := List.length_eq_one.1 hl1
    rw [hx] at hlen
    have hx46 : x = 46 := by
      by_contra hne46
      rw [List.count_cons_of_ne (fun e => hne46 e.symm)] at hlen
      simp at hlen
    rw [hx, hx46] at h3
    exact h3 rfl
  simp [typeFn, hf]

theorem foldl_digits_ge (cs : GoString) :
    ∀ a : Nat, a ≤ cs.foldl (fun n c => n * 10 + (c - 48)) a := by
  induction cs with
  | nil => intro a; exact le_refl _
  | cons c cs ih =>
    intro a
    have := ih (a * 10 + (c - 48))
    simp only [List.foldl_cons]
    omega

theorem atoiFast_eq (cs : GoString) :
    ∀ a : Nat, (∀ d ∈ cs, isDigit d = true) →
      strconv.atoiFast cs a = some (cs.foldl (fun n c => n * 10 + (c - 48)) a) := by
  induction cs with
  | nil => intro a _; rfl
  | cons c cs ih =>
    intro a h
    have hc : isDigit c = true := h c (List.mem_cons_self _ _)
    simp only [strconv.atoiFast, hc, if_true, List.foldl_cons]
    exact ih _ (fun d hd => h d (List.mem_cons_of_mem _ hd))

theorem parseUintLoop_eq (cs : GoString) :
    ∀ a : Nat, (∀ d ∈ cs, isDigit d = true) →
      cs.foldl (fun n c => n * 10 + (c - 48)) a < 2 ^ 64 →
      strconv.parseUintLoop cs a = .ok (cs.foldl (fun n c => n * 10 + (c - 48)) a) := by
  induction cs with
  | nil => intro a _ _; rfl
  | cons c cs ih =>
    intro a h hlt
    have hc : isDigit c = true := h c (List.mem_cons_self _ _)
    simp only [List.foldl_cons] at hlt ⊢
    have hge := foldl_digits_ge cs (a * 10 + (c - 48))
    have h1 : ¬ a ≥ strconv.maxUint64 / 10 + 1 := by
      simp only [strconv.maxUint64]; omega
    have h2 : ¬ a * 10 + (c - 48) > strconv.maxUint64 := by
      simp only [strconv.maxUint64]; omega
    unfold strconv.parseUintLoop
    simp only [hc, Bool.not_true, Bool.false_eq_true, if_false, h1, h2]
    exact ih _ (fun d hd => h d (List.mem_cons_of_mem _ hd)) hlt

theorem Atoi_digits (s : GoString) (h0 : s ≠ []) (hd : ∀ d ∈ s, isDigit d = true)
    (hv : decimalValue s < 2 ^ 63) : strconv.Atoi s = (((decimalValue s : Nat) : Int), true) := by
  cases s with
  | nil => exact absurd rfl h0
  | cons c cs =>
    have hc := isDigit_not_sign c (hd c (List.mem_cons_self _ _))
    have hsign : ¬ (c = 45 ∨ c = 43) := by omega
    have hsign2 : ¬ (c = 43 ∨ c = 45) := by omega
    unfold strconv.Atoi
    simp only
    by_cases hlen : (c :: cs).length < 19
    · rw [if_pos hlen, if_neg hsign, atoiFast_eq _ 0 hd]
      rfl
    · rw [if_neg hlen]
      have hne : ¬ (c = 45) := by omega
      have hlt : (c :: cs).foldl (fun n c => n * 10 + (c - 48)) 0 < 2 ^ 64 := by
        unfold decimalValue at hv; omega
      have hv2 : ¬ ((c :: cs).foldl (fun n c => n * 10 + (c - 48)) 0 ≥ 2 ^ 63) := by
        unfold decimalValue at hv; omega
      have hPU : strconv.ParseUint (c :: cs)
          = .ok ((c :: cs).foldl (fun n c => n * 10 + (c - 48)) 0) := by
        unfold strconv.ParseUint
        rw [if_neg (by simp)]
        exact parseUintLoop_eq _ 0 hd hlt
      have h43 : ¬ (c = 43) := by omega
      unfold strconv.ParseInt
      simp only [h43, hne, or_self, if_false, hPU, decide_False, Bool.not_false, true_and, hv2,
        Bool.false_eq_true, false_and]
      rfl

/-- Below `2^63` the magnitude comparison works for runs of digits of any length: two
non-empty runs of decimal digits that denote different numbers below `2^63` get a mask that
flags every position of the target. -/
theorem digit_runs_below_int_max (l : Lexer) (t s : GoString) (ht0 : t ≠ []) (hs0 : s ≠ [])
    (ht : ∀ d ∈ t, isDigit d = true) (hs : ∀ d ∈ s, isDigit d = true)
    (hvt : decimalValue t < 2 ^ 63) (hvs : decimalValue s < 2 ^ 63)
    (hne : decimalValue t ≠ decimalValue s) :
    l.GenerateMask t s = some (List.replicate t.length true) := by
  have hint : intMaskFn t s = List.replicate t.length true := by
    unfold intMaskFn
    have habs : ∀ v : Nat, absInt64 (v : Int) = (v : Int) := by
      intro v
      unfold absInt64
      rw [if_neg (by omega)]
    simp only [ht0, hs0, or_self, if_false, Atoi_digits t ht0 ht hvt, Atoi_digits s hs0 hs hvs,
      habs, ne_eq, Nat.cast_inj, hne, not_false_eq_true, if_true]
  have hdot : ∀ x : GoString, (∀ d ∈ x, isDigit d = true) → 46 ∉ x :=
    fun x hx hm => (isDigit_not_sign 46 (hx 46 hm)).2.2.1 rfl
  have htype : ∀ x : GoString, x ≠ [] → (∀ d ∈ x, isDigit d = true) →
      typeFn x = .INTXM ∨ typeFn x = .FLOATXM := by
    intro x hx0 hx
    by_cases hlen : x.length ≤ 10
    · exact Or.inl (typeFn_digits_short x hx0 hx hlen)
    · exact Or.inr (typeFn_digits_long x hx (by omega))
  have hfloat : floatMaskFn (intOfUint l.Precision) t s = intMaskFn t s := by
    unfold floatMaskFn
    rw [(wholeOf_eq_self t).2 (hdot t ht), (wholeOf_eq_self s).2 (hdot s hs)]
    simp [hs0]
  rw [GenerateMask_eq l t s ht0 hs0]
  unfold maskFn
  rcases htype t ht0 ht with e1 | e1 <;> rcases htype s hs0 hs with e2 | e2 <;>
    simp [e1, e2, LexemeType.toNat, hfloat, hint]
